import Mathlib

/-!
# gifdec: a verification development

A shallow embedding of `src/gifdec.c` and theorems about it.

Conventions of the embedding.

* C `int` values that can be negative are `Int`; bytes, `uint16_t` values,
  buffer offsets and sizes are `Nat`, reduced modulo `2^8` / `2^16` where the
  C code stores them into a narrower type.
* C integer division truncates toward zero: `Int.tdiv`.
* Code whose behaviour C leaves undefined on some inputs (shift counts of 32
  or more, signed overflow, reads of indeterminate memory, accesses outside a
  buffer, division by zero) returns `Option`, `none` standing for "no defined
  result" (including a loop that never exits).
-/

namespace Gifdec

/-! ## Interlace transform (`interlaced_line_index`, lines 314-334) -/

/-- Output row of the `y`-th input line in a frame of height `h`:
`interlaced_line_index`, with C's truncating division. -/
def interlaced_line_index (h y : Int) : Int :=
  let p := Int.tdiv (h - 1) 8 + 1
  if y < p then y * 8 else
  let y := y - p
  let p := Int.tdiv (h - 5) 8 + 1
  if y < p then y * 8 + 4 else
  let y := y - p
  let p := Int.tdiv (h - 3) 4 + 1
  if y < p then y * 4 + 2 else
  let y := y - p
  y * 2 + 1

/-- Ceiling of `a / b` for a positive divisor `b` (`a` may be negative). -/
def ceilDiv (a b : Int) : Int := -((-a) / b)

/-- The 4-pass GIF interlace schedule as the specification words it: pass
sizes `ceil(h/8)`, `ceil((h-4)/8)`, `ceil((h-2)/4)`, strides `8,8,4,2` and
starting rows `0,4,2,1`. -/
def scheduleRow (h y : Int) : Int :=
  let p1 := ceilDiv h 8
  let p2 := ceilDiv (h - 4) 8
  let p3 := ceilDiv (h - 2) 4
  if y < p1 then 8 * y
  else if y < p1 + p2 then 8 * (y - p1) + 4
  else if y < p1 + p2 + p3 then 4 * (y - p1 - p2) + 2
  else 2 * (y - p1 - p2 - p3) + 1

/-! ## Colour reduction (`reduce_color`, lines 442-457) -/

/-- C `a << s` on 32-bit `int` for a non-negative `a`: defined only when the
shift count is below 32 and the result is representable. -/
def shlInt (a s : Nat) : Option Nat :=
  if s < 32 ∧ a * 2 ^ s < 2 ^ 31 then some (a * 2 ^ s) else none

/-- The function `reduce_color` on the triple `rgb[0], rgb[1], rgb[2]`.
C precedence makes line 449 `(0x1c & g) << (3 + (b >> 3))` and line 453
`((0xe0 & r) + (0xe0 & (g >> 3)) + (0xc0 & b)) >> 6`. -/
def reduce_color (r g b : Nat) (to_ : Int) : Option Nat :=
  if to_ = 2 then
    let rd := (0xf8 &&& r) + (g >>> 5)
    (shlInt rd 8).bind fun rd =>
    (shlInt (0x1c &&& g) (3 + (b >>> 3))).bind fun t =>
    if rd + t < 2 ^ 31 then some (rd + t) else none
  else if to_ = 1 then
    some (((0xe0 &&& r) + (0xe0 &&& (g >>> 3)) + (0xc0 &&& b)) >>> 6)
  else some 0

/-- The standard 5-6-5 packing of an RGB triple. -/
def pack565 (r g b : Nat) : Nat :=
  ((r >>> 3) <<< 11) ||| ((g >>> 2) <<< 5) ||| (b >>> 3)

/-- The standard 3-3-2 packing of an RGB triple. -/
def pack332 (r g b : Nat) : Nat :=
  (r &&& 0xE0) ||| ((g &&& 0xE0) >>> 3) ||| (b >>> 6)

/-! ## The handle (`gd_GIF`)

The header `gifdec.h` is not part of the sources; the record below carries the
fields `gifdec.c` uses, with the widths its assignments imply. -/

/-- A `FILE *` opened for reading: the file's bytes, the read position and the
end-of-file indicator. -/
structure FILE where
  data : List Nat
  pos : Nat
  eof : Bool
deriving DecidableEq, Repr

/-- A colour table (`gd_Palette`): `size` and `0x100 * 3` colour bytes. -/
structure gd_Palette where
  size : Nat
  colors : List Nat
deriving DecidableEq, Repr

/-- Graphic-control state (`gd_GCE`). -/
structure gd_GCE where
  delay : Nat
  tindex : Nat
  disposal : Nat
  input : Nat
  transparency : Nat
deriving DecidableEq, Repr

/-- Target of the pointer `gif->palette`: null (as `calloc` leaves it), the
global table `gif->gct`, or the local table `gif->lct`. -/
inductive PaletteRef where
  | null
  | gct
  | lct
deriving DecidableEq, Repr

/-- The handle `gd_GIF`. A callback receives the handle and may read from
`gif->fd`; it is modelled by the position at which it leaves the stream. -/
structure gd_GIF where
  fd : FILE
  anim_start : Nat
  width : Nat
  height : Nat
  depth : Nat
  loop_count : Nat
  gce : gd_GCE
  palette : PaletteRef
  lct : gd_Palette
  gct : gd_Palette
  plain_text : Option (FILE → Nat)
  comment : Option (FILE → Nat)
  application : Option (FILE → Nat)
  fx : Nat
  fy : Nat
  fw : Nat
  fh : Nat
  bgindex : Nat
  canvasbytes : Nat
  canvas : List Nat
  frame : List Nat

/-- The table `gif->palette` points to, if any. -/
def gd_GIF.activePalette (gif : gd_GIF) : Option gd_Palette :=
  match gif.palette with
  | .null => none
  | .gct => some gif.gct
  | .lct => some gif.lct

/-! ## Memory and loops -/

/-- Read of `buf[i]`; `none` outside the buffer. -/
def load (buf : List Nat) (i : Nat) : Option Nat := buf[i]?

/-- Write `buf[i] = v` of a byte; `none` outside the buffer. -/
def store (buf : List Nat) (i v : Nat) : Option (List Nat) :=
  if i < buf.length then some (buf.set i (v % 256)) else none

/-- Three consecutive byte writes at `off`: `memcpy(&buf[off], color, 3)`. -/
def store3 (buf : List Nat) (off c0 c1 c2 : Nat) : Option (List Nat) :=
  (store buf off c0).bind fun b1 =>
  (store b1 (off + 1) c1).bind fun b2 =>
  store b2 (off + 2) c2

/-- A counting loop `for (k = k0; k < k0 + n; k++) body(k)` over a state,
stopping with `none` as soon as an iteration has no defined result. -/
def forLoop {σ : Type} (body : Nat → σ → Option σ) : Nat → Nat → σ → Option σ
  | _, 0, s => some s
  | k, n + 1, s => (body k s).bind (forLoop body (k + 1) n)

/-! ## Rendering and disposal (lines 459-520, 549-554) -/

/-- Body of the inner loop of `render_frame_rect` (lines 467-482) for row `j`,
column `k` and running row offset `i`. -/
def render_pixel (gif : gd_GIF) (i j k : Nat) (buffer : List Nat) : Option (List Nat) :=
  (load gif.frame ((gif.fy + j) * gif.width + gif.fx + k)).bind fun index =>
  gif.activePalette.bind fun pal =>
  if gif.gce.transparency = 0 ∨ index ≠ gif.gce.tindex then
    (load pal.colors (index * 3)).bind fun c0 =>
    (load pal.colors (index * 3 + 1)).bind fun c1 =>
    (load pal.colors (index * 3 + 2)).bind fun c2 =>
    if gif.canvasbytes = 3 then
      store3 buffer ((i + k) * 3) c0 c1 c2
    else if gif.canvasbytes = 2 then
      (reduce_color c0 c1 c2 2).bind fun col =>
      (store buffer ((i + k) * 2) (col >>> 8)).bind fun b1 =>
      store b1 ((i + k) * 2 + 1) col
    else
      (reduce_color c0 c1 c2 1).bind fun col =>
      store buffer (i + k) col
  else some buffer

/-- The function `render_frame_rect`: the state of the outer loop is the
buffer and the row offset `i`. -/
def render_frame_rect (gif : gd_GIF) (buffer : List Nat) : Option (List Nat) :=
  (forLoop (fun j (s : List Nat × Nat) =>
      (forLoop (fun k b => render_pixel gif s.2 j k b) 0 gif.fw s.1).map
        fun b => (b, s.2 + gif.width))
    0 gif.fh (buffer, gif.fy * gif.width + gif.fx)).map Prod.fst

/-- Body of the inner loop of `dispose`, case 2 (lines 500-510), with
`bgcolor` pointing at the bytes `c0 c1 c2`. -/
def dispose_pixel (gif : gd_GIF) (c0 c1 c2 : Nat) (i k : Nat) (canvas : List Nat) :
    Option (List Nat) :=
  if gif.canvasbytes = 3 then
    store3 canvas ((i + k) * 3) c0 c1 c2
  else if gif.canvasbytes = 2 then
    (reduce_color c0 c1 c2 2).bind fun col =>
    (store canvas ((i + k) * 2) (col >>> 8)).bind fun b1 =>
    store b1 ((i + k) * 2 + 1) col
  else
    (reduce_color c0 c1 c2 1).bind fun col =>
    store canvas (i + k) col

/-- Case 2 of `dispose` (lines 496-513): `bgcolor` is taken from the table
`gif->palette` points to. When the rectangle is empty `bgcolor` is never
dereferenced. -/
def dispose_background (gif : gd_GIF) : Option (List Nat) :=
  (forLoop (fun _ (s : List Nat × Nat) =>
      (forLoop (fun k b =>
          gif.activePalette.bind fun pal =>
          (load pal.colors (gif.bgindex * 3)).bind fun c0 =>
          (load pal.colors (gif.bgindex * 3 + 1)).bind fun c1 =>
          (load pal.colors (gif.bgindex * 3 + 2)).bind fun c2 =>
          dispose_pixel gif c0 c1 c2 s.2 k b) 0 gif.fw s.1).map
        fun b => (b, s.2 + gif.width))
    0 gif.fh (gif.canvas, gif.fy * gif.width + gif.fx)).map Prod.fst

/-- The function `dispose`: the handle after the disposal step. -/
def dispose (gif : gd_GIF) : Option gd_GIF :=
  if gif.gce.disposal = 2 then
    (dispose_background gif).map fun c => { gif with canvas := c }
  else if gif.gce.disposal = 3 then
    some gif
  else
    (render_frame_rect gif gif.canvas).map fun c => { gif with canvas := c }

/-- Copy of `n` bytes `memcpy(dst, src, n)`; `none` when either side is
shorter than `n`. -/
def memcpy (dst src : List Nat) (n : Nat) : Option (List Nat) :=
  if n ≤ src.length ∧ n ≤ dst.length then some (src.take n ++ dst.drop n) else none

/-- The function `gd_render_frame`: the caller's buffer afterwards. The size
`width * height * 3` is computed in `int`; the canvas is followed in its
allocation by the frame buffer. -/
def gd_render_frame (gif : gd_GIF) (buffer : List Nat) : Option (List Nat) :=
  if gif.width * gif.height * 3 < 2 ^ 31 then
    (memcpy buffer (gif.canvas ++ gif.frame) (gif.width * gif.height * 3)).bind
      fun b => render_frame_rect gif b
  else none

/-! ## Stream primitives -/

/-- The call `fgetc`: the next byte as an `int`, or `EOF = -1` with the
end-of-file indicator set. -/
def fgetc (f : FILE) : Int × FILE :=
  match f.data[f.pos]? with
  | some b => (((b % 256 : Nat) : Int), { f with pos := f.pos + 1 })
  | none => (-1, { f with eof := true })

/-- The call `fread` of `n` bytes: the bytes actually read (fewer than `n` at
end of file, which sets the indicator) and the stream afterwards. -/
def fread (f : FILE) (n : Nat) : List Nat × FILE :=
  let got := ((f.data.drop f.pos).take n).map (· % 256)
  (got, { f with pos := f.pos + got.length, eof := f.eof || decide (got.length < n) })

/-- The call `fseek(fd, p, SEEK_SET)`. -/
def fseek (f : FILE) (p : Nat) : FILE := { f with pos := p, eof := false }

/-- The call `ftell`. -/
def ftell (f : FILE) : Nat := f.pos

/-- Conversion of an `int` to `uint8_t` (also of `EOF` to 255). -/
def toU8 (a : Int) : Nat := (a % 256).toNat

/-- C `a & m` for an `int` `a` and a non-negative mask `m` (two's complement). -/
def cAnd (a : Int) (m : Nat) : Nat := (a % 2 ^ 32).toNat &&& m

/-- The function `read_num`. A short read leaves bytes of the local array
`bytes` indeterminate; `junk` supplies their values. -/
def read_num (junk : Nat → Nat) (f : FILE) : Nat × FILE :=
  let r := fread f 2
  let b0 := (r.1.getD 0 (junk 0)) % 256
  let b1 := (r.1.getD 1 (junk 1)) % 256
  ((b0 + b1 * 256) % 65536, r.2)

/-! ## Opening a stream (`gd_open_gif`, lines 34-117) -/

/-- Outcome of `gd_open_gif`: `NULL`, a handle, or no defined result. -/
inductive Opened where
  | null
  | handle (gif : gd_GIF)
  | undefined

/-- The signature bytes `"GIF"`. -/
def sigGIF : List Nat := [0x47, 0x49, 0x46]

/-- The version bytes `"89a"`. -/
def ver89a : List Nat := [0x38, 0x39, 0x61]

/-- Lines 68-116 of `gd_open_gif`, from the test of the descriptor byte
`fdsz` on; `fd` is the stream after that byte and `gif` the value the pointer
`gif` has there (`none`: `NULL`). `calloc` tells whether an allocation of the
given buffer size succeeds.

Line 89 stores `canvasbytes` through `gif`, one line before `calloc` assigns
the pointer: the store is defined only when `gif` points to an object, and the
outcome is `undefined` otherwise. The object `calloc` returns on line 90 is
zero-filled and no later statement assigns the field `canvasbytes`. The
allocation size is an `int` expression; when it wraps the buffers of a handle
would not have the sizes below, and the outcome is `undefined`. -/
def gd_open_gif_screen (gif : Option gd_GIF) (calloc : Nat → Bool) (canvasdepth : Int)
    (width height : Nat) (fdsz : Int) (fd : FILE) : Opened :=
  if cAnd fdsz 0x80 = 0 then .null else
  let depth := cAnd (fdsz / 16) 7 + 1
  let gct_sz := 2 ^ (cAnd fdsz 0x07 + 1)
  let r := fgetc fd
  let bgidx := r.1
  let r := fgetc r.2
  let fd := r.2
  let canvasbytes := if canvasdepth > 16 then 3 else if canvasdepth > 8 then 2 else 1
  match gif with
  | none => .undefined
  | some _ =>
  if ¬ calloc (width * height + canvasbytes * width * height) then .null else
  let gct := fread fd (3 * gct_sz)
  let fd := gct.2
  if gct.1.length / 3 ≠ gct_sz then .null else
  if 2 ^ 31 ≤ width * height + canvasbytes * width * height then .undefined else
  let bgindex := toU8 bgidx
  .handle {
    fd := fd
    anim_start := ftell fd
    width := width
    height := height
    depth := depth
    loop_count := 0
    gce := ⟨0, 0, 0, 0, 0⟩
    palette := .gct
    lct := ⟨0, List.replicate (0x100 * 3) 0⟩
    gct := ⟨gct_sz, gct.1 ++ List.replicate (0x100 * 3 - gct.1.length) 0⟩
    plain_text := none
    comment := none
    application := none
    fx := 0
    fy := 0
    fw := 0
    fh := 0
    bgindex := bgindex
    canvasbytes := 0
    canvas := List.replicate (canvasbytes * width * height) 0
    frame := List.replicate (width * height) (if bgindex = 0 then 0 else bgindex) }

/-- The function `gd_open_gif` (lines 34-67, then `gd_open_gif_screen`).
`file` is what `fopen` finds (`none`: it fails); `junk` supplies indeterminate
stack bytes. The pointer `gif` is initialised to `NULL` on line 42 and not
assigned before line 90. -/
def gd_open_gif (junk : Nat → Nat) (calloc : Nat → Bool) (file : Option (List Nat))
    (canvasdepth : Int) : Opened :=
  let gif : Option gd_GIF := none
  match file with
  | none => .null
  | some data =>
    let fd : FILE := ⟨data, 0, false⟩
    let sigver := fread fd 6
    let fd := sigver.2
    if sigver.1.length ≠ 6 then .null else
    if sigver.1.take 3 ≠ sigGIF then .null else
    if sigver.1.drop 3 ≠ ver89a then .null else
    let w := read_num junk fd
    let h := read_num junk w.2
    let r := fgetc h.2
    gd_open_gif_screen gif calloc canvasdepth w.1 h.1 r.1 r.2

/-! ## Extension blocks (lines 119-247) -/

/-- Loop of `discard_sub_blocks`. Once `fgetc` returns `EOF` the loop
condition `size` stays non-zero for ever, so the loop never exits: `none`.
Every other iteration consumes at least one byte, which bounds the number of
iterations by the `fuel` given in `discard_sub_blocks`. -/
def discard_sub_blocks_loop : Nat → FILE → Option FILE
  | 0, _ => none
  | fuel + 1, f =>
    let r := fgetc f
    if r.1 = -1 then none else
    let f := (fread r.2 r.1.toNat).2
    if r.1 = 0 then some f else discard_sub_blocks_loop fuel f

/-- The function `discard_sub_blocks` on the stream of the handle. -/
def discard_sub_blocks (f : FILE) : Option FILE :=
  discard_sub_blocks_loop (f.data.length - f.pos + 1) f

/-- The function `read_plain_text_ext`. -/
def read_plain_text_ext (junk : Nat → Nat) (gif : gd_GIF) : Option gd_GIF :=
  let f :=
    match gif.plain_text with
    | some callback =>
      let f := (fgetc gif.fd).2
      let f := (read_num junk f).2
      let f := (read_num junk f).2
      let f := (read_num junk f).2
      let f := (read_num junk f).2
      let f := (fread f 4).2
      let sub_block := ftell f
      fseek { f with pos := callback f } sub_block
    | none => (fread gif.fd 13).2
  (discard_sub_blocks f).map fun f => { gif with fd := f }

/-- The function `read_graphic_control_ext`. -/
def read_graphic_control_ext (junk : Nat → Nat) (gif : gd_GIF) : gd_GIF :=
  let r := fgetc gif.fd
  let r := fgetc r.2
  let rdit := r.1
  let disposal := cAnd (rdit / 4) 3
  let input := cAnd rdit 2
  let transparency := cAnd rdit 1
  let d := read_num junk r.2
  let t := fgetc d.2
  let e := fgetc t.2
  { gif with
    fd := e.2
    gce := { delay := d.1, tindex := toU8 t.1, disposal := disposal, input := input,
             transparency := transparency } }

/-- The function `read_comment_ext`. -/
def read_comment_ext (gif : gd_GIF) : Option gd_GIF :=
  let f :=
    match gif.comment with
    | some callback => fseek { gif.fd with pos := callback gif.fd } (ftell gif.fd)
    | none => gif.fd
  (discard_sub_blocks f).map fun f => { gif with fd := f }

/-- The bytes `"NETSCAPE"`. -/
def netscape : List Nat := [0x4E, 0x45, 0x54, 0x53, 0x43, 0x41, 0x50, 0x45]

/-- The function `read_application_ext`. Only the eight bytes of `app_id` are
compared (line 205); bytes a short read leaves unset come from `junk`. -/
def read_application_ext (junk : Nat → Nat) (gif : gd_GIF) : Option gd_GIF :=
  let f := (fgetc gif.fd).2
  let r := fread f 8
  let app_id := r.1 ++ ((List.range 8).drop r.1.length).map fun i => junk i % 256
  let f := (fread r.2 3).2
  if app_id = netscape then
    let f := (fgetc f).2
    let f := (fgetc f).2
    let n := read_num junk f
    let f := (fgetc n.2).2
    some { gif with fd := f, loop_count := n.1 }
  else
    match gif.application with
    | some callback =>
      (discard_sub_blocks (fseek { f with pos := callback f } (ftell f))).map
        fun f => { gif with fd := f }
    | none => (discard_sub_blocks f).map fun f => { gif with fd := f }

/-- A code-table entry (`Entry`); the field `prefix` of the source is
`prefix_` here. -/
structure Entry where
  length : Nat
  prefix_ : Nat
  suffix : Nat
deriving DecidableEq, Repr

/-- The code table (`Table`). `entries` has `bulk` slots; a slot that has not
been assigned since `malloc`/`realloc` holds `none`. -/
structure Table where
  bulk : Nat
  nentries : Nat
  entries : List (Option Entry)
deriving DecidableEq, Repr

/-- Lines 256-260 of `new_table`: the table as it is filled in once `malloc`
has returned a block of `init_bulk` entries. -/
def initial_table (key_size : Nat) : Table :=
  let init_bulk := max (2 ^ (key_size + 1)) 0x100
  { bulk := init_bulk
    nentries := 2 ^ key_size + 2
    entries := (List.range (2 ^ key_size)).map (fun key => some ⟨1, 0xFFF, key % 256⟩)
      ++ List.replicate (init_bulk - 2 ^ key_size) none }

/-- The function `new_table`. `malloc n` tells whether the allocation of a
table of `n` entries succeeds; `none` is the return value `NULL`. -/
def new_table (malloc : Nat → Bool) (key_size : Nat) : Option Table :=
  let init_bulk := max (2 ^ (key_size + 1)) 0x100
  if malloc init_bulk then some (initial_table key_size) else none

/-- The function `add_entry`: the table afterwards and the return value 0, 1
or -1. `realloc n` tells whether the reallocation to `n` entries succeeds;
when it fails the function returns -1 and `*tablep` is still the old block,
whose `bulk` line 274 has already doubled. `none` when the store falls outside
the table. -/
def add_entry (realloc : Nat → Bool) (table : Table) (length prefix_ suffix : Nat) :
    Option (Table × Int) :=
  if table.nentries = table.bulk ∧ realloc (table.bulk * 2) = false then
    some ({ table with bulk := table.bulk * 2 }, -1)
  else
  let table : Table :=
    if table.nentries = table.bulk then
      { table with bulk := table.bulk * 2,
                   entries := table.entries ++ List.replicate table.bulk none }
    else table
  if table.nentries < table.entries.length then
    let table : Table :=
      { table with
        entries := table.entries.set table.nentries
          (some ⟨length % 65536, prefix_ % 65536, suffix % 256⟩)
        nentries := table.nentries + 1 }
    some (table, if table.nentries &&& (table.nentries - 1) = 0 then 1 else 0)
  else none

/-! ## Bit reader (`get_key`, lines 287-312) -/

/-- The variables `get_key` updates through its pointers, and the stream. -/
structure KeyReader where
  fd : FILE
  sub_len : Nat
  shift : Nat
  byte : Nat
deriving DecidableEq, Repr

/-- The `for` loop of `get_key` from `bits_read` on, accumulating `key`
(a `uint16_t`). Every iteration adds `frag_size >= 1` to `bits_read`, so
`fuel = key_size` iterations suffice. -/
def get_key_loop (key_size : Nat) : Nat → Nat → Nat → KeyReader → Nat × KeyReader
  | 0, _, key, s => (key, s)
  | fuel + 1, bits_read, key, s =>
    if bits_read < key_size then
      let rpad := (s.shift + bits_read) % 8
      let s : KeyReader :=
        if rpad = 0 then
          let r1 := if s.sub_len = 0 then
              let r := fgetc s.fd
              (toU8 r.1, r.2)
            else (s.sub_len, s.fd)
          let r2 := fgetc r1.2
          { s with fd := r2.2, byte := toU8 r2.1, sub_len := (r1.1 + 255) % 256 }
        else s
      let frag_size := min (key_size - bits_read) (8 - rpad)
      let key := (key ||| ((s.byte >>> rpad) <<< bits_read)) % 65536
      get_key_loop key_size fuel (bits_read + frag_size) key s
    else (key, s)

/-- The function `get_key`; the mask `(1 << key_size) - 1` is taken as the
number `2^key_size - 1` (the shift is defined in C for `key_size < 31`). -/
def get_key (key_size : Nat) (s : KeyReader) : Nat × KeyReader :=
  let r := get_key_loop key_size key_size 0 0 s
  (r.1 &&& (2 ^ key_size - 1), { r.2 with shift := (s.shift + key_size) % 8 })

/-! ## LZW decoder (`read_image_data`, lines 338-410) -/

/-- The locals of `read_image_data` at the head of `while (1)`, with the
frame buffer. `table_is_full`, `str_len` and `entry` are declared without an
initialiser: `none` until first assigned. The type `ρ` is the state of the
code source, `KeyReader` in `read_image_data`. -/
structure Lzw (ρ : Type) where
  rd : ρ
  key_size : Nat
  table_is_full : Option Bool
  frm_off : Nat
  str_len : Option Nat
  entry : Option Entry
  key : Nat
  ret : Int
  table : Table
  frame : List Nat

/-- The inner `while (1)` (lines 389-400): writes the suffixes along the
prefix chain of `entry` and returns the entry the walk stops at. A walk of
more steps than the table has slots has revisited a slot and never ends. -/
def walk (gif : gd_GIF) (interlace : Nat) (frm_off : Nat) (table : Table) :
    Nat → Entry → List Nat → Option (Entry × List Nat)
  | 0, _, _ => none
  | fuel + 1, entry, frame =>
    if gif.fw = 0 then none else
    let p : Int := (frm_off : Int) + entry.length - 1
    let x : Int := Int.tmod p gif.fw
    let y : Int := Int.tdiv p gif.fw
    let y : Int := if interlace ≠ 0 then interlaced_line_index gif.fh y else y
    let idx : Int := (gif.fy + y) * gif.width + gif.fx + x
    if idx < 0 then none else
    (store frame idx.toNat entry.suffix).bind fun frame =>
    if entry.prefix_ = 0xFFF then some (entry, frame)
    else
      match (table.entries[entry.prefix_]?).join with
      | none => none
      | some e => walk gif interlace frm_off table fuel e frame

/-- Lines 368-382: the table update at the head of an iteration. When
`add_entry` has returned -1 the result is the state in which line 376
returns, with `ret = -1`. -/
def lzw_update {ρ : Type} (realloc : Nat → Bool) (init_key_size clear : Nat) (s : Lzw ρ) :
    Option (Lzw ρ) :=
  if s.key = clear then
    some { s with key_size := init_key_size
                  table := { s.table with nentries := 2 ^ (init_key_size - 1) + 2 }
                  table_is_full := some false }
  else
    match s.table_is_full, s.str_len, s.entry with
    | some true, _, _ => some s
    | some false, some str_len, some entry =>
      (add_entry realloc s.table (str_len + 1) s.key entry.suffix).map fun r =>
        if r.2 = -1 then { s with table := r.1, ret := r.2 }
        else if r.1.nentries = 0x1000 then
          { s with table := r.1, ret := 0, table_is_full := some true }
        else { s with table := r.1, ret := r.2 }
    | _, _, _ => none

/-- Line 403: the suffix of the newest entry is overwritten; a slot never
assigned as a whole stays indeterminate. -/
def set_suffix (table : Table) (suffix : Nat) : Table :=
  match (table.entries[table.nentries - 1]?).join with
  | some e =>
    { table with
      entries := table.entries.set (table.nentries - 1) (some { e with suffix := suffix }) }
  | none => table

/-- One iteration of `while (1)` (lines 368-403); `next key_size` is the call
`get_key(gif, key_size, ...)`. The second component is `none` when the loop
goes on, `some 0` when it is left by `break` and `some (-1)` when line 376
returns -1. The test `ret == -1` of line 374 stands in the branch that calls
`add_entry`, taken when `key != clear` and `table_is_full` is 0; there `ret`
is the value `add_entry` has returned. -/
def lzw_iteration {ρ : Type} (realloc : Nat → Bool) (next : Nat → ρ → Nat × ρ) (gif : gd_GIF)
    (interlace init_key_size clear stop : Nat) (s : Lzw ρ) : Option (Lzw ρ × Option Int) :=
  (lzw_update realloc init_key_size clear s).bind fun u =>
  if s.key ≠ clear ∧ s.table_is_full = some false ∧ u.ret = -1 then some (u, some (-1)) else
  let r := next u.key_size u.rd
  let s := { u with key := r.1, rd := r.2 }
  if s.key = clear then some (s, none)
  else if s.key = stop then some (s, some 0)
  else
    let s := if s.ret = 1 then { s with key_size := s.key_size + 1 } else s
    match (s.table.entries[s.key]?).join with
    | none => none
    | some entry =>
      let str_len := entry.length
      (walk gif interlace s.frm_off s.table (s.table.entries.length + 1) entry s.frame).bind
        fun w =>
        let s := { s with entry := some w.1, str_len := some str_len, frame := w.2,
                          frm_off := s.frm_off + str_len }
        match s.table_is_full with
        | none => none
        | some full =>
          if s.key + 1 < s.table.nentries ∧ full = false then
            some ({ s with table := set_suffix s.table w.1.suffix }, none)
          else some (s, none)

/-- The loop `while (1)`, at most `fuel` iterations: the state in which the
loop is left and the way it is left, 0 by `break` and -1 by the `return -1`
of line 376. -/
def lzw_loop {ρ : Type} (realloc : Nat → Bool) (next : Nat → ρ → Nat × ρ) (gif : gd_GIF)
    (interlace init_key_size clear stop : Nat) : Nat → Lzw ρ → Option (Lzw ρ × Int)
  | 0, _ => none
  | fuel + 1, s =>
    match lzw_iteration realloc next gif interlace init_key_size clear stop s with
    | none => none
    | some (s, some v) => some (s, v)
    | some (s, none) => lzw_loop realloc next gif interlace init_key_size clear stop fuel s

/-- Lines 356-366 after the code-size byte `key_size`, when `new_table` has
returned a table: the state at the head of the first iteration, with
`init_key_size`, `clear` and `stop`. The shifts `1 << key_size` and
`1 << (key_size + 1)` are defined for the code sizes admitted here. -/
def lzw_start {ρ : Type} (next : Nat → ρ → Nat × ρ) (frame : List Nat) (key_size : Nat)
    (rd : ρ) : Option (Lzw ρ × Nat × Nat × Nat) :=
  if 29 < key_size then none else
  let clear := 2 ^ key_size % 65536
  let stop := (clear + 1) % 65536
  let table := initial_table key_size
  let key_size := key_size + 1
  let init_key_size := key_size
  let k := next key_size rd
  some ({ rd := k.2, key_size := key_size, table_is_full := none, frm_off := 0,
          str_len := none, entry := none, key := k.1, ret := 0, table := table,
          frame := frame }, init_key_size, clear, stop)

/-- Lines 356-404 over any code source, when `new_table` has returned a
table: the decoder state when the loop is left within `fuel` iterations, and
the way it is left (0 by `break`, -1 by the `return -1` of line 376). -/
def lzw_decode {ρ : Type} (realloc : Nat → Bool) (next : Nat → ρ → Nat × ρ) (fuel : Nat)
    (gif : gd_GIF) (interlace key_size : Nat) (rd : ρ) : Option (Lzw ρ × Int) :=
  (lzw_start next gif.frame key_size rd).bind fun i =>
  lzw_loop realloc next gif interlace i.2.1 i.2.2.1 i.2.2.2 fuel i.1

/-- The function `read_image_data` with at most `fuel` iterations of its main
loop: the return value and the handle afterwards. `malloc` and `realloc` tell
which allocations succeed. The value is -1 when `new_table` returns `NULL`
(line 360, before any code is read) and when `add_entry` returns -1 (line
376); on both paths the stream is left where it stands, without the `fseek`
of line 408. -/
def read_image_data (malloc realloc : Nat → Bool) (fuel : Nat) (gif : gd_GIF)
    (interlace : Nat) : Option (Int × gd_GIF) :=
  let r := fgetc gif.fd
  let byte := toU8 r.1
  let start := ftell r.2
  (discard_sub_blocks r.2).bind fun f =>
  let end_ := ftell f
  let f := fseek f start
  if 29 < byte then none else
  match new_table malloc byte with
  | none => some (-1, { gif with fd := f })
  | some _ =>
    (lzw_decode realloc get_key fuel gif interlace byte ⟨f, 0, 0, byte⟩).map fun s =>
    if s.2 = -1 then (-1, { gif with fd := s.1.rd.fd, frame := s.1.frame })
    else
      let f := (fgetc s.1.rd.fd).2
      (0, { gif with fd := fseek f end_, frame := s.1.frame })

/-! ## Image blocks and frames (lines 414-440, 523-547) -/

/-- Indeterminate bytes all zero. -/
def junk0 : Nat → Nat := fun _ => 0

/-- An allocator that always succeeds. -/
def callocOk : Nat → Bool := fun _ => true

/-- A `malloc` that always succeeds. -/
def mallocOk : Nat → Bool := fun _ => true

/-- A `realloc` that always succeeds. -/
def reallocOk : Nat → Bool := fun _ => true

/-- The byte `k` of a colour triple. -/
def byteOf (c : Nat × Nat × Nat) (k : Nat) : Nat :=
  if k = 0 then c.1 else if k = 1 then c.2.1 else c.2.2

/-- Write of the triple `px P`, if any, over pixel `P` of a 3-byte buffer. -/
def putPixel (px : Nat → Option (Nat × Nat × Nat)) (buf : List Nat) (P : Nat) :
    Option (List Nat) :=
  match px P with
  | none => some buf
  | some c => store3 buf (P * 3) c.1 c.2.1 c.2.2

/-- The buffer `b` is `b0` with the pixels of `D` overwritten by the triples
`px` assigns them. -/
def Painted (px : Nat → Option (Nat × Nat × Nat)) (D : Nat → Prop) (b0 b : List Nat) : Prop :=
  b.length = b0.length ∧
  (∀ q c, D (q / 3) → px (q / 3) = some c → q < b0.length →
    b[q]? = some (byteOf c (q % 3) % 256)) ∧
  (∀ q, (¬ D (q / 3) ∨ px (q / 3) = none) → b[q]? = b0[q]?)

/-- What `render_frame_rect` writes over pixel `P`: nothing when the pixel is
transparent, else the colour triple of the palette at the frame's index. -/
def renderPx (gif : gd_GIF) (pal : gd_Palette) (P : Nat) : Option (Nat × Nat × Nat) :=
  let index := gif.frame.getD P 0
  if gif.gce.transparency = 0 ∨ index ≠ gif.gce.tindex then
    some (pal.colors.getD (index * 3) 0, pal.colors.getD (index * 3 + 1) 0,
      pal.colors.getD (index * 3 + 2) 0)
  else none

/-! ## Vocabulary for the stream theorems -/

/-- The stream on which `gd_open_gif` reads the descriptor byte `fdsz`: after
the signature and the two 16-bit dimensions. -/
def headerStream (junk : Nat → Nat) (data : List Nat) : FILE :=
  (read_num junk (read_num junk (fread ⟨data, 0, false⟩ 6).2).2).2

/-- The initial dictionary for code size `n`: the `2^n` one-symbol strings and
two unused slots for the CLEAR and STOP codes. -/
def initDict (n : Nat) : List (List Nat) :=
  (List.range (2 ^ n)).map (fun i => [i]) ++ [[], []]

/-- The string a code stands for: its dictionary entry, or, for the code of
the entry being created, the previous string followed by its own first
symbol. -/
def lzwString (dict : List (List Nat)) (prev : Option (List Nat)) (c : Nat) : List Nat :=
  match dict[c]?, prev with
  | some s, _ => s
  | none, some p => if c = dict.length then p ++ p.take 1 else []
  | none, none => []

/-- The dictionary after a code that stands for `s` has followed the string
`prev`: the entry `prev` followed by the first symbol of `s` is added, unless
there are 4096 entries or no previous string. -/
def lzwGrow (dict : List (List Nat)) (prev : Option (List Nat)) (s : List Nat) :
    List (List Nat) :=
  match prev with
  | some p => if dict.length < 4096 then dict ++ [p ++ s.take 1] else dict
  | none => dict

/-- Textbook LZW decompression of a GIF code sequence with code size `n`:
`dict` maps codes to strings, `prev` is the string of the previous code; CLEAR
resets the dictionary, STOP ends the data. -/
def lzwReferenceAux (n : Nat) : List Nat → List (List Nat) → Option (List Nat) → List Nat
  | [], _, _ => []
  | c :: cs, dict, prev =>
    if c = 2 ^ n then lzwReferenceAux n cs (initDict n) none
    else if c = 2 ^ n + 1 then []
    else
      lzwString dict prev c ++
        lzwReferenceAux n cs (lzwGrow dict prev (lzwString dict prev c))
          (some (lzwString dict prev c))

/-- The colour indices a GIF code sequence with code size `n` stands for. -/
def lzwReference (n : Nat) (codes : List Nat) : List Nat :=
  lzwReferenceAux n codes (initDict n) none

/-- The bits of a byte sequence, least significant bit of each byte first. -/
def bitsOf (bytes : List Nat) : List Bool :=
  bytes.flatMap fun b => (List.range 8).map fun i => b.testBit i

/-- The number whose binary digits, least significant first, are `bits`. -/
def bitsValue : List Bool → Nat
  | [] => 0
  | b :: bs => (if b then 1 else 0) + 2 * bitsValue bs

/-- The codes a GIF encoder with code size `n` has packed into `bits`, up to
the STOP code: each code has the current width; the width starts at `n + 1`,
grows by one when the dictionary (of `count` entries) reaches `2^width`, up to
12, and a CLEAR code resets width and dictionary. `fresh` tells that no code
has been read since the last CLEAR. -/
def gifCodesAux (n : Nat) : Nat → List Bool → Nat → Nat → Bool → List Nat
  | 0, _, _, _, _ => []
  | fuel + 1, bits, width, count, fresh =>
    if bits.length < width then [] else
    let c := bitsValue (bits.take width)
    let rest := bits.drop width
    if c = 2 ^ n then c :: gifCodesAux n fuel rest (n + 1) (2 ^ n + 2) true
    else if c = 2 ^ n + 1 then [c]
    else if fresh ∨ 4096 ≤ count then c :: gifCodesAux n fuel rest width count false
    else
      let count := count + 1
      let width := if count = 2 ^ width ∧ width < 12 then width + 1 else width
      c :: gifCodesAux n fuel rest width count false

/-- The code sequence of image data with code size `n` and sub-block
payload `bytes`. -/
def gifCodes (n : Nat) (bytes : List Nat) : List Nat :=
  gifCodesAux n (8 * bytes.length) (bitsOf bytes) (n + 1) (2 ^ n + 2) true

/-! ## Sample inputs -/

/-- A one-pixel GIF89a stream: screen 1x1, global colour table of two
entries, one image whose descriptor places a 1x1 frame at column 5, image data
CLEAR STOP, trailer. -/
def tinyGif : List Nat :=
  [0x47, 0x49, 0x46, 0x38, 0x39, 0x61, 1, 0, 1, 0, 0x80, 0, 0,
   1, 2, 3, 4, 5, 6,
   0x2C, 5, 0, 0, 0, 1, 0, 1, 0, 0,
   2, 1, 0x2C, 0,
   0x3B]

/-- The first ten bytes of `tinyGif`: the signature and the two dimensions,
with no descriptor byte after them. -/
def shortGif : List Nat := [0x47, 0x49, 0x46, 0x38, 0x39, 0x61, 1, 0, 1, 0]

/-- A handle on a 2x2 truecolor canvas; the frame rectangle is the right
column, index 0 is transparent. -/
def renderSample : gd_GIF :=
  { fd := ⟨[], 0, false⟩, anim_start := 0, width := 2, height := 2, depth := 8,
    loop_count := 0, gce := ⟨0, 0, 0, 0, 1⟩, palette := .gct,
    lct := ⟨0, List.replicate 768 0⟩,
    gct := ⟨2, [10, 20, 30, 40, 50, 60] ++ List.replicate 762 0⟩,
    plain_text := none, comment := none, application := none,
    fx := 1, fy := 0, fw := 1, fh := 2, bgindex := 0, canvasbytes := 3,
    canvas := [1, 1, 1, 2, 2, 2, 3, 3, 3, 4, 4, 4], frame := [1, 1, 1, 0] }

/-- A handle on a 1x1 truecolor canvas with disposal method 2 whose active
palette is the local colour table. -/
def disposeSample : gd_GIF :=
  { fd := ⟨[], 0, false⟩, anim_start := 0, width := 1, height := 1, depth := 8,
    loop_count := 0, gce := ⟨0, 0, 2, 0, 0⟩, palette := .lct,
    lct := ⟨2, [4, 5, 6] ++ List.replicate 765 0⟩,
    gct := ⟨2, [1, 2, 3] ++ List.replicate 765 0⟩,
    plain_text := none, comment := none, application := none,
    fx := 0, fy := 0, fw := 1, fh := 1, bgindex := 0, canvasbytes := 3,
    canvas := [9, 9, 9], frame := [0] }

/-- The payload of a valid image block with code size 2: the codes
CLEAR 0 0 CLEAR 0 0 2 at 3 bits and STOP at 4 bits. -/
def lzwPayload : List Nat := [4, 8, 168, 0]

/-- A handle on a 5x1 canvas whose stream stands at the image data: code size
2, one sub-block holding `lzwPayload`, the block terminator. -/
def lzwSample : gd_GIF :=
  { fd := ⟨[2, 4] ++ lzwPayload ++ [0], 0, false⟩, anim_start := 0, width := 5, height := 1,
    depth := 8, loop_count := 0, gce := ⟨0, 0, 0, 0, 0⟩, palette := .gct,
    lct := ⟨0, List.replicate 768 0⟩, gct := ⟨4, List.replicate 768 0⟩,
    plain_text := none, comment := none, application := none,
    fx := 0, fy := 0, fw := 5, fh := 1, bgindex := 0, canvasbytes := 0,
    canvas := List.replicate 5 0, frame := List.replicate 5 0 }

/-! ## A code sequence that fills the code table -/

/-- A code source that hands out the codes of a list one by one, whatever
width is asked for, and `dflt` once the list is exhausted. -/
def listReader (dflt : Nat) : Nat → List Nat → Nat × List Nat
  | _, [] => (dflt, [])
  | _, c :: cs => (c, cs)

/-- A valid code sequence for code size 2: CLEAR, 4090 times the code 0 (the
last of which makes the table reach 4096 entries, entry 4095 being the string
`0` followed by the first symbol of the next code), the code 1, the code 4095
and STOP. -/
def fullTableCodes : List Nat := [4] ++ List.replicate 4090 0 ++ [1, 4095, 5]

/-- A handle on a 4093x1 canvas whose frame covers it. -/
def fullTableSample : gd_GIF :=
  { fd := ⟨[], 0, false⟩, anim_start := 0, width := 4093, height := 1,
    depth := 8, loop_count := 0, gce := ⟨0, 0, 0, 0, 0⟩, palette := .gct,
    lct := ⟨0, List.replicate 768 0⟩, gct := ⟨4, List.replicate 768 0⟩,
    plain_text := none, comment := none, application := none,
    fx := 0, fy := 0, fw := 4093, fh := 1, bgindex := 0, canvasbytes := 0,
    canvas := List.replicate 4093 0, frame := List.replicate 4093 0 }

/-- The decoder state at the head of an iteration after `k` codes 0 of
`fullTableCodes` have been decoded. -/
def ZeroPhase (k : Nat) (s : Lzw (List Nat)) : Prop :=
  s.rd = List.replicate (4090 - k) 0 ++ [1, 4095, 5] ∧ s.key = 0 ∧
  s.table_is_full = some false ∧ s.frm_off = k ∧ s.str_len = some 1 ∧
  s.entry = some ⟨1, 0xFFF, 0⟩ ∧ s.table.nentries = 5 + k ∧
  s.table.bulk = s.table.entries.length ∧ 256 ≤ s.table.bulk ∧
  s.table.nentries ≤ s.table.bulk ∧
  s.table.entries[0]? = some (some ⟨1, 0xFFF, 0⟩) ∧
  s.table.entries[1]? = some (some ⟨1, 0xFFF, 1⟩) ∧
  (∀ i, 6 ≤ i → i < 5 + k → s.table.entries[i]? = some (some ⟨2, 0, 0⟩)) ∧
  s.frame = List.replicate 4093 0

/-! ## Vocabulary for the extension-block theorems -/

/-- The unread part of a stream: its bytes from the read position on. -/
def FILE.rest (f : FILE) : List Nat := f.data.drop f.pos

/-- The stream `f` with the read position advanced by `n` bytes. -/
def FILE.skip (f : FILE) (n : Nat) : FILE := { f with pos := f.pos + n }

/-- A sequence of data sub-blocks as it lies in a GIF stream: every block
preceded by its length byte. The zero-length terminator is not part of it. -/
def subBlocks (blocks : List (List Nat)) : List Nat :=
  blocks.flatMap fun b => b.length :: b

/-- Every block has between 1 and 255 bytes, so that its length fits the
length byte and differs from the terminator. -/
def WellFormedBlocks (blocks : List (List Nat)) : Prop :=
  ∀ b ∈ blocks, 0 < b.length ∧ b.length < 256

/-- The bytes `"2.0"`. -/
def auth20 : List Nat := [0x32, 0x2E, 0x30]

/-- A handle on the stream `data`, read position 0, with no callbacks, on a
1x1 canvas. -/
def streamSample (data : List Nat) : gd_GIF :=
  { fd := ⟨data, 0, false⟩, anim_start := 0, width := 1, height := 1, depth := 8,
    loop_count := 0, gce := ⟨0, 0, 0, 0, 0⟩, palette := .gct,
    lct := ⟨0, List.replicate 768 0⟩, gct := ⟨2, List.replicate 768 0⟩,
    plain_text := none, comment := none, application := none,
    fx := 0, fy := 0, fw := 1, fh := 1, bgindex := 0, canvasbytes := 3,
    canvas := [0, 0, 0], frame := [0] }

/-- An application extension (after its label) with identifier `NETSCAPE`,
authentication code `2.0` and the loop block for an endless loop, followed by
the trailer. -/
def loopExtSample : List Nat :=
  0x0B :: (netscape ++ auth20 ++ [0x03, 0x01, 0x00, 0x00, 0x00]) ++ [0x3B]

/-- An application extension (after its label) with identifier `NETSCAPE`,
authentication code `3.0` and one sub-block `01 05 00`, followed by the
trailer. -/
def otherAuthSample : List Nat :=
  0x0B :: (netscape ++ [0x33, 0x2E, 0x30] ++ [0x03, 0x01, 0x05, 0x00, 0x00]) ++ [0x3B]

/-- An application extension (after its label) with identifier `ABCDEFGH`,
authentication code `123` and one sub-block of two bytes, followed by the
trailer. -/
def otherAppSample : List Nat :=
  0x0B :: ([65, 66, 67, 68, 69, 70, 71, 72] ++ [49, 50, 51]) ++ [2, 9, 9, 0, 0x3B]

/-- Two well-formed sub-blocks, of three bytes and of one byte. -/
def blocksSample : List (List Nat) := [[7, 8, 9], [10]]

/-- A callback that reads the stream to its end. -/
def readAll : FILE → Nat := fun f => f.data.length

/-- A plain-text extension (after its label): the 13-byte fixed header, the
sub-blocks `blocksSample`, the terminator, and the trailer. -/
def plainTextSample : List Nat :=
  [12, 0, 0, 0, 0, 1, 0, 1, 0, 8, 8, 1, 0] ++ (subBlocks blocksSample ++ 0 :: [0x3B])

/-- A comment extension (after its label): the sub-blocks `blocksSample`, the
terminator, and the trailer. -/
def commentSample : List Nat := subBlocks blocksSample ++ 0 :: [0x3B]

/-- An application extension (after its label) with identifier `ABCDEFGH`:
the 12-byte fixed header, the sub-blocks `blocksSample`, the terminator, and
the trailer. -/
def applicationSample : List Nat :=
  0x0B :: ([65, 66, 67, 68, 69, 70, 71, 72] ++ [49, 50, 51]) ++
    (subBlocks blocksSample ++ 0 :: [0x3B])

/-! ## Vocabulary for the bit reader -/

/-- Bit `i` of a byte sequence, counting from the least significant bit of
the first byte. -/
def payloadBit (bytes : List Nat) (i : Nat) : Bool :=
  (bytes.getD (i / 8) 0).testBit (i % 8)

/-- Successive `get_key` calls with the key widths `ws`: the keys returned. -/
def get_keys : List Nat → KeyReader → List Nat
  | [], _ => []
  | w :: ws, s => (get_key w s).1 :: get_keys ws (get_key w s).2

/-- Lines 300-303 of `get_key`, as they stand in `get_key_loop`: the next
payload byte is loaded, after the length byte of a new sub-block when the
current one is used up. -/
def get_key_fetch (s : KeyReader) : KeyReader :=
  let r1 := if s.sub_len = 0 then
      let r := fgetc s.fd
      (toU8 r.1, r.2)
    else (s.sub_len, s.fd)
  let r2 := fgetc r1.2
  { s with fd := r2.2, byte := toU8 r2.1, sub_len := (r1.1 + 255) % 256 }

/-- The stream `fd` and the counter `sub_len` stand before the payload bytes
`bytes`: `sub_len` bytes of the current sub-block are unread, whole
well-formed sub-blocks follow. -/
def ReaderAt (fd : FILE) (sub_len : Nat) (bytes : List Nat) : Prop :=
  ∃ (cur : List Nat) (blocks : List (List Nat)) (tl : List Nat),
    cur.length = sub_len ∧ sub_len < 256 ∧ WellFormedBlocks blocks ∧
    fd.rest = cur ++ (subBlocks blocks ++ tl) ∧ bytes = cur ++ blocks.flatten

/-- The reader `s` has consumed `n` bits of the payload `bytes`: the bytes
after the one holding bit `n - 1` are unread, and when that byte is only
partly consumed it is the current `byte`. -/
def BitsConsumed (bytes : List Nat) (n : Nat) (s : KeyReader) : Prop :=
  ReaderAt s.fd s.sub_len (bytes.drop ((n + 7) / 8)) ∧
    (n % 8 ≠ 0 → s.byte = bytes.getD (n / 8) 0)

/-- Two sub-blocks with the payload bytes `B5 01` and `FF`. -/
def keyBlocksSample : List (List Nat) := [[0xB5, 0x01], [0xFF]]

/-- A stream holding `keyBlocksSample` and the block terminator. -/
def keyStreamSample : FILE := ⟨subBlocks keyBlocksSample ++ [0], 0, false⟩

/-! ## Vocabulary for the decoder invariants -/

/-- The decoder states at the head of `while (1)`, iteration by iteration,
for at most `fuel` iterations, starting from `s`; the state in which the loop
is left by `break` comes last. The list ends early where an iteration has no
defined result, and at the head of the iteration in which line 376 returns. -/
def lzw_trace {ρ : Type} (realloc : Nat → Bool) (next : Nat → ρ → Nat × ρ) (gif : gd_GIF)
    (interlace init_key_size clear stop : Nat) : Nat → Lzw ρ → List (Lzw ρ)
  | 0, s => [s]
  | fuel + 1, s =>
    s :: match lzw_iteration realloc next gif interlace init_key_size clear stop s with
      | none => []
      | some (s', some v) => if v = 0 then [s'] else []
      | some (s', none) =>
        lzw_trace realloc next gif interlace init_key_size clear stop fuel s'

/-- The entry the inner `while (1)` (lines 389-400) holds after `k` executions
of line 399, when it starts from the entry of code `i`. -/
def ancestor (table : Table) : Nat → Nat → Option Entry
  | 0, i => (table.entries[i]?).join
  | k + 1, i => ((table.entries[i]?).join).bind fun e => ancestor table k e.prefix_

/-- The entry count is at most 4096 and, unless the next table update is the
reset by CLEAR, `table_is_full` is assigned, and set once the count is
4096. -/
def CountInv {ρ : Type} (clear : Nat) (s : Lzw ρ) : Prop :=
  s.table.nentries ≤ 4096 ∧
    (s.key ≠ clear →
      ∃ full, s.table_is_full = some full ∧ (full = false → s.table.nentries < 4096))

/-- The state in which the codes CLEAR 0 STOP, code size 2, enter the main
loop on the frame of `lzwSample`. -/
def startSample : Lzw (List Nat) :=
  { rd := [0, 5], key_size := 3, table_is_full := none, frm_off := 0, str_len := none,
    entry := none, key := 4, ret := 0, table := initial_table 2, frame := lzwSample.frame }

/-- Structure of the code table for code size `n`: the storage has `bulk`
slots, the entry count lies between `2^n + 2` and 4096 and within the storage,
the `2^n` root entries are as `new_table` wrote them, and every entry `i` from
`2^n + 2` up to the entry count has a prefix below `i` that is a root or an
entry from `2^n + 2` on, one symbol shorter than entry `i`. -/
def TableInv (n : Nat) (t : Table) : Prop :=
  t.bulk = t.entries.length ∧ t.nentries ≤ t.bulk ∧
  2 ^ n + 2 ≤ t.nentries ∧ t.nentries ≤ 4096 ∧
  (∀ i, i < 2 ^ n → t.entries[i]? = some (some ⟨1, 0xFFF, i % 256⟩)) ∧
  (∀ i, 2 ^ n + 2 ≤ i → i < t.nentries →
    ∃ e p, t.entries[i]? = some (some e) ∧ t.entries[e.prefix_]? = some (some p) ∧
      e.prefix_ < i ∧ (e.prefix_ < 2 ^ n ∨ 2 ^ n + 2 ≤ e.prefix_) ∧
      e.length = p.length + 1 ∧ e.length ≤ i + 1)

/-- The decoder stands at the head of an iteration with a code that has been
looked up and written out: `table_is_full` is assigned (and set once the count
is 4096), the code is below the entry count and is neither CLEAR nor STOP, and
`str_len` and `entry` are assigned, `str_len` being the length of the code's
entry. -/
def LiveKey {ρ : Type} (n : Nat) (s : Lzw ρ) : Prop :=
  (∃ full, s.table_is_full = some full ∧ (full = false → s.table.nentries < 4096)) ∧
  s.key < s.table.nentries ∧ (s.key < 2 ^ n ∨ 2 ^ n + 2 ≤ s.key) ∧
  ∃ k e, s.table.entries[s.key]? = some (some k) ∧ s.str_len = some k.length ∧
    s.entry = some e ∧ k.length ≤ s.key + 1

/-- The prefix structure of a code table for code size `n`: every entry `i`
from `2^n + 2` up to the entry count has a prefix index below `i`, other than
the root sentinel `0xFFF`, and is one symbol longer than its prefix entry; and
from every code below the entry count other than CLEAR and STOP the prefix
walk arrives, after `length - 1` steps and not before, at an entry whose prefix
is the sentinel. -/
def PrefixInv (n : Nat) (t : Table) : Prop :=
  (∀ i, 2 ^ n + 2 ≤ i → i < t.nentries →
    ∃ e p, t.entries[i]? = some (some e) ∧ t.entries[e.prefix_]? = some (some p) ∧
      e.prefix_ < i ∧ e.length = p.length + 1 ∧ e.prefix_ ≠ 0xFFF) ∧
  (∀ c, c < t.nentries → c ≠ 2 ^ n → c ≠ 2 ^ n + 1 →
    ∃ e root, t.entries[c]? = some (some e) ∧
      ancestor t (e.length - 1) c = some root ∧ root.prefix_ = 0xFFF ∧
      ∀ k, k < e.length - 1 → ∃ a, ancestor t k c = some a ∧ a.prefix_ ≠ 0xFFF)

/-- The state in which the codes CLEAR 0 6 1 STOP, code size 2, enter the
main loop on the frame of `lzwSample`; the code 6 is the entry `0 0` the
decoder has just added. -/
def chainSample : Lzw (List Nat) :=
  { rd := [0, 6, 1, 5], key_size := 3, table_is_full := none, frm_off := 0, str_len := none,
    entry := none, key := 4, ret := 0, table := initial_table 2, frame := lzwSample.frame }

/-! ## Vocabulary for the key widths -/

/-- The code source `next` with a record, in order, of the key width each
call asks for. -/
def logReader {ρ : Type} (next : Nat → ρ → Nat × ρ) (w : Nat) (rd : ρ × List Nat) :
    Nat × (ρ × List Nat) :=
  ((next w rd.1).1, ((next w rd.1).2, rd.2 ++ [w]))

/-- A code source that hands out the codes of a list like `listReader` and
records the key widths asked for. -/
def widthReader (dflt : Nat) : Nat → List Nat × List Nat → Nat × (List Nat × List Nat) :=
  logReader (listReader dflt)

/-- The state after `k` iterations of `while (1)` none of which leaves the
loop. -/
def lzw_steps {ρ : Type} (realloc : Nat → Bool) (next : Nat → ρ → Nat × ρ) (gif : gd_GIF)
    (interlace init_key_size clear stop : Nat) : Nat → Lzw ρ → Option (Lzw ρ)
  | 0, s => some s
  | k + 1, s =>
    match lzw_iteration realloc next gif interlace init_key_size clear stop s with
    | some (s', none) => lzw_steps realloc next gif interlace init_key_size clear stop k s'
    | _ => none

/-- A code sequence for code size 2: CLEAR 0 0 CLEAR, 2043 times the code 0,
STOP. The second CLEAR comes right after the entry count has reached 8. -/
def wideCodes : List Nat := [4, 0, 0, 4] ++ List.replicate 2043 0 ++ [5]

/-- The key width of the decoder on `wideCodes` after the second CLEAR, as a
function of the entry count. -/
def wideWidth (N : Nat) : Nat :=
  if N < 8 then 4 else if N < 16 then 5 else if N < 32 then 6 else if N < 64 then 7
  else if N < 128 then 8 else if N < 256 then 9 else if N < 512 then 10
  else if N < 1024 then 11 else if N < 2048 then 12 else 13

/-- The decoder state, but for the code source, at the head of an iteration
after `k` of the 2043 codes 0 of `wideCodes` have been decoded. -/
def WideCore {ρ : Type} (k : Nat) (s : Lzw ρ) : Prop :=
  s.key = 0 ∧ s.table_is_full = some false ∧ s.frm_off = 2 + k ∧ s.str_len = some 1 ∧
  s.entry = some ⟨1, 0xFFF, 0⟩ ∧ s.table.nentries = 5 + k ∧
  s.key_size = wideWidth (5 + k) ∧
  s.table.bulk = s.table.entries.length ∧ 256 ≤ s.table.bulk ∧
  s.table.nentries ≤ s.table.bulk ∧
  s.table.entries[0]? = some (some ⟨1, 0xFFF, 0⟩) ∧
  s.frame = List.replicate 4093 0

instance {ρ : Type} (k : Nat) (s : Lzw ρ) : Decidable (WideCore k s) := by
  unfold WideCore
  infer_instance

/-- The sub-blocks of an image block that holds `wideCodes` at the widths at
which `read_image_data` reads them (3 3 3 3 3, then 4 to 12 bits, STOP at 13
bits): eleven blocks of 255 bytes and one of 13, all bytes zero except the
first two (the two CLEAR codes) and the two that hold STOP. -/
def wideBlocks : List (List Nat) :=
  [[4, 8] ++ List.replicate 253 0] ++ List.replicate 10 (List.replicate 255 0) ++
    [List.replicate 10 0 ++ [0x80, 0x02, 0x00]]

/-- The image data: code size 2, the sub-blocks `wideBlocks`, the block
terminator. -/
def wideBytes : List Nat := 2 :: (subBlocks wideBlocks ++ [0])

/-- The number of payload bits `read_image_data` has consumed on `wideBytes`
when `k` of the 2043 codes 0 have been decoded. -/
def wideOff : Nat → Nat
  | 0 => 12
  | k + 1 => wideOff k + (if k = 0 then 3 else wideWidth (5 + k))

/-- The state in which `wideCodes` enters the main loop on the frame of
`fullTableSample`. -/
def wideStart : Lzw (List Nat × List Nat) :=
  { rd := ([0, 0, 4] ++ List.replicate 2043 0 ++ [5], [3]), key_size := 3,
    table_is_full := none, frm_off := 0, str_len := none, entry := none, key := 4,
    ret := 0, table := initial_table 2, frame := List.replicate 4093 0 }

/-- The bit reader of `read_image_data` on `wideBytes` before the first
`get_key` call: the stream stands after the code size byte. -/
def wideReader : KeyReader := ⟨⟨wideBytes, 1, false⟩, 0, 0, 2⟩

/-! ## Interlace transform: theorems -/

/-- For heights of at least 5 the truncating divisions of
`interlaced_line_index` are floor divisions and the function is the 4-pass
schedule. -/
theorem interlaced_line_index_eq_scheduleRow (h y : Int) (hh : 5 ≤ h) :
    interlaced_line_index h y = scheduleRow h y := by
  unfold interlaced_line_index scheduleRow ceilDiv
  have e1 : Int.tdiv (h - 1) 8 = (h - 1) / 8 := by rw [Int.tdiv_eq_ediv] <;> omega
  have e2 : Int.tdiv (h - 5) 8 = (h - 5) / 8 := by rw [Int.tdiv_eq_ediv] <;> omega
  have e3 : Int.tdiv (h - 3) 4 = (h - 3) / 4 := by rw [Int.tdiv_eq_ediv] <;> omega
  simp only [e1, e2, e3]
  split_ifs <;> omega

/-- For heights of at least 5 every row of `[0,h)` is mapped into `[0,h)`. -/
theorem interlaced_line_index_range (h y : Int) (hh : 5 ≤ h) (h0 : 0 ≤ y) (hy : y < h) :
    0 ≤ interlaced_line_index h y ∧ interlaced_line_index h y < h := by
  rw [interlaced_line_index_eq_scheduleRow h y hh]
  unfold scheduleRow ceilDiv
  simp only
  split_ifs <;> omega

/-- For heights of at least 5 no two rows are mapped to the same row. -/
theorem interlaced_line_index_injective (h y y' : Int) (hh : 5 ≤ h)
    (e : interlaced_line_index h y = interlaced_line_index h y') : y = y' := by
  rw [interlaced_line_index_eq_scheduleRow h y hh,
    interlaced_line_index_eq_scheduleRow h y' hh] at e
  unfold scheduleRow ceilDiv at e
  simp only at e
  split_ifs at e <;> omega

/-- Claim C2, failing input: in a frame of height 2 the input row 1 is sent to
row 4, outside `[0,2)`: the truncating division `(2 - 5) / 8` is 0, so the
second pass is given one row. -/
theorem interlaced_line_index_height_two :
    interlaced_line_index 2 1 = 4 ∧ ¬ (interlaced_line_index 2 1 < 2) := by
  decide

/-- Claim C3, failing input: for height 2 and row 1 the code returns 4 where
the 4-pass schedule with sizes `ceil(h/8)`, `ceil((h-4)/8)`, `ceil((h-2)/4)`
gives 1. -/
theorem interlaced_line_index_ne_scheduleRow :
    interlaced_line_index 2 1 = 4 ∧ scheduleRow 2 1 = 1 := by
  decide

/-! ## Colour reduction: theorems -/

/-- Claim C5, failing inputs: for the triple `(0,0,8)` and the 16-bit target
the code returns 0 where the 5-6-5 word is 1, and for `(0,255,0)` and the 8-bit
target it returns 0 where the 3-3-2 byte is 28. -/
theorem reduce_color_not_standard :
    reduce_color 0 0 8 2 = some 0 ∧ pack565 0 0 8 = 1 ∧
    reduce_color 0 255 0 1 = some 0 ∧ pack332 0 255 0 = 28 := by
  decide

/-! ## Loops over a rectangle of pixels -/

/-- Invariant rule for `forLoop`: an invariant that every iteration keeps
holds at the end, and the loop has a defined result. -/
theorem forLoop_inv {σ : Type} (body : Nat → σ → Option σ) (Inv : Nat → σ → Prop) :
    ∀ (n k : Nat) (s : σ), Inv k s →
      (∀ i t, k ≤ i → i < k + n → Inv i t → ∃ t', body i t = some t' ∧ Inv (i + 1) t') →
      ∃ s', forLoop body k n s = some s' ∧ Inv (k + n) s' := by
  intro n
  induction n with
  | zero => intro k s h _; exact ⟨s, rfl, h⟩
  | succ n ih =>
    intro k s h hstep
    obtain ⟨t, ht, hinv⟩ := hstep k s (Nat.le_refl k) (by omega) h
    obtain ⟨s', hs', hfin⟩ := ih (k + 1) t hinv
      (fun i u hi hlt hu => hstep i u (by omega) (by omega) hu)
    refine ⟨s', ?_, ?_⟩
    · simp only [forLoop, ht, Option.some_bind]; exact hs'
    · have : k + 1 + n = k + (n + 1) := by omega
      rw [← this]; exact hfin

theorem store_eq_some (buf : List Nat) (i v : Nat) (h : i < buf.length) :
    store buf i v = some (buf.set i (v % 256)) := by
  simp [store, h]

theorem store3_eq_some (buf : List Nat) (off c0 c1 c2 : Nat) (h : off + 2 < buf.length) :
    store3 buf off c0 c1 c2 =
      some (((buf.set off (c0 % 256)).set (off + 1) (c1 % 256)).set (off + 2) (c2 % 256)) := by
  have h0 : off < buf.length := by omega
  have h1 : off + 1 < (buf.set off (c0 % 256)).length := by simp; omega
  have h2 : off + 2 < ((buf.set off (c0 % 256)).set (off + 1) (c1 % 256)).length := by
    simp; omega
  unfold store3
  rw [store_eq_some _ _ _ h0, Option.some_bind, store_eq_some _ _ _ h1, Option.some_bind,
    store_eq_some _ _ _ h2]

theorem painted_refl (px : Nat → Option (Nat × Nat × Nat)) (b0 : List Nat) :
    Painted px (fun _ => False) b0 b0 :=
  ⟨rfl, fun _ _ h => h.elim, fun _ _ => rfl⟩

theorem painted_congr {px : Nat → Option (Nat × Nat × Nat)} {D D' : Nat → Prop}
    {b0 b : List Nat} (h : Painted px D b0 b) (e : ∀ p, D p ↔ D' p) : Painted px D' b0 b := by
  obtain ⟨h1, h2, h3⟩ := h
  refine ⟨h1, fun q c hd => h2 q c ((e _).2 hd), fun q hq => h3 q ?_⟩
  rcases hq with hq | hq
  · exact Or.inl (fun hd => hq ((e _).1 hd))
  · exact Or.inr hq

/-- Painting one more pixel. -/
theorem painted_step {px : Nat → Option (Nat × Nat × Nat)} {D : Nat → Prop}
    {b0 b : List Nat} (h : Painted px D b0 b) (P : Nat) (hb : P * 3 + 2 < b0.length) :
    ∃ b', putPixel px b P = some b' ∧ Painted px (fun p => D p ∨ p = P) b0 b' := by
  obtain ⟨h1, h2, h3⟩ := h
  unfold putPixel
  cases hpx : px P with
  | none =>
    refine ⟨b, rfl, h1, ?_, ?_⟩
    · intro q c hd hc hq
      rcases hd with hd | hd
      · exact h2 q c hd hc hq
      · rw [hd, hpx] at hc; exact absurd hc (by simp)
    · intro q hq
      apply h3
      rcases hq with hq | hq
      · exact Or.inl (fun hd => hq (Or.inl hd))
      · exact Or.inr hq
  | some c =>
    have hlen : P * 3 + 2 < b.length := by omega
    refine ⟨_, store3_eq_some b (P * 3) c.1 c.2.1 c.2.2 hlen, by simp [h1], ?_, ?_⟩
    · intro q c' hd hc hq
      by_cases hqP : q / 3 = P
      · rw [hqP, hpx] at hc
        cases hc
        have hq3 : q = P * 3 + q % 3 := by omega
        have hm : q % 3 < 3 := Nat.mod_lt _ (by decide)
        rcases Nat.lt_or_ge (q % 3) 1 with h0 | h0
        · have e0 : q % 3 = 0 := by omega
          have hbyte : byteOf c (q % 3) = c.1 := by simp [byteOf, e0]
          have eq : q = P * 3 := by omega
          rw [hbyte, eq]
          simp [List.getElem?_set]
          omega
        · rcases Nat.lt_or_ge (q % 3) 2 with h1' | h1'
          · have e1 : q % 3 = 1 := by omega
            have hbyte : byteOf c (q % 3) = c.2.1 := by simp [byteOf, e1]
            have eq : q = P * 3 + 1 := by omega
            rw [hbyte, eq]
            simp [List.getElem?_set]
            omega
          · have e2 : q % 3 = 2 := by omega
            have hbyte : byteOf c (q % 3) = c.2.2 := by simp [byteOf, e2]
            have eq : q = P * 3 + 2 := by omega
            rw [hbyte, eq]
            simp [List.getElem?_set]
            omega
      · have hd' : D (q / 3) := by
          rcases hd with hd | hd
          · exact hd
          · exact absurd hd hqP
        have n0 : P * 3 ≠ q := by omega
        have n1 : P * 3 + 1 ≠ q := by omega
        have n2 : P * 3 + 2 ≠ q := by omega
        simp only [List.getElem?_set, n0, n1, n2, if_false]
        exact h2 q c' hd' hc hq
    · intro q hq
      have hqP : q / 3 ≠ P := by
        intro e
        rcases hq with hq | hq
        · exact hq (Or.inr e)
        · rw [e, hpx] at hq; exact absurd hq (by simp)
      have n0 : P * 3 ≠ q := by omega
      have n1 : P * 3 + 1 ≠ q := by omega
      have n2 : P * 3 + 2 ≠ q := by omega
      simp only [List.getElem?_set, n0, n1, n2, if_false]
      apply h3
      rcases hq with hq | hq
      · exact Or.inl (fun hd => hq (Or.inl hd))
      · exact Or.inr hq

/-- The two nested loops of `render_frame_rect` and `dispose` over the rows
and columns of a rectangle, for a body that paints pixel `i + k`. -/
theorem rect_loop (w fw fh base : Nat) (px : Nat → Option (Nat × Nat × Nat))
    (body : Nat → Nat → Nat → List Nat → Option (List Nat)) (b0 : List Nat)
    (hbody : ∀ j k b, j < fh → k < fw → b.length = b0.length →
      body (base + j * w) j k b = putPixel px b (base + j * w + k))
    (hbound : ∀ j k, j < fh → k < fw → (base + j * w + k) * 3 + 2 < b0.length) :
    ∃ out, (forLoop (fun j (s : List Nat × Nat) =>
        (forLoop (fun k b => body s.2 j k b) 0 fw s.1).map fun b => (b, s.2 + w))
        0 fh (b0, base)).map Prod.fst = some out ∧
      Painted px (fun p => ∃ j k, j < fh ∧ k < fw ∧ p = base + j * w + k) b0 out := by
  have houter := forLoop_inv
    (fun j (s : List Nat × Nat) =>
      (forLoop (fun k b => body s.2 j k b) 0 fw s.1).map fun b => (b, s.2 + w))
    (fun j s => s.2 = base + j * w ∧
      Painted px (fun p => ∃ j' k, j' < j ∧ k < fw ∧ p = base + j' * w + k) b0 s.1)
    fh 0 (b0, base)
    ⟨by simp, painted_congr (painted_refl px b0) (fun p => by simp)⟩
    (by
      intro j t _ hj hinv
      obtain ⟨hi, hpaint⟩ := hinv
      have hj' : j < fh := by omega
      have hinner := forLoop_inv (fun k b => body t.2 j k b)
        (fun k b => Painted px (fun p => (∃ j' k', j' < j ∧ k' < fw ∧ p = base + j' * w + k') ∨
          (∃ k', k' < k ∧ p = base + j * w + k')) b0 b)
        fw 0 t.1
        (painted_congr hpaint (fun p => by simp))
        (by
          intro k b _ hk hb
          have hk' : k < fw := by omega
          obtain ⟨b', hb', hp'⟩ := painted_step hb (base + j * w + k) (hbound j k hj' hk')
          refine ⟨b', ?_, painted_congr hp' ?_⟩
          · show body t.2 j k b = some b'
            rw [hi, hbody j k b hj' hk' hb.1]; exact hb'
          · intro p
            constructor
            · rintro (⟨h1 | ⟨k', hk1, hk2⟩⟩ | h2)
              · exact Or.inl h1
              · exact Or.inr ⟨k', by omega, hk2⟩
              · exact Or.inr ⟨k, by omega, h2⟩
            · rintro (h1 | ⟨k', hk1, hk2⟩)
              · exact Or.inl (Or.inl h1)
              · rcases Nat.lt_or_ge k' k with hlt | hge
                · exact Or.inl (Or.inr ⟨k', hlt, hk2⟩)
                · have : k' = k := by omega
                  subst this
                  exact Or.inr hk2)
      obtain ⟨b', hb', hp'⟩ := hinner
      refine ⟨(b', t.2 + w), ?_, ?_, painted_congr hp' ?_⟩
      · show Option.map _ (forLoop (fun k b => body t.2 j k b) 0 fw t.1) = _
        rw [hb']; rfl
      · show t.2 + w = base + (j + 1) * w
        rw [hi, Nat.succ_mul]; omega
      · intro p
        constructor
        · rintro (⟨j', k', h1, h2, h3⟩ | ⟨k', hk1, hk2⟩)
          · exact ⟨j', k', by omega, h2, h3⟩
          · exact ⟨j, k', by omega, by omega, hk2⟩
        · rintro ⟨j', k', h1, h2, h3⟩
          rcases Nat.lt_or_ge j' j with hlt | hge
          · exact Or.inl ⟨j', k', hlt, h2, h3⟩
          · have : j' = j := by omega
            subst this
            exact Or.inr ⟨k', by omega, h3⟩)
  obtain ⟨s', hs', _, hp⟩ := houter
  refine ⟨s'.1, ?_, painted_congr hp (fun p => by simp)⟩
  rw [hs']; rfl

/-! ## Rendering: theorems -/

/-- Pixel offsets `y * w + x` with `x < w` determine the row and column. -/
theorem pixel_coords (w x y x' y' : Nat) (hx : x < w) (hx' : x' < w)
    (e : y * w + x = y' * w + x') : y = y' ∧ x = x' := by
  have key : ∀ a b u v : Nat, u < w → a < b → a * w + u < b * w + v := by
    intro a b u v hu hab
    have h1 : (a + 1) * w ≤ b * w := Nat.mul_le_mul_right w hab
    rw [Nat.succ_mul] at h1
    omega
  rcases Nat.lt_trichotomy y y' with h | h | h
  · have := key y y' x x' hx h; omega
  · subst h; exact ⟨rfl, by omega⟩
  · have := key y' y x' x hx' h; omega

/-- The pixels the nested loops visit are those of the frame rectangle. -/
theorem rect_mem (w fx fy fw fh x y : Nat) (hfx : fx + fw ≤ w) (hx : x < w) :
    (∃ j k, j < fh ∧ k < fw ∧ y * w + x = fy * w + fx + j * w + k) ↔
      (fx ≤ x ∧ x < fx + fw ∧ fy ≤ y ∧ y < fy + fh) := by
  constructor
  · rintro ⟨j, k, hj, hk, e⟩
    have e' : y * w + x = (fy + j) * w + (fx + k) := by rw [Nat.add_mul]; omega
    obtain ⟨h1, h2⟩ := pixel_coords w x y (fx + k) (fy + j) hx (by omega) e'
    omega
  · rintro ⟨h1, h2, h3, h4⟩
    refine ⟨y - fy, x - fx, by omega, by omega, ?_⟩
    have : y = fy + (y - fy) := by omega
    conv_lhs => rw [this, Nat.add_mul]
    omega

/-- Every pixel of a rectangle inside the canvas lies inside a buffer of
`w * h` pixels. -/
theorem rect_bound (w h fx fy fw fh j k : Nat) (hfx : fx + fw ≤ w) (hfy : fy + fh ≤ h)
    (hj : j < fh) (hk : k < fw) : fy * w + fx + j * w + k < w * h := by
  have h1 : (fy + j + 1) * w ≤ h * w := Nat.mul_le_mul_right w (by omega)
  rw [Nat.succ_mul, Nat.add_mul] at h1
  rw [Nat.mul_comm w h]
  omega

/-- With 3-byte output the body of `render_frame_rect` paints pixel `i + k`. -/
theorem render_pixel_eq (gif : gd_GIF) (pal : gd_Palette) (j k : Nat) (b : List Nat)
    (hcb : gif.canvasbytes = 3) (hpal : gif.activePalette = some pal)
    (hcolors : pal.colors.length = 0x100 * 3)
    (hidx : ∀ v ∈ gif.frame, v < 256)
    (hin : gif.fy * gif.width + gif.fx + j * gif.width + k < gif.frame.length) :
    render_pixel gif (gif.fy * gif.width + gif.fx + j * gif.width) j k b =
      putPixel (renderPx gif pal) b (gif.fy * gif.width + gif.fx + j * gif.width + k) := by
  have e : (gif.fy + j) * gif.width + gif.fx + k =
      gif.fy * gif.width + gif.fx + j * gif.width + k := by rw [Nat.add_mul]; omega
  have hget : gif.frame[gif.fy * gif.width + gif.fx + j * gif.width + k]? =
      some (gif.frame[gif.fy * gif.width + gif.fx + j * gif.width + k]) :=
    List.getElem?_eq_getElem hin
  have hlt : gif.frame[gif.fy * gif.width + gif.fx + j * gif.width + k] < 256 :=
    hidx _ (List.getElem_mem _)
  unfold render_pixel putPixel renderPx load
  rw [e, hget, hpal]
  simp only [Option.some_bind, List.getD_eq_getElem?_getD, hget, Option.getD_some]
  split_ifs with ht
  · have h0 : gif.frame[gif.fy * gif.width + gif.fx + j * gif.width + k] * 3 <
        pal.colors.length := by omega
    have h1 : gif.frame[gif.fy * gif.width + gif.fx + j * gif.width + k] * 3 + 1 <
        pal.colors.length := by omega
    have h2 : gif.frame[gif.fy * gif.width + gif.fx + j * gif.width + k] * 3 + 2 <
        pal.colors.length := by omega
    simp [List.getElem?_eq_getElem h0, List.getElem?_eq_getElem h1,
      List.getElem?_eq_getElem h2, hcb]
  · rfl

/-- Component `c` of three consecutive bytes of a list. -/
theorem byteOf_getD (l : List Nat) (n c : Nat) (hc : c < 3) :
    byteOf (l.getD n 0, l.getD (n + 1) 0, l.getD (n + 2) 0) c = l.getD (n + c) 0 := by
  have hcase : c = 0 ∨ c = 1 ∨ c = 2 := by omega
  rcases hcase with rfl | rfl | rfl <;> simp [byteOf]

/-- The byte of a painted buffer at component `c` of the pixel in column `x`
and row `y`. -/
theorem painted_pixel {px : Nat → Option (Nat × Nat × Nat)} {w fx fy fw fh : Nat}
    {b0 out : List Nat}
    (h : Painted px (fun p => ∃ j k, j < fh ∧ k < fw ∧ p = fy * w + fx + j * w + k) b0 out)
    (hfx : fx + fw ≤ w) (x y c : Nat) (hx : x < w) (hc : c < 3)
    (hq : (y * w + x) * 3 + c < b0.length) :
    out[(y * w + x) * 3 + c]? =
      if fx ≤ x ∧ x < fx + fw ∧ fy ≤ y ∧ y < fy + fh then
        match px (y * w + x) with
        | some col => some (byteOf col c % 256)
        | none => b0[(y * w + x) * 3 + c]?
      else b0[(y * w + x) * 3 + c]? := by
  obtain ⟨_, h2, h3⟩ := h
  have hdiv : ((y * w + x) * 3 + c) / 3 = y * w + x := by omega
  have hmod : ((y * w + x) * 3 + c) % 3 = c := by omega
  split_ifs with hin
  · cases hpx : px (y * w + x) with
    | none =>
      exact h3 _ (Or.inr (by rw [hdiv]; exact hpx))
    | some col =>
      have := h2 ((y * w + x) * 3 + c) col
        (by rw [hdiv]; exact (rect_mem w fx fy fw fh x y hfx hx).2 hin)
        (by rw [hdiv]; exact hpx) hq
      rw [hmod] at this
      exact this
  · exact h3 _ (Or.inl (by
      rw [hdiv]
      exact fun hd => hin ((rect_mem w fx fy fw fh x y hfx hx).1 hd)))

/-- With 3-byte output and the frame rectangle inside the canvas,
`render_frame_rect` has a defined result: the buffer with the opaque pixels of
the rectangle painted in their palette colours. -/
theorem render_frame_rect_painted (gif : gd_GIF) (pal : gd_Palette) (b0 : List Nat)
    (hcb : gif.canvasbytes = 3) (hpal : gif.activePalette = some pal)
    (hcolors : pal.colors.length = 0x100 * 3)
    (hframe : gif.frame.length = gif.width * gif.height)
    (hidx : ∀ v ∈ gif.frame, v < 256)
    (hbuf : gif.width * gif.height * 3 ≤ b0.length)
    (hx : gif.fx + gif.fw ≤ gif.width) (hy : gif.fy + gif.fh ≤ gif.height) :
    ∃ out, render_frame_rect gif b0 = some out ∧
      Painted (renderPx gif pal)
        (fun p => ∃ j k, j < gif.fh ∧ k < gif.fw ∧
          p = gif.fy * gif.width + gif.fx + j * gif.width + k) b0 out := by
  unfold render_frame_rect
  apply rect_loop gif.width gif.fw gif.fh (gif.fy * gif.width + gif.fx) (renderPx gif pal)
    (fun i j k b => render_pixel gif i j k b) b0
  · intro j k b hj hk _
    have := rect_bound gif.width gif.height gif.fx gif.fy gif.fw gif.fh j k hx hy hj hk
    exact render_pixel_eq gif pal j k b hcb hpal hcolors hidx (by omega)
  · intro j k hj hk
    have := rect_bound gif.width gif.height gif.fx gif.fy gif.fw gif.fh j k hx hy hj hk
    omega

/-- Claim C4: for a handle with 3-byte output whose frame rectangle lies
inside the canvas, `gd_render_frame` has a defined result: an output buffer in
which each pixel `(x, y)` of the canvas area holds the palette colour of the
frame-buffer index when the pixel lies in the frame rectangle and is not
transparent (transparency enabled and index equal to the transparent index),
and the canvas pixel in every other case. The function returns only the
buffer: canvas and frame buffer of the handle are not written. -/
theorem gd_render_frame_truecolor (gif : gd_GIF) (buffer : List Nat) (pal : gd_Palette)
    (hcb : gif.canvasbytes = 3) (hpal : gif.activePalette = some pal)
    (hcolors : pal.colors.length = 0x100 * 3) (hbytes : ∀ v ∈ pal.colors, v < 256)
    (hcanvas : gif.canvas.length = gif.width * gif.height * 3)
    (hframe : gif.frame.length = gif.width * gif.height)
    (hidx : ∀ v ∈ gif.frame, v < 256)
    (hint : gif.width * gif.height * 3 < 2 ^ 31)
    (hbuf : gif.width * gif.height * 3 ≤ buffer.length)
    (hx : gif.fx + gif.fw ≤ gif.width) (hy : gif.fy + gif.fh ≤ gif.height) :
    ∃ out, gd_render_frame gif buffer = some out ∧ out.length = buffer.length ∧
      ∀ x y c, x < gif.width → y < gif.height → c < 3 →
        out[(y * gif.width + x) * 3 + c]? =
          if (gif.fx ≤ x ∧ x < gif.fx + gif.fw ∧ gif.fy ≤ y ∧ y < gif.fy + gif.fh) ∧
              ¬ (gif.gce.transparency ≠ 0 ∧
                gif.frame.getD (y * gif.width + x) 0 = gif.gce.tindex) then
            pal.colors[gif.frame.getD (y * gif.width + x) 0 * 3 + c]?
          else gif.canvas[(y * gif.width + x) * 3 + c]? := by
  have hcopy : memcpy buffer (gif.canvas ++ gif.frame) (gif.width * gif.height * 3) =
      some (gif.canvas ++ buffer.drop (gif.width * gif.height * 3)) := by
    unfold memcpy
    rw [if_pos ⟨by simp [hcanvas], hbuf⟩, ← hcanvas, List.take_left]
  have hlen0 : (gif.canvas ++ buffer.drop (gif.width * gif.height * 3)).length =
      buffer.length := by
    simp [hcanvas]; omega
  obtain ⟨out, hout, hp⟩ := render_frame_rect_painted gif pal
    (gif.canvas ++ buffer.drop (gif.width * gif.height * 3)) hcb hpal hcolors hframe hidx
    (by omega) hx hy
  refine ⟨out, ?_, by rw [hp.1, hlen0], ?_⟩
  · unfold gd_render_frame
    rw [if_pos hint, hcopy, Option.some_bind]; exact hout
  · intro x y c hxw hyh hc
    have hP : y * gif.width + x < gif.width * gif.height := by
      have h1 : (y + 1) * gif.width ≤ gif.height * gif.width :=
        Nat.mul_le_mul_right gif.width (by omega)
      rw [Nat.succ_mul] at h1
      rw [Nat.mul_comm gif.width gif.height]
      omega
    have hq : (y * gif.width + x) * 3 + c < gif.canvas.length := by omega
    have hb0 : (gif.canvas ++ buffer.drop (gif.width * gif.height * 3))[
        (y * gif.width + x) * 3 + c]? = gif.canvas[(y * gif.width + x) * 3 + c]? :=
      List.getElem?_append_left hq
    rw [painted_pixel hp hx x y c hxw hc (by omega), hb0]
    have hfr : gif.frame.getD (y * gif.width + x) 0 < 256 := by
      rw [List.getD_eq_getElem _ _ (by omega)]
      exact hidx _ (List.getElem_mem _)
    by_cases hin : gif.fx ≤ x ∧ x < gif.fx + gif.fw ∧ gif.fy ≤ y ∧ y < gif.fy + gif.fh
    · rw [if_pos hin]
      by_cases ht : gif.gce.transparency = 0 ∨
          gif.frame.getD (y * gif.width + x) 0 ≠ gif.gce.tindex
      · have hcond : (gif.fx ≤ x ∧ x < gif.fx + gif.fw ∧ gif.fy ≤ y ∧ y < gif.fy + gif.fh) ∧
            ¬ (gif.gce.transparency ≠ 0 ∧
              gif.frame.getD (y * gif.width + x) 0 = gif.gce.tindex) := by
          refine ⟨hin, ?_⟩
          rintro ⟨h1, h2⟩
          rcases ht with ht | ht
          · exact h1 ht
          · exact ht h2
        rw [if_pos hcond]
        have hpx : renderPx gif pal (y * gif.width + x) =
            some (pal.colors.getD (gif.frame.getD (y * gif.width + x) 0 * 3) 0,
              pal.colors.getD (gif.frame.getD (y * gif.width + x) 0 * 3 + 1) 0,
              pal.colors.getD (gif.frame.getD (y * gif.width + x) 0 * 3 + 2) 0) := by
          unfold renderPx
          exact if_pos ht
        rw [hpx]
        have hlt : gif.frame.getD (y * gif.width + x) 0 * 3 + c < pal.colors.length := by
          omega
        show some (byteOf _ c % 256) = _
        rw [byteOf_getD _ _ c hc, List.getD_eq_getElem _ _ hlt, List.getElem?_eq_getElem hlt,
          Nat.mod_eq_of_lt (hbytes _ (List.getElem_mem _))]
      · have hcond : ¬ ((gif.fx ≤ x ∧ x < gif.fx + gif.fw ∧ gif.fy ≤ y ∧ y < gif.fy + gif.fh) ∧
            ¬ (gif.gce.transparency ≠ 0 ∧
              gif.frame.getD (y * gif.width + x) 0 = gif.gce.tindex)) := by
          rintro ⟨_, h2⟩
          apply h2
          constructor
          · exact fun h => ht (Or.inl h)
          · by_contra h; exact ht (Or.inr h)
        rw [if_neg hcond]
        have hpx : renderPx gif pal (y * gif.width + x) = none := by
          unfold renderPx
          exact if_neg ht
        rw [hpx]
    · have hcond : ¬ ((gif.fx ≤ x ∧ x < gif.fx + gif.fw ∧ gif.fy ≤ y ∧ y < gif.fy + gif.fh) ∧
          ¬ (gif.gce.transparency ≠ 0 ∧
            gif.frame.getD (y * gif.width + x) 0 = gif.gce.tindex)) := fun h => hin h.1
      rw [if_neg hin, if_neg hcond]

/-! ## Disposal: theorems -/

/-- Claim C10: when the recorded disposal method is 3 the dispose step has a
defined result and returns the handle as it was; in particular the canvas
buffer is byte-identical. -/
theorem dispose_restore_previous (gif : gd_GIF) (hd : gif.gce.disposal = 3) :
    dispose gif = some gif ∧ (dispose gif).map (fun g => g.canvas) = some gif.canvas := by
  have h : dispose gif = some gif := by
    unfold dispose
    rw [if_neg (by omega), if_pos hd]
  exact ⟨h, by rw [h]; rfl⟩

/-! ## Stream primitives: lemmas -/

theorem fread_length (f : FILE) (n : Nat) :
    (fread f n).1.length = min n (f.data.length - f.pos) := by
  simp [fread]

theorem fread_pos (f : FILE) (n : Nat) :
    (fread f n).2.pos = f.pos + min n (f.data.length - f.pos) := by
  simp [fread]

theorem fread_data (f : FILE) (n : Nat) : (fread f n).2.data = f.data := rfl

theorem read_num_data (junk : Nat → Nat) (f : FILE) : (read_num junk f).2.data = f.data := rfl

theorem read_num_pos (junk : Nat → Nat) (f : FILE) :
    (read_num junk f).2.pos = f.pos + min 2 (f.data.length - f.pos) := by
  simp [read_num, fread]

theorem read_num_lt (junk : Nat → Nat) (f : FILE) : (read_num junk f).1 < 65536 := by
  unfold read_num
  exact Nat.mod_lt _ (by decide)

set_option maxRecDepth 100000 in
/-- Bit 7 of a byte, as `gd_open_gif` tests it. -/
theorem cAnd_bit7 (b : Nat) : cAnd ((b % 256 : Nat) : Int) 0x80 ≠ 0 ↔ 128 ≤ b % 256 := by
  have hb : b % 256 < 256 := Nat.mod_lt _ (by decide)
  have e : cAnd ((b % 256 : Nat) : Int) 0x80 = (b % 256) &&& 0x80 := by
    unfold cAnd
    congr 1
    omega
  rw [e]
  generalize b % 256 = n at hb
  revert n
  decide

/-! ## Opening a stream: theorems -/

theorem headerStream_data (junk : Nat → Nat) (data : List Nat) :
    (headerStream junk data).data = data := rfl

theorem headerStream_get (junk : Nat → Nat) (data : List Nat) (hlen : 6 ≤ data.length) :
    data[(headerStream junk data).pos]? = data[10]? := by
  have hp : (headerStream junk data).pos =
      6 + min 2 (data.length - 6) + min 2 (data.length - (6 + min 2 (data.length - 6))) := by
    unfold headerStream
    rw [read_num_pos, read_num_pos, read_num_data, fread_data, fread_pos]
    simp only [Nat.zero_add, Nat.sub_zero]
    rw [Nat.min_eq_left hlen]
  by_cases h : 10 < data.length
  · have : (headerStream junk data).pos = 10 := by omega
    rw [this]
  · rw [List.getElem?_eq_none (by omega), List.getElem?_eq_none (by omega)]

/-- The value `fgetc` returns for the descriptor byte. -/
theorem headerStream_fgetc (junk : Nat → Nat) (data : List Nat) (hlen : 6 ≤ data.length) :
    (fgetc (headerStream junk data)).1 =
      match data[10]? with
      | some b => ((b % 256 : Nat) : Int)
      | none => -1 := by
  unfold fgetc
  rw [headerStream_data, headerStream_get junk data hlen]
  cases data[10]? <;> rfl

/-- A stream whose first six bytes are not `"GIF89a"` is refused. -/
theorem gd_open_gif_bad_signature (junk : Nat → Nat) (calloc : Nat → Bool)
    (data : List Nat) (canvasdepth : Int)
    (h : (data.take 6).map (· % 256) ≠ sigGIF ++ ver89a) :
    gd_open_gif junk calloc (some data) canvasdepth = .null := by
  have hs : (fread ⟨data, 0, false⟩ 6).1 = (data.take 6).map (· % 256) := by simp [fread]
  unfold gd_open_gif
  simp only [hs]
  by_cases h1 : ((data.take 6).map (· % 256)).length ≠ 6
  · rw [if_pos h1]
  · rw [if_neg h1]
    by_cases h2 : ((data.take 6).map (· % 256)).take 3 ≠ sigGIF
    · rw [if_pos h2]
    · rw [if_neg h2]
      by_cases h3 : ((data.take 6).map (· % 256)).drop 3 ≠ ver89a
      · rw [if_pos h3]
      · exfalso
        apply h
        rw [← List.take_append_drop 3 ((data.take 6).map (· % 256))]
        rw [not_not.1 h2, not_not.1 h3]

theorem fgetc_eof (f : FILE) (h : f.data[f.pos]? = none) :
    fgetc f = (-1, { f with eof := true }) := by
  unfold fgetc; rw [h]

theorem fread_eof (f : FILE) (n : Nat) (h : f.data.length ≤ f.pos) : (fread f n).1 = [] := by
  simp [fread, List.drop_eq_nil_of_le h]

/-- The three signature tests of `gd_open_gif` pass on `"GIF89a"`. -/
theorem signature_tests (data : List Nat)
    (h : (data.take 6).map (· % 256) = sigGIF ++ ver89a) :
    (fread ⟨data, 0, false⟩ 6).1.length = 6 ∧ (fread ⟨data, 0, false⟩ 6).1.take 3 = sigGIF ∧
      (fread ⟨data, 0, false⟩ 6).1.drop 3 = ver89a ∧ 6 ≤ data.length := by
  have hs : (fread ⟨data, 0, false⟩ 6).1 = sigGIF ++ ver89a := by
    rw [← h]; simp [fread]
  have hl : ((data.take 6).map (· % 256)).length = 6 := by rw [h]; rfl
  simp only [List.length_map, List.length_take] at hl
  rw [hs]
  exact ⟨rfl, rfl, rfl, by omega⟩

/-- A stream whose descriptor byte has bit 7 clear is refused. -/
theorem gd_open_gif_no_gct (junk : Nat → Nat) (calloc : Nat → Bool)
    (data : List Nat) (canvasdepth : Int) (b : Nat)
    (h : (data.take 6).map (· % 256) = sigGIF ++ ver89a)
    (hb : data[10]? = some b) (hbit : b % 256 < 128) :
    gd_open_gif junk calloc (some data) canvasdepth = .null := by
  obtain ⟨h1, h2, h3, hlen⟩ := signature_tests data h
  have hf := headerStream_fgetc junk data hlen
  rw [hb] at hf
  have hc : cAnd (fgetc (headerStream junk data)).1 0x80 = 0 := by
    rw [hf]
    by_contra hne
    have := (cAnd_bit7 b).1 hne
    omega
  unfold gd_open_gif
  simp only [h1, h2, h3, ne_eq, not_true_eq_false, if_false]
  unfold headerStream at hc
  unfold gd_open_gif_screen
  rw [if_pos hc]

/-- Line 89 with `gif` still `NULL`: once the test of line 69 has passed, the
store has no defined result, whatever the stream holds and whatever `calloc`
would do. -/
theorem gd_open_gif_screen_null_store (calloc : Nat → Bool) (canvasdepth : Int)
    (width height : Nat) (fdsz : Int) (fd : FILE) :
    gd_open_gif_screen none calloc canvasdepth width height fdsz fd =
      if cAnd fdsz 0x80 = 0 then .null else .undefined := by
  unfold gd_open_gif_screen
  split_ifs <;> rfl

/-- The value `EOF` passes the test of line 69: bit 7 of -1 is set. -/
theorem cAnd_eof : cAnd (-1) 0x80 ≠ 0 := by decide

/-- A stream with the signature `"GIF89a"` that ends before the descriptor
byte: `fgetc` returns `EOF`, whose bit 7 is set, so line 69 does not refuse
the stream and line 89 stores through `NULL`. -/
theorem gd_open_gif_short (junk : Nat → Nat) (calloc : Nat → Bool)
    (data : List Nat) (canvasdepth : Int)
    (h : (data.take 6).map (· % 256) = sigGIF ++ ver89a)
    (hb : data[10]? = none) :
    gd_open_gif junk calloc (some data) canvasdepth = .undefined := by
  obtain ⟨h1, h2, h3, hlen⟩ := signature_tests data h
  have hg : (headerStream junk data).data[(headerStream junk data).pos]? = none := by
    rw [headerStream_data, headerStream_get junk data hlen, hb]
  have e1 : fgetc (headerStream junk data) = (-1, { headerStream junk data with eof := true }) :=
    fgetc_eof _ hg
  unfold gd_open_gif
  simp only [h1, h2, h3, ne_eq, not_true_eq_false, if_false]
  unfold headerStream at e1
  rw [e1, gd_open_gif_screen_null_store, if_neg cAnd_eof]

/-- A stream with the signature `"GIF89a"` whose descriptor byte has bit 7
set passes every test and reaches line 89, which stores through `NULL`. -/
theorem gd_open_gif_gct (junk : Nat → Nat) (calloc : Nat → Bool)
    (data : List Nat) (canvasdepth : Int) (b : Nat)
    (h : (data.take 6).map (· % 256) = sigGIF ++ ver89a)
    (hb : data[10]? = some b) (hbit : 128 ≤ b % 256) :
    gd_open_gif junk calloc (some data) canvasdepth = .undefined := by
  obtain ⟨h1, h2, h3, hlen⟩ := signature_tests data h
  have hf := headerStream_fgetc junk data hlen
  rw [hb] at hf
  have hc : cAnd (fgetc (headerStream junk data)).1 0x80 ≠ 0 := by
    rw [hf]
    exact (cAnd_bit7 b).2 hbit
  unfold gd_open_gif
  simp only [h1, h2, h3, ne_eq, not_true_eq_false, if_false]
  unfold headerStream at hc
  rw [gd_open_gif_screen_null_store, if_neg hc]

/-- The outcomes of `gd_open_gif`: `NULL` when there is no file, when the
first six bytes are not `"GIF89a"` and when the descriptor byte is present
with bit 7 clear; no defined result in every other case. -/
theorem gd_open_gif_outcome (junk : Nat → Nat) (calloc : Nat → Bool)
    (file : Option (List Nat)) (canvasdepth : Int) :
    (gd_open_gif junk calloc file canvasdepth = .null ∧
      (∀ data, file = some data → (data.take 6).map (· % 256) = sigGIF ++ ver89a →
        ∃ b, data[10]? = some b ∧ b % 256 < 128)) ∨
    (gd_open_gif junk calloc file canvasdepth = .undefined ∧
      ∃ data, file = some data ∧ (data.take 6).map (· % 256) = sigGIF ++ ver89a ∧
        ∀ b, data[10]? = some b → 128 ≤ b % 256) := by
  cases file with
  | none => exact Or.inl ⟨rfl, fun data hd => by cases hd⟩
  | some data =>
    by_cases hs : (data.take 6).map (· % 256) = sigGIF ++ ver89a
    · cases hb : data[10]? with
      | none =>
        exact Or.inr ⟨gd_open_gif_short junk calloc data canvasdepth hs hb, data, rfl, hs,
          fun b hb' => by rw [hb] at hb'; cases hb'⟩
      | some b =>
        by_cases hbit : 128 ≤ b % 256
        · refine Or.inr ⟨gd_open_gif_gct junk calloc data canvasdepth b hs hb hbit, data, rfl,
            hs, fun b' hb' => ?_⟩
          rw [hb] at hb'
          injection hb' with hb'
          rw [← hb']
          exact hbit
        · refine Or.inl ⟨gd_open_gif_no_gct junk calloc data canvasdepth b hs hb (by omega),
            fun d hd _ => ?_⟩
          injection hd with hd
          subst hd
          exact ⟨b, hb, by omega⟩
    · refine Or.inl ⟨gd_open_gif_bad_signature junk calloc data canvasdepth hs,
        fun d hd hs' => ?_⟩
      injection hd with hd
      subst hd
      exact absurd hs' hs

/-- No call of `gd_open_gif` returns a handle: every stream that passes the
tests of lines 50-69 reaches the store of line 89. -/
theorem gd_open_gif_no_handle (junk : Nat → Nat) (calloc : Nat → Bool)
    (file : Option (List Nat)) (canvasdepth : Int) (gif : gd_GIF) :
    gd_open_gif junk calloc file canvasdepth ≠ .handle gif := by
  intro hg
  rcases gd_open_gif_outcome junk calloc file canvasdepth with h | h
  · rw [h.1] at hg; cases hg
  · rw [h.1] at hg; cases hg

/-! ## Frames: theorems -/

/-- Witness of `gd_render_frame_truecolor` on `renderSample`: the opaque pixel
of the frame rectangle takes its palette colour, the transparent one and the
pixels outside the rectangle keep the canvas colour. -/
theorem gd_render_frame_truecolor_witness :
    (renderSample.canvasbytes = 3 ∧ renderSample.fx + renderSample.fw ≤ renderSample.width ∧
      renderSample.fy + renderSample.fh ≤ renderSample.height) ∧
    ∃ out, gd_render_frame renderSample (List.replicate 12 0) = some out ∧
      out.length = (List.replicate 12 0).length ∧
      ∀ x y c, x < renderSample.width → y < renderSample.height → c < 3 →
        out[(y * renderSample.width + x) * 3 + c]? =
          if (renderSample.fx ≤ x ∧ x < renderSample.fx + renderSample.fw ∧
                renderSample.fy ≤ y ∧ y < renderSample.fy + renderSample.fh) ∧
              ¬ (renderSample.gce.transparency ≠ 0 ∧
                renderSample.frame.getD (y * renderSample.width + x) 0 =
                  renderSample.gce.tindex) then
            renderSample.gct.colors[
              renderSample.frame.getD (y * renderSample.width + x) 0 * 3 + c]?
          else renderSample.canvas[(y * renderSample.width + x) * 3 + c]? :=
  ⟨by decide!,
    gd_render_frame_truecolor renderSample (List.replicate 12 0) renderSample.gct
      (by decide!) (by decide!) (by decide!)
      (by decide!)
      (by decide!) (by decide!) (by decide!) (by decide!) (by decide!) (by decide!) (by decide!)⟩

/-- The output buffer `gd_render_frame` produces on `renderSample`. -/
theorem gd_render_frame_sample :
    gd_render_frame renderSample (List.replicate 12 0) =
      some [1, 1, 1, 40, 50, 60, 3, 3, 3, 4, 4, 4] := by
  decide!

/-- Witness of `dispose_restore_previous`: `disposeSample` with disposal
method 3. -/
theorem dispose_restore_previous_witness :
    ({ disposeSample with gce := ⟨0, 0, 3, 0, 0⟩ } : gd_GIF).gce.disposal = 3 ∧
    (dispose { disposeSample with gce := ⟨0, 0, 3, 0, 0⟩ }).map (fun g => g.canvas) =
      some [9, 9, 9] :=
  ⟨rfl, (dispose_restore_previous { disposeSample with gce := ⟨0, 0, 3, 0, 0⟩ } rfl).2⟩

/-- Claim C6, failing input: `tinyGif` is a well-formed one-image stream, yet
opening it with depth 24 has no defined result and yields no handle whose
`canvasbytes` could be 3. Line 89 stores `canvasbytes` through `gif` one line
before `calloc` assigns the pointer, which is still `NULL`; for the same
reason no call of `gd_open_gif`, on any stream and at any depth, returns a
handle. -/
theorem gd_open_gif_stores_through_null :
    gd_open_gif junk0 callocOk (some tinyGif) 24 = .undefined ∧
    (∀ (junk : Nat → Nat) (calloc : Nat → Bool) (file : Option (List Nat)) (canvasdepth : Int)
      (gif : gd_GIF), gd_open_gif junk calloc file canvasdepth ≠ .handle gif) :=
  ⟨gd_open_gif_gct junk0 callocOk tinyGif 24 0x80 (by decide) (by decide) (by decide),
    gd_open_gif_no_handle⟩

/-- Claim C7, failing input: `shortGif` starts with `"GIF89a"` and ends before
the descriptor byte, so no descriptor byte has bit 7 set; `gd_open_gif` does
not return `NULL` on it but has no defined result. The value `EOF` of `fgetc`
has bit 7 set, the test of line 69 lets the stream pass, and line 89 stores
through `gif`, which is `NULL`. The failure outcomes that are defined are
`NULL`: a stream with another signature or with bit 7 of the descriptor byte
clear is refused. -/
theorem gd_open_gif_missing_descriptor :
    (shortGif.take 6 = sigGIF ++ ver89a ∧ shortGif[10]? = none) ∧
    (∀ (junk : Nat → Nat) (calloc : Nat → Bool) (canvasdepth : Int),
      gd_open_gif junk calloc (some shortGif) canvasdepth = .undefined) ∧
    (∀ (junk : Nat → Nat) (calloc : Nat → Bool) (data : List Nat) (canvasdepth : Int),
      ((data.take 6).map (· % 256) ≠ sigGIF ++ ver89a ∨
        ∃ b, data[10]? = some b ∧ b % 256 < 128) →
      gd_open_gif junk calloc (some data) canvasdepth = .null) := by
  refine ⟨by decide, fun junk calloc d => ?_, fun junk calloc data d h => ?_⟩
  · exact gd_open_gif_short junk calloc shortGif d (by decide) (by decide)
  · by_cases hs : (data.take 6).map (· % 256) = sigGIF ++ ver89a
    · rcases h with h | ⟨b, hb, hbit⟩
      · exact absurd hs h
      · exact gd_open_gif_no_gct junk calloc data d b hs hb hbit
    · exact gd_open_gif_bad_signature junk calloc data d hs

/-- Claim C1, failing input: `lzwPayload` holds the valid code sequence
CLEAR 0 0 CLEAR 0 0 2 STOP, whose decompression is `0 0 0 0 2`;
`read_image_data` leaves the fifth cell of the frame buffer at 0. After the
second CLEAR the variable `ret` still holds the 1 of the `add_entry` call that
brought the table to 8 entries, so the key width grows to 4 one code after the
CLEAR and the decoder reads STOP where the code 2 stands. -/
theorem read_image_data_drops_pixel :
    gifCodes 2 lzwPayload = [4, 0, 0, 4, 0, 0, 2, 5] ∧
    lzwReference 2 [4, 0, 0, 4, 0, 0, 2, 5] = [0, 0, 0, 0, 2] ∧
    (read_image_data mallocOk reallocOk 8 lzwSample 0).map (fun r => r.2.frame) = some [0, 0, 0, 0, 0] := by
  decide!

/-! ## The code table at 4096 entries -/

/-- One step of the prefix walk on the one-row frame of `fullTableSample`. -/
theorem walk_fullTableSample (off : Nat) (table : Table) (fuel : Nat) (e : Entry)
    (frame : List Nat) (hl : 1 ≤ e.length) (hp : off + e.length - 1 < 4093) :
    walk fullTableSample 0 off table (fuel + 1) e frame =
      (store frame (off + e.length - 1) e.suffix).bind fun frame =>
        if e.prefix_ = 0xFFF then some (e, frame)
        else
          match (table.entries[e.prefix_]?).join with
          | none => none
          | some e' => walk fullTableSample 0 off table fuel e' frame := by
  have hcast : ((off : Int) + (e.length : Int) - 1) = ((off + e.length - 1 : Nat) : Int) := by
    omega
  have h0 : (0 : Int) ≤ ((off + e.length - 1 : Nat) : Int) := Int.ofNat_nonneg _
  have hlt : ((off + e.length - 1 : Nat) : Int) < ((4093 : Nat) : Int) := by omega
  have hfw : fullTableSample.fw = 4093 := rfl
  have hfx : fullTableSample.fx = 0 := rfl
  have hfy : fullTableSample.fy = 0 := rfl
  rw [walk]
  simp only [hfw, hfx, hfy, hcast, Int.tmod_eq_of_lt h0 hlt, Int.tdiv_eq_zero_of_lt h0 hlt]
  simp

/-- What `add_entry` does to a table whose storage has `bulk` slots when the
reallocation, if any, succeeds: it has a defined result, the new entry sits at the old `nentries`, every other slot is
kept. -/
theorem add_entry_spec (realloc : Nat → Bool) (t : Table) (len pre suf : Nat)
    (hok : t.nentries = t.bulk → realloc (t.bulk * 2) = true)
    (hb : t.bulk = t.entries.length) (hle : t.nentries ≤ t.bulk) (hpos : 0 < t.bulk) :
    ∃ t' r, add_entry realloc t len pre suf = some (t', r) ∧ t'.nentries = t.nentries + 1 ∧
      t'.bulk = t'.entries.length ∧ t.bulk ≤ t'.bulk ∧ t'.nentries ≤ t'.bulk ∧
      t'.entries[t.nentries]? = some (some ⟨len % 65536, pre % 65536, suf % 256⟩) ∧
      (∀ i, i ≠ t.nentries → i < t.entries.length → t'.entries[i]? = t.entries[i]?) ∧
      (r = 0 ∨ r = 1) := by
  have hnf : ¬ (t.nentries = t.bulk ∧ realloc (t.bulk * 2) = false) := by
    rintro ⟨h1, h2⟩
    rw [hok h1] at h2
    cases h2
  unfold add_entry
  rw [if_neg hnf]
  by_cases hfull : t.nentries = t.bulk
  · have hlt : t.bulk < (t.entries ++ List.replicate t.bulk (none : Option Entry)).length := by
      simp; omega
    simp only [hfull, if_true]
    rw [if_pos hlt]
    refine ⟨_, _, rfl, rfl, ?_, ?_, ?_, ?_, ?_, ?_⟩
    · simp; omega
    · show t.bulk ≤ t.bulk * 2
      omega
    · simp; omega
    · rw [List.getElem?_set, if_pos rfl, if_pos hlt]
    · intro i hi hil
      simp only [List.getElem?_set, if_neg (Ne.symm hi)]
      exact List.getElem?_append_left hil
    · split_ifs
      · exact Or.inr rfl
      · exact Or.inl rfl
  · have hlt : t.nentries < t.entries.length := by omega
    simp only [hfull, if_false]
    rw [if_pos hlt]
    refine ⟨_, _, rfl, rfl, ?_, ?_, ?_, ?_, ?_, ?_⟩
    · simp; omega
    · exact Nat.le_refl _
    · simp; omega
    · rw [List.getElem?_set, if_pos rfl, if_pos hlt]
    · intro i hi _
      simp only [List.getElem?_set, if_neg (Ne.symm hi)]
    · split_ifs
      · exact Or.inr rfl
      · exact Or.inl rfl

/-- What line 403 does to the table. -/
theorem set_suffix_spec (t : Table) (suf : Nat) :
    (set_suffix t suf).nentries = t.nentries ∧ (set_suffix t suf).bulk = t.bulk ∧
      (set_suffix t suf).entries.length = t.entries.length ∧
      (∀ i, i ≠ t.nentries - 1 → (set_suffix t suf).entries[i]? = t.entries[i]?) ∧
      (∀ e, t.entries[t.nentries - 1]? = some (some e) →
        (set_suffix t suf).entries[t.nentries - 1]? = some (some { e with suffix := suf })) := by
  unfold set_suffix
  cases h : (t.entries[t.nentries - 1]?).join with
  | none =>
    refine ⟨rfl, rfl, rfl, fun _ _ => rfl, ?_⟩
    intro e he
    rw [he] at h
    cases h
  | some e0 =>
    refine ⟨rfl, rfl, by simp, ?_, ?_⟩
    · intro i hi
      simp only [List.getElem?_set, if_neg (Ne.symm hi)]
    · intro e he
      rw [he] at h
      cases h
      have hlt : t.nentries - 1 < t.entries.length := by
        by_contra hge
        rw [List.getElem?_eq_none (by omega)] at he
        cases he
      rw [List.getElem?_set, if_pos rfl, if_pos hlt]

/-- Decoding one more code 0 of `fullTableCodes`. -/
theorem zeroPhase_step (k : Nat) (hk1 : 1 ≤ k) (hk : k < 4090) (s : Lzw (List Nat))
    (h : ZeroPhase k s) :
    ∃ s', lzw_iteration reallocOk (listReader 5) fullTableSample 0 3 4 5 s = some (s', none) ∧
      ZeroPhase (k + 1) s' := by
  obtain ⟨hrd, hkey, hfull, hoff, hstr, hent, hn, hbulk, h256, hle, e0, e1, hmid, hframe⟩ := h
  obtain ⟨t', r, hadd, an, ab, abulk, ale, anew, aold, ar⟩ :=
    add_entry_spec reallocOk s.table 2 0 0 (fun _ => rfl) hbulk hle (by omega)
  have hr : ¬ r = -1 := by
    rcases ar with h | h <;> rw [h] <;> decide
  have hupd : lzw_update reallocOk 3 4 s = some { s with table := t', ret := r } := by
    unfold lzw_update
    rw [if_neg (by rw [hkey]; decide)]
    simp only [hfull, hstr, hent, hkey, hadd, Option.map_some']
    rw [if_neg hr, if_neg (by rw [an, hn]; omega)]
  have hrd' : s.rd = 0 :: (List.replicate (4090 - (k + 1)) 0 ++ [1, 4095, 5]) := by
    have e : 4090 - k = (4090 - (k + 1)) + 1 := by omega
    rw [hrd, e, List.replicate_succ]
    rfl
  have hroot : (t'.entries[0]?).join = some ⟨1, 0xFFF, 0⟩ := by
    rw [aold 0 (by omega) (by omega), e0]; rfl
  obtain ⟨sn, sb, sl, sold, snew⟩ := set_suffix_spec t' 0
  refine ⟨{ s with
      table := set_suffix t' 0
      ret := r
      key := 0
      rd := List.replicate (4090 - (k + 1)) 0 ++ [1, 4095, 5]
      key_size := if r = 1 then s.key_size + 1 else s.key_size
      entry := some ⟨1, 0xFFF, 0⟩
      str_len := some 1
      frame := s.frame
      frm_off := s.frm_off + 1 }, ?_, ?_⟩
  · have hwalk : walk fullTableSample 0 s.frm_off t' (t'.entries.length + 1)
        ⟨1, 0xFFF, 0⟩ s.frame = some (⟨1, 0xFFF, 0⟩, s.frame) := by
      rw [walk_fullTableSample _ _ _ _ _ (by decide) (by rw [hoff]; show k + 1 - 1 < 4093; omega)]
      rw [store_eq_some _ _ _ (by
        rw [hframe, hoff, List.length_replicate]; show k + 1 - 1 < 4093; omega)]
      rw [Option.some_bind, if_pos rfl, hframe]
      show some (_, (List.replicate 4093 0).set _ (0 % 256)) = _
      rw [Nat.zero_mod, List.set_replicate_self]
    have hcond : 0 + 1 < t'.nentries ∧ false = false := ⟨by omega, rfl⟩
    unfold lzw_iteration
    rw [hupd, Option.some_bind, if_neg (fun h => hr h.2.2)]
    simp only [hrd', listReader]
    rw [if_neg (by decide), if_neg (by decide)]
    by_cases hr1 : r = 1
    · simp only [hr1, if_true, hroot, hwalk, Option.some_bind, hfull, hcond, and_self]
    · simp only [hr1, if_false, hroot, hwalk, Option.some_bind, hfull, hcond, and_self, if_true]
  · have hlast : t'.nentries - 1 = s.table.nentries := by omega
    refine ⟨rfl, rfl, hfull, by show s.frm_off + 1 = k + 1; omega, rfl, rfl,
      by show (set_suffix t' 0).nentries = 5 + (k + 1); omega,
      by show (set_suffix t' 0).bulk = (set_suffix t' 0).entries.length; omega,
      by show 256 ≤ (set_suffix t' 0).bulk; omega,
      by show (set_suffix t' 0).nentries ≤ (set_suffix t' 0).bulk; omega, ?_, ?_, ?_, hframe⟩
    · show (set_suffix t' 0).entries[0]? = _
      rw [sold 0 (by omega), aold 0 (by omega) (by omega), e0]
    · show (set_suffix t' 0).entries[1]? = _
      rw [sold 1 (by omega), aold 1 (by omega) (by omega), e1]
    · intro i h6 hi
      show (set_suffix t' 0).entries[i]? = _
      by_cases hik : i = s.table.nentries
      · rw [hik, ← hlast, snew _ (by rw [hlast]; exact anew)]
      · rw [sold i (by omega), aold i hik (by omega)]
        exact hmid i h6 (by omega)

theorem lzw_loop_succ {ρ : Type} (realloc : Nat → Bool) (next : Nat → ρ → Nat × ρ)
    (gif : gd_GIF) (interlace init_key_size clear stop fuel : Nat) (s s' : Lzw ρ)
    (h : lzw_iteration realloc next gif interlace init_key_size clear stop s = some (s', none)) :
    lzw_loop realloc next gif interlace init_key_size clear stop (fuel + 1) s =
      lzw_loop realloc next gif interlace init_key_size clear stop fuel s' := by
  rw [lzw_loop, h]

theorem lzw_loop_break {ρ : Type} (realloc : Nat → Bool) (next : Nat → ρ → Nat × ρ)
    (gif : gd_GIF) (interlace init_key_size clear stop fuel : Nat) (s s' : Lzw ρ) (v : Int)
    (h : lzw_iteration realloc next gif interlace init_key_size clear stop s =
      some (s', some v)) :
    lzw_loop realloc next gif interlace init_key_size clear stop (fuel + 1) s = some (s', v) := by
  rw [lzw_loop, h]

/-- Decoding the remaining codes 0 of `fullTableCodes`. -/
theorem zeroPhase_run :
    ∀ (m k : Nat) (s : Lzw (List Nat)), 1 ≤ k → k + m = 4090 → ZeroPhase k s →
      ∃ s', ZeroPhase 4090 s' ∧ ∀ fuel,
        lzw_loop reallocOk (listReader 5) fullTableSample 0 3 4 5 (m + fuel) s =
          lzw_loop reallocOk (listReader 5) fullTableSample 0 3 4 5 fuel s' := by
  intro m
  induction m with
  | zero =>
    intro k s _ hk h
    have : k = 4090 := by omega
    subst this
    exact ⟨s, h, fun fuel => by rw [Nat.zero_add]⟩
  | succ m ih =>
    intro k s hk1 hk h
    obtain ⟨s1, hs1, h1⟩ := zeroPhase_step k hk1 (by omega) s h
    obtain ⟨s', hs', hrun⟩ := ih (k + 1) s1 (by omega) (by omega) h1
    refine ⟨s', hs', fun fuel => ?_⟩
    have e : m + 1 + fuel = (m + fuel) + 1 := by omega
    rw [e, lzw_loop_succ _ _ _ _ _ _ _ _ s s1 hs1]
    exact hrun fuel

/-- The frame buffer after the three last codes of `fullTableCodes`. -/
theorem fullTable_frame :
    (((List.replicate 4093 0).set 4090 (1 % 256)).set 4092 (0 % 256)).set 4091 (0 % 256) =
      List.replicate 4090 0 ++ [1, 0, 0] := by
  decide!

/-- The last three codes of `fullTableCodes`: the code 1 is decoded while the
table becomes full, so the suffix of entry 4095 is left as `add_entry` stored
it, and the code 4095 is expanded to `0 0`. -/
theorem zeroPhase_end (s : Lzw (List Nat)) (h : ZeroPhase 4090 s) :
    ∃ s', lzw_loop reallocOk (listReader 5) fullTableSample 0 3 4 5 3 s = some (s', 0) ∧
      s'.frame = List.replicate 4090 0 ++ [1, 0, 0] := by
  obtain ⟨hrd, hkey, hfull, hoff, hstr, hent, hn, hbulk, h256, hle, e0, e1, _, hframe⟩ := h
  obtain ⟨t', r, hadd, an, ab, abulk, ale, anew, aold, ar⟩ :=
    add_entry_spec reallocOk s.table 2 0 0 (fun _ => rfl) hbulk hle (by omega)
  have hr : ¬ r = -1 := by
    rcases ar with h | h <;> rw [h] <;> decide
  obtain ⟨n, hlen⟩ : ∃ n, t'.entries.length = n + 1 := ⟨t'.entries.length - 1, by omega⟩
  have hroot0 : (t'.entries[0]?).join = some ⟨1, 0xFFF, 0⟩ := by
    rw [aold 0 (by omega) (by omega), e0]; rfl
  have hroot1 : (t'.entries[1]?).join = some ⟨1, 0xFFF, 1⟩ := by
    rw [aold 1 (by omega) (by omega), e1]; rfl
  have hlast : (t'.entries[4095]?).join = some ⟨2, 0, 0⟩ := by
    have : s.table.nentries = 4095 := by omega
    rw [← this, anew]; rfl
  -- first iteration: the code 1
  have hupdA : lzw_update reallocOk 3 4 s =
      some { s with table := t', ret := 0, table_is_full := some true } := by
    unfold lzw_update
    rw [if_neg (by rw [hkey]; decide)]
    simp only [hfull, hstr, hent, hkey, hadd, Option.map_some']
    rw [if_neg hr, if_pos (by rw [an, hn])]
  have hwalkA : walk fullTableSample 0 s.frm_off t' (t'.entries.length + 1)
      ⟨1, 0xFFF, 1⟩ s.frame =
      some (⟨1, 0xFFF, 1⟩, (List.replicate 4093 0).set 4090 (1 % 256)) := by
    rw [walk_fullTableSample _ _ _ _ _ (by decide) (by rw [hoff]; decide)]
    rw [store_eq_some _ _ _ (by rw [hframe, hoff, List.length_replicate]; decide)]
    rw [Option.some_bind, if_pos rfl, hframe, hoff]
    rfl
  have hrd2 : s.rd = [1, 4095, 5] := by rw [hrd]; rfl
  have hA : lzw_iteration reallocOk (listReader 5) fullTableSample 0 3 4 5 s =
      some ({ s with
        table := t'
        ret := 0
        table_is_full := some true
        key := 1
        rd := [4095, 5]
        entry := some ⟨1, 0xFFF, 1⟩
        str_len := some 1
        frame := (List.replicate 4093 0).set 4090 (1 % 256)
        frm_off := s.frm_off + 1 }, none) := by
    unfold lzw_iteration
    rw [hupdA, Option.some_bind, if_neg (by
      rintro ⟨_, _, h⟩
      have h' : (0 : Int) = -1 := h
      exact absurd h' (by decide))]
    simp only [hrd2, listReader]
    rw [if_neg (by decide), if_neg (by decide), if_neg (by decide)]
    simp only [hroot1, hwalkA, Option.some_bind]
    rw [if_neg (by simp)]
  -- second iteration: the code 4095
  have hwalkB : walk fullTableSample 0 (s.frm_off + 1) t' (t'.entries.length + 1)
      ⟨2, 0, 0⟩ ((List.replicate 4093 0).set 4090 (1 % 256)) =
      some (⟨1, 0xFFF, 0⟩,
        (((List.replicate 4093 0).set 4090 (1 % 256)).set 4092 (0 % 256)).set 4091 (0 % 256)) := by
    rw [walk_fullTableSample _ _ _ _ _ (by decide) (by rw [hoff]; decide)]
    rw [store_eq_some _ _ _ (by rw [List.length_set, hoff, List.length_replicate]; decide)]
    rw [Option.some_bind, if_neg (by decide)]
    simp only [hroot0]
    rw [hlen, walk_fullTableSample _ _ _ _ _ (by decide) (by rw [hoff]; decide)]
    rw [store_eq_some _ _ _ (by
      rw [List.length_set, List.length_set, hoff, List.length_replicate]; decide)]
    rw [Option.some_bind, if_pos rfl, hoff]
    rfl
  have hB : lzw_iteration reallocOk (listReader 5) fullTableSample 0 3 4 5
      { s with
        table := t'
        ret := 0
        table_is_full := some true
        key := 1
        rd := [4095, 5]
        entry := some ⟨1, 0xFFF, 1⟩
        str_len := some 1
        frame := (List.replicate 4093 0).set 4090 (1 % 256)
        frm_off := s.frm_off + 1 } =
      some ({ s with
        table := t'
        ret := 0
        table_is_full := some true
        key := 4095
        rd := [5]
        entry := some ⟨1, 0xFFF, 0⟩
        str_len := some 2
        frame :=
          (((List.replicate 4093 0).set 4090 (1 % 256)).set 4092 (0 % 256)).set 4091 (0 % 256)
        frm_off := s.frm_off + 1 + 2 }, none) := by
    unfold lzw_iteration lzw_update
    simp only [listReader]
    rw [if_neg (by decide)]
    simp only [Option.some_bind]
    rw [if_neg (by decide), if_neg (by decide), if_neg (by decide), if_neg (by decide)]
    simp only [hlast, hwalkB, Option.some_bind]
    rw [if_neg (by simp)]
  -- third iteration: STOP
  have hC : lzw_iteration reallocOk (listReader 5) fullTableSample 0 3 4 5
      { s with
        table := t'
        ret := 0
        table_is_full := some true
        key := 4095
        rd := [5]
        entry := some ⟨1, 0xFFF, 0⟩
        str_len := some 2
        frame :=
          (((List.replicate 4093 0).set 4090 (1 % 256)).set 4092 (0 % 256)).set 4091 (0 % 256)
        frm_off := s.frm_off + 1 + 2 } =
      some ({ s with
        table := t'
        ret := 0
        table_is_full := some true
        key := 5
        rd := []
        entry := some ⟨1, 0xFFF, 0⟩
        str_len := some 2
        frame :=
          (((List.replicate 4093 0).set 4090 (1 % 256)).set 4092 (0 % 256)).set 4091 (0 % 256)
        frm_off := s.frm_off + 1 + 2 }, some 0) := by
    unfold lzw_iteration lzw_update
    simp only [listReader]
    rw [if_neg (by decide)]
    simp only [Option.some_bind]
    rw [if_neg (by decide), if_neg (by decide), if_pos (by decide)]
  have hrun := lzw_loop_break _ _ _ _ _ _ _ 0 _ _ 0 hC
  rw [← lzw_loop_succ _ _ _ _ _ _ _ 1 _ _ hB, ← lzw_loop_succ _ _ _ _ _ _ _ 2 _ _ hA] at hrun
  exact ⟨_, hrun, fullTable_frame⟩

/-- The state in which `fullTableCodes` enters the main loop. -/
theorem fullTable_start :
    lzw_start (listReader 5) fullTableSample.frame 2 fullTableCodes =
      some ({ rd := List.replicate 4090 0 ++ [1, 4095, 5], key_size := 3,
              table_is_full := none, frm_off := 0, str_len := none, entry := none, key := 4,
              ret := 0, table := initial_table 2, frame := List.replicate 4093 0 }, 3, 4, 5) := by
  rfl

/-- The first iteration on `fullTableCodes`: CLEAR is processed and the first
code 0 decoded. -/
theorem fullTable_first :
    ∃ s1, lzw_iteration reallocOk (listReader 5) fullTableSample 0 3 4 5
        { rd := List.replicate 4090 0 ++ [1, 4095, 5], key_size := 3,
          table_is_full := none, frm_off := 0, str_len := none, entry := none, key := 4,
          ret := 0, table := initial_table 2, frame := List.replicate 4093 0 } = some (s1, none) ∧
      ZeroPhase 1 s1 := by
  have hrd : List.replicate 4090 0 ++ [1, 4095, 5] =
      0 :: (List.replicate 4089 0 ++ [1, 4095, 5]) := rfl
  have hroot : ((initial_table 2).entries[0]?).join = some ⟨1, 0xFFF, 0⟩ := by decide!
  have hwalk : walk fullTableSample 0 0 { initial_table 2 with nentries := 2 ^ (3 - 1) + 2 }
      ((initial_table 2).entries.length + 1) ⟨1, 0xFFF, 0⟩ (List.replicate 4093 0) =
      some (⟨1, 0xFFF, 0⟩, List.replicate 4093 0) := by
    rw [walk_fullTableSample _ _ _ _ _ (by decide) (by decide)]
    rw [store_eq_some _ _ _ (by rw [List.length_replicate]; decide)]
    rw [Option.some_bind, if_pos rfl]
    show some (_, (List.replicate 4093 0).set _ (0 % 256)) = _
    rw [Nat.zero_mod, List.set_replicate_self]
  have hsuf : set_suffix { initial_table 2 with nentries := 2 ^ (3 - 1) + 2 } 0 =
      { initial_table 2 with nentries := 2 ^ (3 - 1) + 2 } := by decide!
  refine ⟨{ rd := List.replicate 4089 0 ++ [1, 4095, 5], key_size := 3,
            table_is_full := some false, frm_off := 0 + 1, str_len := some 1,
            entry := some ⟨1, 0xFFF, 0⟩, key := 0, ret := 0,
            table := { initial_table 2 with nentries := 2 ^ (3 - 1) + 2 },
            frame := List.replicate 4093 0 }, ?_, ?_⟩
  · unfold lzw_iteration lzw_update
    simp only [hrd, listReader, if_true, Option.some_bind]
    rw [if_neg (by decide), if_neg (by decide), if_neg (by decide), if_neg (by decide)]
    simp only [hroot, hwalk, Option.some_bind]
    rw [if_pos (by decide), hsuf]
  · refine ⟨rfl, rfl, rfl, rfl, rfl, rfl, by decide!, by decide!, by decide!, by decide!,
      by decide!, by decide!, ?_, rfl⟩
    intro i h6 hi
    omega

/-- On `fullTableCodes` the decoder leaves `0 0` in the last two cells of the
frame buffer. -/
theorem fullTable_decode :
    ∃ s, lzw_decode reallocOk (listReader 5) 4093 fullTableSample 0 2 fullTableCodes = some (s, 0) ∧
      s.frame = List.replicate 4090 0 ++ [1, 0, 0] := by
  obtain ⟨s1, h1, hz1⟩ := fullTable_first
  obtain ⟨s2, hz2, hrun⟩ := zeroPhase_run 4089 1 s1 (by decide) (by decide) hz1
  obtain ⟨s3, hend, hfr⟩ := zeroPhase_end s2 hz2
  refine ⟨s3, ?_, hfr⟩
  unfold lzw_decode
  rw [fullTable_start, Option.some_bind]
  show lzw_loop reallocOk (listReader 5) fullTableSample 0 3 4 5 (4092 + 1) _ = _
  rw [lzw_loop_succ _ _ _ _ _ _ _ 4092 _ _ h1]
  show lzw_loop reallocOk (listReader 5) fullTableSample 0 3 4 5 (4089 + 3) _ = _
  rw [hrun 3]
  exact hend

/-- Reference decompression of one code that is in the dictionary. -/
theorem lzwReferenceAux_known (c : Nat) (cs : List Nat) (dict : List (List Nat))
    (p str : List Nat) (h4 : c ≠ 4) (h5 : c ≠ 5) (hc : dict[c]? = some str) :
    lzwReferenceAux 2 (c :: cs) dict (some p) =
      str ++ lzwReferenceAux 2 cs
        (if dict.length < 4096 then dict ++ [p ++ str.take 1] else dict) (some str) := by
  have hs : lzwString dict (some p) c = str := by
    unfold lzwString
    rw [hc]
  rw [lzwReferenceAux, if_neg (by simpa using h4), if_neg (by simpa using h5), hs]
  rfl

/-- Reference decompression of a run of codes 0 after a code 0: each adds the
string `0 0` to the dictionary. -/
theorem lzwReferenceAux_zeros (tail : List Nat) :
    ∀ (m : Nat) (dict : List (List Nat)), dict[0]? = some [0] → dict.length + m ≤ 4096 →
      lzwReferenceAux 2 (List.replicate m 0 ++ tail) dict (some [0]) =
        List.replicate m 0 ++
          lzwReferenceAux 2 tail (dict ++ List.replicate m [0, 0]) (some [0]) := by
  intro m
  induction m with
  | zero => intro dict _ _; simp
  | succ m ih =>
    intro dict h0 hlen
    have hpos : 0 < dict.length := by
      cases dict with
      | nil => simp at h0
      | cons a l => simp
    have hd : (dict ++ [[0, 0]])[0]? = some [0] := by
      rw [List.getElem?_append_left hpos]
      exact h0
    rw [List.replicate_succ, List.cons_append,
      lzwReferenceAux_known 0 _ dict [0] [0] (by decide) (by decide) h0, if_pos (by omega)]
    have e : ([0] : List Nat) ++ List.take 1 [0] = [0, 0] := rfl
    rw [e, ih (dict ++ [[0, 0]]) hd (by simp; omega)]
    rw [List.append_assoc dict, List.replicate_succ]
    rfl

/-- The reference decompression of `fullTableCodes` ends in `1 0 1`: entry
4095 is the string `0 1`. -/
theorem fullTable_reference :
    lzwReference 2 fullTableCodes = List.replicate 4090 0 ++ [1, 0, 1] := by
  have hcodes : fullTableCodes = 4 :: 0 :: (List.replicate 4089 0 ++ [1, 4095, 5]) := rfl
  have hinit : (initDict 2)[0]? = some [0] := by decide
  have hlen : (initDict 2 ++ List.replicate 4089 [0, 0]).length = 4095 := by
    rw [List.length_append, List.length_replicate]; rfl
  have h1 : (initDict 2 ++ List.replicate 4089 [0, 0])[1]? = some [1] := by
    rw [List.getElem?_append_left (by decide)]; decide
  have h4095 : (initDict 2 ++ List.replicate 4089 [0, 0] ++ [[0] ++ List.take 1 [1]])[4095]? =
      some [0, 1] := by
    rw [List.getElem?_append_right (by omega), hlen]; rfl
  have hlen' : (initDict 2 ++ List.replicate 4089 [0, 0] ++ [[0] ++ List.take 1 [1]]).length =
      4096 := by
    rw [List.length_append, hlen]; rfl
  have hfirst : lzwReferenceAux 2 (0 :: (List.replicate 4089 0 ++ [1, 4095, 5]))
      (initDict 2) none =
      [0] ++ lzwReferenceAux 2 (List.replicate 4089 0 ++ [1, 4095, 5]) (initDict 2)
        (some [0]) := by
    have hs : lzwString (initDict 2) none 0 = [0] := by
      unfold lzwString
      rw [hinit]
    rw [lzwReferenceAux, if_neg (by decide), if_neg (by decide), hs]
    rfl
  have hstop : ∀ (dict : List (List Nat)) (p : Option (List Nat)),
      lzwReferenceAux 2 [5] dict p = [] := by
    intro dict p
    rw [lzwReferenceAux, if_neg (by decide), if_pos (by decide)]
  unfold lzwReference
  rw [hcodes, lzwReferenceAux, if_pos (by decide), hfirst,
    lzwReferenceAux_zeros _ 4089 (initDict 2) hinit (by decide),
    lzwReferenceAux_known 1 _ _ [0] [1] (by decide) (by decide) h1, if_pos (by omega),
    lzwReferenceAux_known 4095 _ _ [1] [0, 1] (by decide) (by decide) h4095, hstop]
  decide!

/-- Claim C1, a second failing input, at the level of codes: on the valid code
sequence `fullTableCodes` (whose codes the decoder receives unchanged) the
reference decompression ends in `1 0 1`, the frame buffer of the decoder in
`1 0 0`. The `add_entry` call that brings the table to 4096 entries sets
`table_is_full` before line 402 can replace the provisional suffix of entry
4095, so the code 4095 is expanded with the first symbol of the wrong
string. -/
theorem lzw_decode_full_table :
    lzwReference 2 fullTableCodes = List.replicate 4090 0 ++ [1, 0, 1] ∧
    ∃ s, lzw_decode reallocOk (listReader 5) 4093 fullTableSample 0 2 fullTableCodes = some (s, 0) ∧
      s.frame = List.replicate 4090 0 ++ [1, 0, 0] :=
  ⟨fullTable_reference, fullTable_decode⟩

/-! ## Extension blocks: theorems -/

theorem rest_cons_get (f : FILE) (b : Nat) (tl : List Nat) (h : f.rest = b :: tl) :
    f.data[f.pos]? = some b := by
  unfold FILE.rest at h
  have := congrArg (fun l => l[0]?) h
  simpa using this

theorem rest_skip (f : FILE) (l tl : List Nat) (h : f.rest = l ++ tl) :
    (f.skip l.length).rest = tl := by
  unfold FILE.rest FILE.skip at *
  show List.drop (f.pos + l.length) f.data = tl
  rw [← List.drop_drop, h, List.drop_left]

/-- A successful `fgetc`: the stream's next byte, the position one further. -/
theorem fgetc_rest (f : FILE) (b : Nat) (tl : List Nat) (h : f.rest = b :: tl) :
    fgetc f = (((b % 256 : Nat) : Int), f.skip 1) := by
  unfold fgetc
  rw [rest_cons_get f b tl h]
  rfl

/-- A complete `fread`: the stream's next `n` bytes, the position `n`
further, the end-of-file indicator untouched. -/
theorem fread_rest (f : FILE) (l tl : List Nat) (h : f.rest = l ++ tl) :
    fread f l.length = (l.map (· % 256), f.skip l.length) := by
  unfold FILE.rest at h
  unfold fread FILE.skip
  simp [h]

/-- A complete `read_num`: the little-endian value of the next two bytes. -/
theorem read_num_rest (junk : Nat → Nat) (f : FILE) (lo hi : Nat) (tl : List Nat)
    (h : f.rest = lo :: hi :: tl) (hlo : lo < 256) (hhi : hi < 256) :
    read_num junk f = (lo + 256 * hi, f.skip 2) := by
  have h2 : f.rest = [lo, hi] ++ tl := h
  unfold read_num
  rw [show (2 : Nat) = [lo, hi].length from rfl, fread_rest f [lo, hi] tl h2]
  simp only [List.map, List.getD_cons_zero, List.getD_cons_succ, List.length]
  congr 1
  omega

theorem skip_skip (f : FILE) (a b : Nat) : (f.skip a).skip b = f.skip (a + b) := by
  unfold FILE.skip
  simp [Nat.add_assoc]

theorem skip_rest_cons (f : FILE) (b : Nat) (tl : List Nat) (h : f.rest = b :: tl) :
    (f.skip 1).rest = tl :=
  rest_skip f [b] tl h

/-- The C expression `a & m` on a byte read by `fgetc`. -/
theorem cAnd_byte (a m : Nat) (h : a < 256) : cAnd ((a : Nat) : Int) m = a &&& m := by
  unfold cAnd
  have : (((a : Nat) : Int) % 2 ^ 32).toNat = a := by omega
  rw [this]

theorem cAnd_byte_shift (a m : Nat) (h : a < 256) :
    cAnd (((a : Nat) : Int) / 4) m = (a >>> 2) &&& m := by
  unfold cAnd
  have : ((((a : Nat) : Int) / 4) % 2 ^ 32).toNat = a / 4 := by omega
  rw [this, Nat.shiftRight_eq_div_pow]

theorem toU8_byte (a : Nat) : toU8 (((a % 256 : Nat)) : Int) = a % 256 := by
  unfold toU8
  omega

theorem toU8_lt (a : Nat) (h : a < 256) : toU8 ((a : Nat) : Int) = a := by
  unfold toU8
  omega

theorem and_two_eq : ∀ a, a < 256 → a &&& 2 = if a.testBit 1 then 2 else 0 := by
  decide!

theorem and_one_eq : ∀ a, a < 256 → a &&& 1 = if a.testBit 0 then 1 else 0 := by
  decide!

/-- Claim C11: on the six bytes `size, flags, dlo, dhi, t, term` that follow
the label `0xF9`, `read_graphic_control_ext` consumes exactly these six bytes
and sets `disposal = (flags >> 2) & 3`, the input flag to bit 1 of `flags`
(stored as the masked value `flags & 2`), the transparency flag to bit 0,
`delay = dlo + 256 * dhi` and the transparent index to `t`; no other field of
the handle changes. -/
theorem read_graphic_control_ext_sets_gce (junk : Nat → Nat) (gif : gd_GIF)
    (size flags dlo dhi t term : Nat) (tl : List Nat)
    (hrest : gif.fd.rest = [size, flags, dlo, dhi, t, term] ++ tl)
    (hflags : flags < 256) (hdlo : dlo < 256) (hdhi : dhi < 256) (ht : t < 256) :
    read_graphic_control_ext junk gif =
      { gif with
        fd := gif.fd.skip 6
        gce := { delay := dlo + 256 * dhi, tindex := t, disposal := (flags >>> 2) &&& 3,
                 input := if flags.testBit 1 then 2 else 0,
                 transparency := if flags.testBit 0 then 1 else 0 } } ∧
      (gif.fd.skip 6).rest = tl := by
  have h1 := fgetc_rest gif.fd size _ hrest
  have r1 := skip_rest_cons gif.fd size _ hrest
  have h2 := fgetc_rest _ flags _ r1
  have r2 := skip_rest_cons _ flags _ r1
  have h3 := read_num_rest junk _ dlo dhi _ r2 hdlo hdhi
  have r3 := rest_skip _ [dlo, dhi] _ r2
  have h4 := fgetc_rest _ t _ r3
  have r4 := skip_rest_cons _ t _ r3
  have h5 := fgetc_rest _ term _ r4
  have r5 := skip_rest_cons _ term _ r4
  simp only [skip_skip, List.length] at h2 h3 h4 h5 r5 r1 r2 r3 r4
  refine ⟨?_, r5⟩
  unfold read_graphic_control_ext
  simp only [h1, h2, h3, h4, h5, Nat.mod_eq_of_lt hflags, cAnd_byte _ _ hflags,
    cAnd_byte_shift _ _ hflags, toU8_lt _ ht, Nat.mod_eq_of_lt ht, and_two_eq _ hflags,
    and_one_eq _ hflags]

/-- Instance of claim C11: flags `0x09` (disposal 2, transparency on), delay
`0x0102`, transparent index 7. -/
theorem read_graphic_control_ext_sets_gce_witness :
    (streamSample [4, 9, 2, 1, 7, 0, 0x3B]).fd.rest = [4, 9, 2, 1, 7, 0] ++ [0x3B] ∧
    read_graphic_control_ext junk0 (streamSample [4, 9, 2, 1, 7, 0, 0x3B]) =
      { streamSample [4, 9, 2, 1, 7, 0, 0x3B] with
        fd := (streamSample [4, 9, 2, 1, 7, 0, 0x3B]).fd.skip 6
        gce := { delay := 2 + 256 * 1, tindex := 7, disposal := (9 >>> 2) &&& 3,
                 input := if Nat.testBit 9 1 then 2 else 0,
                 transparency := if Nat.testBit 9 0 then 1 else 0 } } ∧
    ((streamSample [4, 9, 2, 1, 7, 0, 0x3B]).fd.skip 6).rest = [0x3B] :=
  ⟨rfl, read_graphic_control_ext_sets_gce junk0 (streamSample [4, 9, 2, 1, 7, 0, 0x3B])
    4 9 2 1 7 0 [0x3B] rfl (by decide) (by decide) (by decide) (by decide)⟩

/-- Claim C12: on an application extension whose identifier and
authentication code are `NETSCAPE2.0`, followed by the loop block
`0x03, 0x01, lo, hi, 0x00`, `read_application_ext` sets `loop_count` to
`lo + 256 * hi`, changes no other field but the stream, and leaves the stream
on the byte after the terminator: the block size byte, the eleven bytes and
the five bytes of the loop block are consumed, and what follows is unread. -/
theorem read_application_ext_netscape_loop (junk : Nat → Nat) (gif : gd_GIF)
    (size lo hi : Nat) (tl : List Nat)
    (hrest : gif.fd.rest = size :: (netscape ++ auth20 ++ [0x03, 0x01, lo, hi, 0x00]) ++ tl)
    (hlo : lo < 256) (hhi : hi < 256) :
    read_application_ext junk gif =
      some { gif with fd := gif.fd.skip 17, loop_count := lo + 256 * hi } ∧
      (gif.fd.skip 17).rest = tl := by
  have h1 := fgetc_rest gif.fd size _ hrest
  have r1 : (gif.fd.skip 1).rest = netscape ++ (auth20 ++ [0x03, 0x01, lo, hi, 0x00] ++ tl) := by
    rw [skip_rest_cons gif.fd size _ hrest]; simp
  have h2 := fread_rest _ netscape _ r1
  have r2 := rest_skip _ netscape _ r1
  have r2' : ((gif.fd.skip 1).skip netscape.length).rest =
      auth20 ++ ([0x03, 0x01, lo, hi, 0x00] ++ tl) := by
    rw [r2]; simp
  have h3 := fread_rest _ auth20 _ r2'
  have r3 := rest_skip _ auth20 _ r2'
  have h4 := fgetc_rest _ 3 _ r3
  have r4 := skip_rest_cons _ 3 _ r3
  have h5 := fgetc_rest _ 1 _ r4
  have r5 := skip_rest_cons _ 1 _ r4
  have h6 := read_num_rest junk _ lo hi _ r5 hlo hhi
  have r6 := rest_skip _ [lo, hi] _ r5
  have h7 := fgetc_rest _ 0 _ r6
  have r7 := skip_rest_cons _ 0 _ r6
  have e8 : netscape.length = 8 := rfl
  have e3 : auth20.length = 3 := rfl
  have em : List.map (fun x => x % 256) netscape = netscape := rfl
  simp only [skip_skip, List.length, e8, e3, em] at h2 h3 h4 h5 h6 h7 r7
  refine ⟨?_, r7⟩
  unfold read_application_ext
  simp only [h1, h2, h3, h4, h5, h6, h7, e8]
  simp

theorem rest_length (f : FILE) : f.rest.length = f.data.length - f.pos := by
  unfold FILE.rest
  simp

/-- Position form of a successful `fgetc`. -/
theorem fgetc_skip (f : FILE) (h : f.pos < f.data.length) : (fgetc f).2 = f.skip 1 := by
  unfold fgetc
  rw [List.getElem?_eq_getElem h]
  rfl

/-- Position form of a complete `fread`. -/
theorem fread_skip (f : FILE) (n : Nat) (h : f.pos + n ≤ f.data.length) :
    (fread f n).2 = f.skip n := by
  unfold fread FILE.skip
  have hl : (List.map (fun x => x % 256) (List.take n (List.drop f.pos f.data))).length = n := by
    simp; omega
  simp only [hl]
  simp

theorem skip_pos (f : FILE) (n : Nat) : (f.skip n).pos = f.pos + n := rfl

theorem skip_data (f : FILE) (n : Nat) : (f.skip n).data = f.data := rfl

theorem skip_eof (f : FILE) (n : Nat) : (f.skip n).eof = f.eof := rfl

theorem subBlocks_cons (b : List Nat) (bs : List (List Nat)) :
    subBlocks (b :: bs) = b.length :: (b ++ subBlocks bs) := by
  simp [subBlocks]

theorem subBlocks_length_ge (blocks : List (List Nat)) :
    blocks.length ≤ (subBlocks blocks).length := by
  induction blocks with
  | nil => simp
  | cons b bs ih => rw [subBlocks_cons]; simp; omega

/-- The loop of `discard_sub_blocks` on well-formed sub-blocks: it exits just
past the zero-length terminator. -/
theorem discard_sub_blocks_loop_blocks :
    ∀ (blocks : List (List Nat)) (f : FILE) (tl : List Nat) (fuel : Nat),
      WellFormedBlocks blocks → f.rest = subBlocks blocks ++ 0 :: tl → blocks.length < fuel →
      discard_sub_blocks_loop fuel f = some (f.skip ((subBlocks blocks).length + 1)) := by
  intro blocks
  induction blocks with
  | nil =>
    intro f tl fuel _ hrest hfuel
    obtain ⟨fuel, rfl⟩ : ∃ k, fuel = k + 1 := ⟨fuel - 1, by simp at hfuel; omega⟩
    have hrest' : f.rest = 0 :: tl := by simpa [subBlocks] using hrest
    have h1 := fgetc_rest f 0 tl hrest'
    have h2 := fread_rest (f.skip 1) [] tl (skip_rest_cons f 0 tl hrest')
    rw [discard_sub_blocks_loop]
    simp only [h1]
    rw [if_neg (by decide)]
    simp only [List.length] at h2
    simp [h2, skip_skip, subBlocks]
  | cons b bs ih =>
    intro f tl fuel hwf hrest hfuel
    obtain ⟨fuel, rfl⟩ : ∃ k, fuel = k + 1 := ⟨fuel - 1, by simp at hfuel; omega⟩
    have hb := hwf b (List.mem_cons_self _ _)
    have hwf' : WellFormedBlocks bs := fun x hx => hwf x (List.mem_cons_of_mem _ hx)
    have hrest' : f.rest = b.length :: (b ++ (subBlocks bs ++ 0 :: tl)) := by
      rw [hrest, subBlocks_cons]; simp
    have h1 := fgetc_rest f b.length _ hrest'
    have r1 := skip_rest_cons f b.length _ hrest'
    have h2 := fread_rest (f.skip 1) b _ r1
    have r2 := rest_skip (f.skip 1) b _ r1
    rw [discard_sub_blocks_loop]
    simp only [h1, Nat.mod_eq_of_lt hb.2, Int.toNat_ofNat, h2]
    rw [if_neg (by omega), if_neg (by omega)]
    rw [ih _ tl fuel hwf' r2 (by simp at hfuel; omega), skip_skip, skip_skip, subBlocks_cons]
    congr 2
    simp
    omega

/-- The function `discard_sub_blocks` on well-formed sub-blocks leaves the
stream just past the zero-length terminator. -/
theorem discard_sub_blocks_blocks (blocks : List (List Nat)) (f : FILE) (tl : List Nat)
    (hwf : WellFormedBlocks blocks) (hrest : f.rest = subBlocks blocks ++ 0 :: tl) :
    discard_sub_blocks f = some (f.skip ((subBlocks blocks).length + 1)) := by
  unfold discard_sub_blocks
  apply discard_sub_blocks_loop_blocks blocks f tl _ hwf hrest
  have h1 := rest_length f
  rw [hrest] at h1
  have h2 := subBlocks_length_ge blocks
  simp at h1
  omega

/-- Instance of claim C12: the loop block `03 01 00 00 00` sets the loop
count to 0 and the trailer that follows is the next byte read. -/
theorem read_application_ext_netscape_loop_witness :
    (streamSample loopExtSample).fd.rest =
      0x0B :: (netscape ++ auth20 ++ [0x03, 0x01, 0, 0, 0x00]) ++ [0x3B] ∧
    read_application_ext junk0 (streamSample loopExtSample) =
      some { streamSample loopExtSample with
        fd := (streamSample loopExtSample).fd.skip 17, loop_count := 0 + 256 * 0 } ∧
    ((streamSample loopExtSample).fd.skip 17).rest = [0x3B] :=
  ⟨rfl, read_application_ext_netscape_loop junk0 (streamSample loopExtSample) 0x0B 0 0 [0x3B]
    rfl (by decide) (by decide)⟩

/-- After a callback the stream is put back where it was. -/
theorem fseek_back (f : FILE) (p : Nat) (h : f.eof = false) :
    fseek { f with pos := p } (ftell f) = f := by
  cases f
  simp only [fseek, ftell] at *
  rw [h]

/-- Claim C13 fails as stated: the eleven bytes `NETSCAPE3.0` are not
`NETSCAPE2.0`, yet `read_application_ext` parses the sub-block that follows as
a loop block and sets `loop_count` from 0 to 5. -/
theorem read_application_ext_ignores_auth_code :
    (otherAuthSample.drop 1).take 11 = netscape ++ [0x33, 0x2E, 0x30] ∧
    (netscape ++ [0x33, 0x2E, 0x30] = netscape ++ auth20) = False ∧
    (streamSample otherAuthSample).loop_count = 0 ∧
    (read_application_ext junk0 (streamSample otherAuthSample)).map (fun g => g.loop_count) =
      some 5 := by
  refine ⟨by decide, ?_, rfl, by decide!⟩
  simp [netscape, auth20]

theorem map_mod_bytes (l : List Nat) (h : ∀ b ∈ l, b < 256) :
    List.map (fun x => x % 256) l = l := by
  induction l with
  | nil => rfl
  | cons a l ih =>
    rw [List.map_cons, ih (fun b hb => h b (List.mem_cons_of_mem _ hb)),
      Nat.mod_eq_of_lt (h a (List.mem_cons_self _ _))]

/-- The branches of `read_application_ext` for an identifier other than
`NETSCAPE`: both come to `discard_sub_blocks` at the first sub-block. -/
theorem read_application_ext_discard (junk : Nat → Nat) (gif : gd_GIF) (size : Nat)
    (id auth tl : List Nat)
    (hrest : gif.fd.rest = size :: (id ++ auth) ++ tl)
    (hid : id.length = 8) (hauth : auth.length = 3) (hbytes : ∀ b ∈ id, b < 256)
    (hne : id ≠ netscape) (heof : gif.fd.eof = false) :
    read_application_ext junk gif =
      (discard_sub_blocks (gif.fd.skip 12)).map fun f => { gif with fd := f } := by
  have h1 := fgetc_rest gif.fd size _ hrest
  have r1 : (gif.fd.skip 1).rest = id ++ (auth ++ tl) := by
    rw [skip_rest_cons gif.fd size _ hrest]; simp
  have h2 := fread_rest _ id _ r1
  have r2 := rest_skip _ id _ r1
  have h3 := fread_rest _ auth _ r2
  have em := map_mod_bytes id hbytes
  simp only [skip_skip, hid, hauth, em] at h2 h3
  unfold read_application_ext
  have e0 : (List.range 8).drop 8 = [] := rfl
  simp only [h1, h2, h3, hid, e0, List.map_nil, List.append_nil]
  rw [if_neg hne]
  cases hc : gif.application with
  | none => rfl
  | some callback =>
    show Option.map _ (discard_sub_blocks (fseek _ (ftell (gif.fd.skip (1 + 8 + 3))))) = _
    rw [fseek_back _ _ (by rw [skip_eof]; exact heof)]

/-- Claim C13, as amended: when the 8-byte identifier of an application
extension is not `NETSCAPE` (the 3-byte authentication code is read and not
compared), `read_application_ext` parses no loop count: with or without a
callback, the handle afterwards is the handle before with the stream advanced
by `discard_sub_blocks` from the first sub-block on (no defined result where
that has none), so `loop_count` and every other field are unchanged. -/
theorem read_application_ext_other_identifier (junk : Nat → Nat) (gif : gd_GIF) (size : Nat)
    (id auth tl : List Nat)
    (hrest : gif.fd.rest = size :: (id ++ auth) ++ tl)
    (hid : id.length = 8) (hauth : auth.length = 3) (hbytes : ∀ b ∈ id, b < 256)
    (hne : id ≠ netscape) (heof : gif.fd.eof = false) :
    read_application_ext junk gif =
      (discard_sub_blocks (gif.fd.skip 12)).map fun f => { gif with fd := f } :=
  read_application_ext_discard junk gif size id auth tl hrest hid hauth hbytes hne heof

/-- Instance of claim C13 as amended: identifier `ABCDEFGH`. -/
theorem read_application_ext_other_identifier_witness :
    (streamSample otherAppSample).fd.rest =
      0x0B :: ([65, 66, 67, 68, 69, 70, 71, 72] ++ [49, 50, 51]) ++ [2, 9, 9, 0, 0x3B] ∧
    [65, 66, 67, 68, 69, 70, 71, 72] ≠ netscape ∧
    read_application_ext junk0 (streamSample otherAppSample) =
      (discard_sub_blocks ((streamSample otherAppSample).fd.skip 12)).map
        fun f => { streamSample otherAppSample with fd := f } :=
  ⟨rfl, by decide,
    read_application_ext_other_identifier junk0 (streamSample otherAppSample) 0x0B
      [65, 66, 67, 68, 69, 70, 71, 72] [49, 50, 51] [2, 9, 9, 0, 0x3B] rfl rfl rfl (by decide)
      (by decide) rfl⟩

theorem read_num_skip (junk : Nat → Nat) (f : FILE) (h : f.pos + 2 ≤ f.data.length) :
    (read_num junk f).2 = f.skip 2 :=
  fread_skip f 2 h

/-- The function `read_plain_text_ext` when the 13 bytes of the fixed header
are there: with or without a callback the sub-blocks are discarded from the
byte after the header. -/
theorem read_plain_text_ext_discard (junk : Nat → Nat) (gif : gd_GIF)
    (h13 : gif.fd.pos + 13 ≤ gif.fd.data.length) (heof : gif.fd.eof = false) :
    read_plain_text_ext junk gif =
      (discard_sub_blocks (gif.fd.skip 13)).map fun f => { gif with fd := f } := by
  unfold read_plain_text_ext
  cases hc : gif.plain_text with
  | none =>
    show Option.map _ (discard_sub_blocks (fread gif.fd 13).2) = _
    rw [fread_skip _ _ h13]
  | some callback =>
    have e1 : (fgetc gif.fd).2 = gif.fd.skip 1 := fgetc_skip _ (by omega)
    have e2 : (read_num junk (gif.fd.skip 1)).2 = gif.fd.skip 3 := by
      rw [read_num_skip _ _ (by rw [skip_pos, skip_data]; omega), skip_skip]
    have e3 : (read_num junk (gif.fd.skip 3)).2 = gif.fd.skip 5 := by
      rw [read_num_skip _ _ (by rw [skip_pos, skip_data]; omega), skip_skip]
    have e4 : (read_num junk (gif.fd.skip 5)).2 = gif.fd.skip 7 := by
      rw [read_num_skip _ _ (by rw [skip_pos, skip_data]; omega), skip_skip]
    have e5 : (read_num junk (gif.fd.skip 7)).2 = gif.fd.skip 9 := by
      rw [read_num_skip _ _ (by rw [skip_pos, skip_data]; omega), skip_skip]
    have e6 : (fread (gif.fd.skip 9) 4).2 = gif.fd.skip 13 := by
      rw [fread_skip _ _ (by rw [skip_pos, skip_data]; omega), skip_skip]
    simp only [e1, e2, e3, e4, e5, e6]
    rw [fseek_back _ _ (by rw [skip_eof]; exact heof)]

/-- The function `read_comment_ext`: with or without a callback the
sub-blocks are discarded from the byte after the label. -/
theorem read_comment_ext_discard (gif : gd_GIF) (heof : gif.fd.eof = false) :
    read_comment_ext gif = (discard_sub_blocks gif.fd).map fun f => { gif with fd := f } := by
  unfold read_comment_ext
  cases hc : gif.comment with
  | none => rfl
  | some callback =>
    show Option.map _ (discard_sub_blocks (fseek _ (ftell gif.fd))) = _
    rw [fseek_back _ _ heof]

/-- Claim C14: for a well-formed plain-text, comment or application extension
whose identifier is not `NETSCAPE` (the fixed header, then sub-blocks each
with its length byte, then the zero-length terminator) and whatever callback
`cb` is registered, if any (a callback is given by the position at which it
leaves the stream), the handler changes nothing but the stream and leaves it
on the byte just past the terminator; the position does not depend on
`cb`. -/
theorem ext_callback_leaves_position (junk : Nat → Nat) (gif : gd_GIF)
    (cb : Option (FILE → Nat)) (blocks : List (List Nat)) (tl : List Nat)
    (hwf : WellFormedBlocks blocks) (heof : gif.fd.eof = false) :
    (∀ hdr : List Nat, hdr.length = 13 →
      gif.fd.rest = hdr ++ (subBlocks blocks ++ 0 :: tl) →
      read_plain_text_ext junk { gif with plain_text := cb } =
        some { gif with plain_text := cb
                        fd := gif.fd.skip (13 + ((subBlocks blocks).length + 1)) } ∧
      (gif.fd.skip (13 + ((subBlocks blocks).length + 1))).rest = tl) ∧
    (gif.fd.rest = subBlocks blocks ++ 0 :: tl →
      read_comment_ext { gif with comment := cb } =
        some { gif with comment := cb
                        fd := gif.fd.skip ((subBlocks blocks).length + 1) } ∧
      (gif.fd.skip ((subBlocks blocks).length + 1)).rest = tl) ∧
    (∀ (size : Nat) (id auth : List Nat), id.length = 8 → auth.length = 3 →
      (∀ b ∈ id, b < 256) → id ≠ netscape →
      gif.fd.rest = size :: (id ++ auth) ++ (subBlocks blocks ++ 0 :: tl) →
      read_application_ext junk { gif with application := cb } =
        some { gif with application := cb
                        fd := gif.fd.skip (12 + ((subBlocks blocks).length + 1)) } ∧
      (gif.fd.skip (12 + ((subBlocks blocks).length + 1))).rest = tl) := by
  have hpast : ∀ (f : FILE), f.rest = subBlocks blocks ++ 0 :: tl →
      (f.skip ((subBlocks blocks).length + 1)).rest = tl := by
    intro f hf
    have := rest_skip f (subBlocks blocks ++ [0]) tl (by rw [hf]; simp)
    simpa using this
  refine ⟨?_, ?_, ?_⟩
  · intro hdr hlen hrest
    have hl := rest_length gif.fd
    rw [hrest] at hl
    have r1 := rest_skip gif.fd hdr _ hrest
    rw [hlen] at r1
    have hd := discard_sub_blocks_blocks blocks _ tl hwf r1
    constructor
    · have h13 : gif.fd.pos + 13 ≤ gif.fd.data.length := by simp at hl; omega
      rw [read_plain_text_ext_discard junk { gif with plain_text := cb } h13 heof]
      show Option.map _ (discard_sub_blocks (gif.fd.skip 13)) = _
      rw [hd, skip_skip]
      rfl
    · rw [← skip_skip]
      exact hpast _ r1
  · intro hrest
    have hd := discard_sub_blocks_blocks blocks _ tl hwf hrest
    constructor
    · rw [read_comment_ext_discard { gif with comment := cb } heof]
      show Option.map _ (discard_sub_blocks gif.fd) = _
      rw [hd]
      rfl
    · exact hpast _ hrest
  · intro size id auth hid hauth hbytes hne hrest
    have r1 := rest_skip gif.fd (size :: (id ++ auth)) _ hrest
    have e12 : (size :: (id ++ auth)).length = 12 := by simp [hid, hauth]
    rw [e12] at r1
    have hd := discard_sub_blocks_blocks blocks _ tl hwf r1
    constructor
    · rw [read_application_ext_discard junk { gif with application := cb } size id auth _ hrest
        hid hauth hbytes hne heof]
      show Option.map _ (discard_sub_blocks (gif.fd.skip 12)) = _
      rw [hd, skip_skip]
      rfl
    · rw [← skip_skip]
      exact hpast _ r1

/-- Instance of claim C14: each of the three handlers, with a callback that
reads the stream to its end, leaves the stream on the trailer that follows
the terminator. -/
theorem ext_callback_leaves_position_witness :
    WellFormedBlocks blocksSample ∧
    (read_plain_text_ext junk0 { streamSample plainTextSample with plain_text := some readAll } =
        some { streamSample plainTextSample with
          plain_text := some readAll
          fd := (streamSample plainTextSample).fd.skip
            (13 + ((subBlocks blocksSample).length + 1)) } ∧
      ((streamSample plainTextSample).fd.skip
        (13 + ((subBlocks blocksSample).length + 1))).rest = [0x3B]) ∧
    (read_comment_ext { streamSample commentSample with comment := some readAll } =
        some { streamSample commentSample with
          comment := some readAll
          fd := (streamSample commentSample).fd.skip ((subBlocks blocksSample).length + 1) } ∧
      ((streamSample commentSample).fd.skip ((subBlocks blocksSample).length + 1)).rest =
        [0x3B]) ∧
    (read_application_ext junk0
        { streamSample applicationSample with application := some readAll } =
        some { streamSample applicationSample with
          application := some readAll
          fd := (streamSample applicationSample).fd.skip
            (12 + ((subBlocks blocksSample).length + 1)) } ∧
      ((streamSample applicationSample).fd.skip
        (12 + ((subBlocks blocksSample).length + 1))).rest = [0x3B]) := by
  have hwf : WellFormedBlocks blocksSample := by
    unfold WellFormedBlocks blocksSample
    decide
  exact ⟨hwf,
    (ext_callback_leaves_position junk0 (streamSample plainTextSample) (some readAll)
      blocksSample [0x3B] hwf rfl).1 [12, 0, 0, 0, 0, 1, 0, 1, 0, 8, 8, 1, 0] rfl rfl,
    (ext_callback_leaves_position junk0 (streamSample commentSample) (some readAll)
      blocksSample [0x3B] hwf rfl).2.1 rfl,
    (ext_callback_leaves_position junk0 (streamSample applicationSample) (some readAll)
      blocksSample [0x3B] hwf rfl).2.2 0x0B [65, 66, 67, 68, 69, 70, 71, 72] [49, 50, 51]
      rfl rfl (by decide) (by decide) rfl⟩

/-! ## Bit reader: theorems -/

/-- Loading the next payload byte. -/
theorem get_key_fetch_spec (s : KeyReader) (b : Nat) (bytes : List Nat)
    (h : ReaderAt s.fd s.sub_len (b :: bytes)) (hb : b < 256) :
    (get_key_fetch s).byte = b ∧ (get_key_fetch s).shift = s.shift ∧
      ReaderAt (get_key_fetch s).fd (get_key_fetch s).sub_len bytes := by
  obtain ⟨cur, blocks, tl, hlen, h256, hwf, hrest, hbytes⟩ := h
  by_cases h0 : s.sub_len = 0
  · have hcur : cur = [] := List.length_eq_zero.1 (by omega)
    subst hcur
    cases blocks with
    | nil => simp at hbytes
    | cons blk blocks =>
      have hblk := hwf blk (List.mem_cons_self _ _)
      cases blk with
      | nil => simp at hblk
      | cons c blk =>
        have hcb : c = b ∧ blk ++ blocks.flatten = bytes := by
          simp at hbytes
          exact ⟨hbytes.1.symm, hbytes.2.symm⟩
        obtain ⟨rfl, hrem⟩ := hcb
        have hrest' : s.fd.rest = (c :: blk).length :: (c :: (blk ++ (subBlocks blocks ++ tl))) := by
          rw [hrest, subBlocks_cons]; simp
        have h1 := fgetc_rest s.fd _ _ hrest'
        have r1 := skip_rest_cons s.fd _ _ hrest'
        have h2 := fgetc_rest _ c _ r1
        have r2 := skip_rest_cons _ c _ r1
        have hl : (c :: blk).length = blk.length + 1 := rfl
        rw [hl] at h1
        have hbl : blk.length + 1 < 256 := hblk.2
        unfold get_key_fetch
        simp only [h0, if_true, h1, h2, Nat.mod_eq_of_lt hbl, toU8_lt _ hbl, toU8_lt _ hb,
          Nat.mod_eq_of_lt hb]
        refine ⟨trivial, trivial, blk, blocks, tl, ?_, ?_, ?_, r2, hrem.symm⟩
        · show blk.length = (blk.length + 1 + 255) % 256
          omega
        · show (blk.length + 1 + 255) % 256 < 256
          omega
        · exact fun x hx => hwf x (List.mem_cons_of_mem _ hx)
  · cases cur with
    | nil => simp at hlen; omega
    | cons c cur =>
      have hcb : c = b ∧ cur ++ blocks.flatten = bytes := by
        simp at hbytes
        exact ⟨hbytes.1.symm, hbytes.2.symm⟩
      obtain ⟨rfl, hrem⟩ := hcb
      have hrest' : s.fd.rest = c :: (cur ++ (subBlocks blocks ++ tl)) := by
        rw [hrest]; simp
      have h2 := fgetc_rest _ c _ hrest'
      have r2 := skip_rest_cons _ c _ hrest'
      unfold get_key_fetch
      simp only [h0, if_false, h2, toU8_lt _ hb, Nat.mod_eq_of_lt hb]
      refine ⟨trivial, trivial, cur, blocks, tl, ?_, ?_, hwf, r2, hrem.symm⟩
      · show cur.length = (s.sub_len + 255) % 256
        simp at hlen
        omega
      · show (s.sub_len + 255) % 256 < 256
        omega

/-- One iteration of the `for` loop of `get_key`. -/
theorem get_key_loop_succ (ks fuel r key : Nat) (s : KeyReader) (h : r < ks) :
    get_key_loop ks (fuel + 1) r key s =
      get_key_loop ks fuel (r + min (ks - r) (8 - (s.shift + r) % 8))
        ((key ||| (((if (s.shift + r) % 8 = 0 then get_key_fetch s else s).byte >>>
          ((s.shift + r) % 8)) <<< r)) % 65536)
        (if (s.shift + r) % 8 = 0 then get_key_fetch s else s) := by
  rw [get_key_loop, if_pos h]
  rfl

theorem get_key_loop_done (ks fuel r key : Nat) (s : KeyReader) (h : ¬ r < ks) :
    get_key_loop ks fuel r key s = (key, s) := by
  cases fuel with
  | zero => rfl
  | succ fuel => rw [get_key_loop, if_neg h]

/-- The bits of `key` after line 306. -/
theorem key_or_testBit (key cb rpad r j : Nat) :
    ((key ||| ((cb >>> rpad) <<< r)) % 65536).testBit j =
      (decide (j < 16) && (key.testBit j || (decide (r ≤ j) && cb.testBit (rpad + (j - r))))) := by
  rw [show (65536 : Nat) = 2 ^ 16 from rfl, Nat.testBit_mod_two_pow, Nat.testBit_or,
    Nat.testBit_shiftLeft, Nat.testBit_shiftRight]

theorem byte_testBit_high (cb i : Nat) (h : cb < 256) (hi : 8 ≤ i) : cb.testBit i = false := by
  apply Nat.testBit_lt_two_pow
  calc cb < 2 ^ 8 := h
    _ ≤ 2 ^ i := Nat.pow_le_pow_right (by decide) hi

/-- The `for` loop of `get_key` from `bits_read = r` on, for a reader that has
consumed `off + r` bits of the payload `bytes`: the low `ks` bits of the
result are the payload bits from `off` on, and `off + ks` bits are consumed
afterwards. -/
theorem get_key_loop_spec (bytes : List Nat) (hb : ∀ v ∈ bytes, v < 256) (ks off : Nat)
    (hks : ks ≤ 16) (hfit : off + ks ≤ 8 * bytes.length) :
    ∀ (fuel r key : Nat) (s : KeyReader), r ≤ ks → ks ≤ r + fuel → s.shift = off % 8 →
      BitsConsumed bytes (off + r) s →
      (∀ j, j < r → key.testBit j = payloadBit bytes (off + j)) →
      (r < ks → ∀ j, r ≤ j → key.testBit j = false) →
      (∀ j, j < ks → (get_key_loop ks fuel r key s).1.testBit j = payloadBit bytes (off + j)) ∧
        BitsConsumed bytes (off + ks) (get_key_loop ks fuel r key s).2 ∧
        (get_key_loop ks fuel r key s).2.shift = s.shift := by
  intro fuel
  induction fuel with
  | zero =>
    intro r key s hr hfu hsh hcons hlow _
    have : r = ks := by omega
    subst this
    exact ⟨hlow, hcons, rfl⟩
  | succ fuel ih =>
    intro r key s hr hfu hsh hcons hlow hhigh
    by_cases hlt : r < ks
    · rw [get_key_loop_succ ks fuel r key s hlt]
      have hrp : (s.shift + r) % 8 = (off + r) % 8 := by rw [hsh]; omega
      have hq : (off + r) / 8 < bytes.length := by omega
      have hcb : bytes[(off + r) / 8] < 256 := hb _ (List.getElem_mem _)
      obtain ⟨hbyte, hshift, hreader⟩ :
          (if (s.shift + r) % 8 = 0 then get_key_fetch s else s).byte = bytes[(off + r) / 8] ∧
          (if (s.shift + r) % 8 = 0 then get_key_fetch s else s).shift = s.shift ∧
          ReaderAt (if (s.shift + r) % 8 = 0 then get_key_fetch s else s).fd
            (if (s.shift + r) % 8 = 0 then get_key_fetch s else s).sub_len
            (bytes.drop ((off + r) / 8 + 1)) := by
        by_cases h0 : (s.shift + r) % 8 = 0
        · rw [if_pos h0]
          have e : (off + r + 7) / 8 = (off + r) / 8 := by omega
          have hc := hcons.1
          rw [e, List.drop_eq_getElem_cons hq] at hc
          exact get_key_fetch_spec s _ _ hc hcb
        · rw [if_neg h0]
          have e : (off + r + 7) / 8 = (off + r) / 8 + 1 := by omega
          have hc := hcons.1
          rw [e] at hc
          refine ⟨?_, rfl, hc⟩
          rw [hcons.2 (by omega), List.getD_eq_getElem _ _ hq]
      generalize (if (s.shift + r) % 8 = 0 then get_key_fetch s else s) = s' at hbyte hshift hreader ⊢
      rw [hbyte, hrp]
      generalize hfr : min (ks - r) (8 - (off + r) % 8) = frag
      have hf1 : frag ≤ ks - r := by rw [← hfr]; exact Nat.min_le_left _ _
      have hf2 : frag ≤ 8 - (off + r) % 8 := by rw [← hfr]; exact Nat.min_le_right _ _
      have hf3 : frag = ks - r ∨ frag = 8 - (off + r) % 8 := by
        rw [← hfr, Nat.min_def]
        split_ifs
        · exact Or.inl rfl
        · exact Or.inr rfl
      have hres := ih (r + frag)
        ((key ||| ((bytes[(off + r) / 8] >>> ((off + r) % 8)) <<< r)) % 65536) s'
        (by omega) (by omega) (by rw [hshift, hsh])
        (by
          constructor
          · have e : (off + (r + frag) + 7) / 8 = (off + r) / 8 + 1 := by omega
            rw [e]
            exact hreader
          · intro hne
            have e : (off + (r + frag)) / 8 = (off + r) / 8 := by omega
            rw [e, hbyte, List.getD_eq_getElem _ _ hq])
        (by
          intro j hj
          rw [key_or_testBit]
          by_cases hjr : j < r
          · have h16 : j < 16 := by omega
            simp only [h16, decide_True, Bool.true_and, hlow j hjr,
              show ¬ r ≤ j from by omega, decide_False, Bool.false_and, Bool.or_false]
          · have h16 : j < 16 := by omega
            have hrj : r ≤ j := by omega
            unfold payloadBit
            have e1 : (off + j) / 8 = (off + r) / 8 := by omega
            have e2 : (off + j) % 8 = (off + r) % 8 + (j - r) := by omega
            simp only [h16, decide_True, Bool.true_and, hhigh hlt j hrj, hrj, Bool.false_or, e1,
              e2, List.getD_eq_getElem _ _ hq])
        (by
          intro hlt' j hj
          rw [key_or_testBit]
          have hrj : r ≤ j := by omega
          have e8 : 8 ≤ (off + r) % 8 + (j - r) := by omega
          simp only [hhigh hlt j hrj, hrj, decide_True, Bool.true_and, Bool.false_or,
            byte_testBit_high _ _ hcb e8, Bool.and_false])
      exact ⟨hres.1, hres.2.1, by rw [hres.2.2, hshift]⟩
    · have : r = ks := by omega
      subst this
      rw [get_key_loop_done _ _ _ _ _ hlt]
      exact ⟨hlow, hcons, rfl⟩

/-- One `get_key` call of width `ks` by a reader that has consumed `off` bits
of the payload `bytes`: bit `j` of the key is payload bit `off + j` for
`j < ks` and zero above, and `off + ks` bits are consumed afterwards. -/
theorem get_key_spec (bytes : List Nat) (hb : ∀ v ∈ bytes, v < 256) (ks off : Nat)
    (hks : ks ≤ 16) (hfit : off + ks ≤ 8 * bytes.length) (s : KeyReader)
    (hsh : s.shift = off % 8) (hcons : BitsConsumed bytes off s) :
    (∀ j, (get_key ks s).1.testBit j = (decide (j < ks) && payloadBit bytes (off + j))) ∧
      BitsConsumed bytes (off + ks) (get_key ks s).2 ∧
      (get_key ks s).2.shift = (off + ks) % 8 := by
  have h := get_key_loop_spec bytes hb ks off hks hfit ks 0 0 s (Nat.zero_le _) (by omega) hsh
    hcons (fun j hj => absurd hj (Nat.not_lt_zero _)) (fun _ j _ => Nat.zero_testBit j)
  refine ⟨?_, h.2.1, ?_⟩
  · intro j
    show (((get_key_loop ks ks 0 0 s).1 &&& (2 ^ ks - 1))).testBit j = _
    rw [Nat.testBit_and, Nat.testBit_two_pow_sub_one]
    by_cases hj : j < ks
    · simp only [hj, decide_True, Bool.and_true, Bool.true_and, h.1 j hj]
    · simp only [hj, decide_False, Bool.and_false, Bool.false_and]
  · show (s.shift + ks) % 8 = _
    rw [hsh]
    omega

/-- Successive `get_key` calls by a reader that has consumed `off` bits. -/
theorem get_keys_spec (bytes : List Nat) (hb : ∀ v ∈ bytes, v < 256) :
    ∀ (ws : List Nat) (off : Nat) (s : KeyReader), (∀ w ∈ ws, w ≤ 16) →
      off + ws.sum ≤ 8 * bytes.length → s.shift = off % 8 → BitsConsumed bytes off s →
      (get_keys ws s).length = ws.length ∧
      ∀ i j, i < ws.length →
        ((get_keys ws s).getD i 0).testBit j =
          (decide (j < ws.getD i 0) && payloadBit bytes (off + (ws.take i).sum + j)) := by
  intro ws
  induction ws with
  | nil =>
    intro off s _ _ _ _
    exact ⟨rfl, fun i j hi => absurd hi (Nat.not_lt_zero _)⟩
  | cons w ws ih =>
    intro off s hw hfit hsh hcons
    have hsum : (w :: ws).sum = w + ws.sum := List.sum_cons
    rw [hsum] at hfit
    have h1 := get_key_spec bytes hb w off (hw w (List.mem_cons_self _ _)) (by omega) s hsh hcons
    have h2 := ih (off + w) (get_key w s).2 (fun x hx => hw x (List.mem_cons_of_mem _ hx))
      (by omega) h1.2.2 h1.2.1
    constructor
    · show (get_keys ws (get_key w s).2).length + 1 = ws.length + 1
      rw [h2.1]
    · intro i j hi
      cases i with
      | zero =>
        show (get_key w s).1.testBit j = _
        rw [h1.1 j]
        simp
      | succ i =>
        show ((get_keys ws (get_key w s).2).getD i 0).testBit j = _
        rw [h2.2 i j (by simpa using hi)]
        simp only [List.getD_cons_succ, List.take_succ_cons, List.sum_cons]
        congr 3
        omega

/-- Claim C15: on a well-formed sub-block sequence (every block of 1 to 255
bytes behind its length byte) and for key widths `ws`, each from 1 to 12,
that together ask for no more bits than the payload has, successive `get_key`
calls starting from `sub_len = shift = 0` return one key per width, and bit
`j` of the `i`-th key is, for `j` below its width, bit
`ws[0] + ... + ws[i-1] + j` of the concatenated block payloads (least
significant bit of each byte first) and zero above: the length bytes
contribute no bit. -/
theorem get_key_reads_payload_bits (blocks : List (List Nat)) (tl : List Nat) (f : FILE)
    (byte0 : Nat) (ws : List Nat)
    (hwf : WellFormedBlocks blocks) (hbytes : ∀ v ∈ blocks.flatten, v < 256)
    (hrest : f.rest = subBlocks blocks ++ tl)
    (hws : ∀ w ∈ ws, 1 ≤ w ∧ w ≤ 12) (hsum : ws.sum ≤ 8 * blocks.flatten.length) :
    (get_keys ws ⟨f, 0, 0, byte0⟩).length = ws.length ∧
    ∀ i j, i < ws.length →
      ((get_keys ws ⟨f, 0, 0, byte0⟩).getD i 0).testBit j =
        (decide (j < ws.getD i 0) && payloadBit blocks.flatten ((ws.take i).sum + j)) := by
  have h := get_keys_spec blocks.flatten hbytes ws 0 ⟨f, 0, 0, byte0⟩
    (fun w hw => by have := hws w hw; omega) (by omega) rfl
    ⟨⟨[], blocks, tl, rfl, Nat.zero_lt_succ _, hwf, by simpa using hrest, by simp⟩,
      fun h => absurd rfl h⟩
  simpa using h

/-- Instance of claim C15: three keys of 3, 9 and 12 bits read across the
boundary of two sub-blocks with payload `B5 01` and `FF`; the keys are 5, 54
and 4080. -/
theorem get_key_reads_payload_bits_witness :
    WellFormedBlocks keyBlocksSample ∧
    keyStreamSample.data = [2, 0xB5, 0x01, 1, 0xFF, 0] ∧
    get_keys [3, 9, 12] ⟨keyStreamSample, 0, 0, 2⟩ = [5, 54, 4080] ∧
    (get_keys [3, 9, 12] ⟨keyStreamSample, 0, 0, 2⟩).length = [3, 9, 12].length ∧
    ∀ i j, i < [3, 9, 12].length →
      ((get_keys [3, 9, 12] ⟨keyStreamSample, 0, 0, 2⟩).getD i 0).testBit j =
        (decide (j < [3, 9, 12].getD i 0) &&
          payloadBit keyBlocksSample.flatten (([3, 9, 12].take i).sum + j)) := by
  have hwf : WellFormedBlocks keyBlocksSample := by
    unfold WellFormedBlocks keyBlocksSample
    decide
  exact ⟨hwf, rfl, by decide,
    get_key_reads_payload_bits keyBlocksSample [0] keyStreamSample 2 [3, 9, 12] hwf
      (by decide) rfl (by decide) (by decide)⟩

/-! ## Decoder invariants -/

/-- What `add_entry` leaves when it returns -1: the old table with `bulk`
doubled, after a reallocation that failed. -/
theorem add_entry_fail (realloc : Nat → Bool) (t t' : Table) (len pre suf : Nat)
    (h : add_entry realloc t len pre suf = some (t', -1)) :
    t' = { t with bulk := t.bulk * 2 } ∧ t.nentries = t.bulk ∧
      realloc (t.bulk * 2) = false := by
  unfold add_entry at h
  by_cases hf : t.nentries = t.bulk ∧ realloc (t.bulk * 2) = false
  · rw [if_pos hf] at h
    obtain ⟨e1, _⟩ := Prod.mk.inj (Option.some.inj h)
    exact ⟨e1.symm, hf.1, hf.2⟩
  · rw [if_neg hf] at h
    simp only at h
    split_ifs at h
    all_goals
      obtain ⟨_, e2⟩ := Prod.mk.inj (Option.some.inj h)
      exact absurd e2 (by decide)

/-- When `add_entry` returns 0 or 1 the reallocation, if there was one, has
succeeded. -/
theorem add_entry_ok (realloc : Nat → Bool) (t t' : Table) (len pre suf : Nat) (r : Int)
    (h : add_entry realloc t len pre suf = some (t', r)) (hr : r ≠ -1) :
    t.nentries = t.bulk → realloc (t.bulk * 2) = true := by
  intro hfull
  cases hre : realloc (t.bulk * 2) with
  | true => rfl
  | false =>
    unfold add_entry at h
    rw [if_pos ⟨hfull, hre⟩] at h
    obtain ⟨_, e2⟩ := Prod.mk.inj (Option.some.inj h)
    exact absurd e2.symm hr

/-- The four ways through lines 368-382. -/
theorem lzw_update_some {ρ : Type} (realloc : Nat → Bool) (init_key_size clear : Nat)
    (s u : Lzw ρ) (h : lzw_update realloc init_key_size clear s = some u) :
    (s.key = clear ∧
      u = { s with key_size := init_key_size
                   table := { s.table with nentries := 2 ^ (init_key_size - 1) + 2 }
                   table_is_full := some false }) ∨
    (s.key ≠ clear ∧ s.table_is_full = some true ∧ u = s) ∨
    (s.key ≠ clear ∧ s.table_is_full = some false ∧
      ∃ str_len entry t r, s.str_len = some str_len ∧ s.entry = some entry ∧
        add_entry realloc s.table (str_len + 1) s.key entry.suffix = some (t, r) ∧ r ≠ -1 ∧
        u = if t.nentries = 0x1000 then
              { s with table := t, ret := 0, table_is_full := some true }
            else { s with table := t, ret := r }) ∨
    (s.key ≠ clear ∧ s.table_is_full = some false ∧
      ∃ str_len entry t, s.str_len = some str_len ∧ s.entry = some entry ∧
        add_entry realloc s.table (str_len + 1) s.key entry.suffix = some (t, -1) ∧
        u = { s with table := t, ret := -1 }) := by
  unfold lzw_update at h
  by_cases hc : s.key = clear
  · rw [if_pos hc] at h
    exact Or.inl ⟨hc, (Option.some.inj h).symm⟩
  · rw [if_neg hc] at h
    right
    cases hf : s.table_is_full with
    | none => simp [hf] at h
    | some full =>
      cases full with
      | true =>
        simp only [hf] at h
        exact Or.inl ⟨hc, rfl, (Option.some.inj h).symm⟩
      | false =>
        cases hs : s.str_len with
        | none => simp [hf, hs] at h
        | some str_len =>
          cases he : s.entry with
          | none => simp [hf, hs, he] at h
          | some entry =>
            simp only [hf, hs, he] at h
            cases ha : add_entry realloc s.table (str_len + 1) s.key entry.suffix with
            | none => simp [ha] at h
            | some tr =>
              obtain ⟨t, r⟩ := tr
              rw [ha] at h
              simp only [Option.map_some'] at h
              by_cases hr : r = -1
              · rw [if_pos hr] at h
                subst hr
                exact Or.inr (Or.inr ⟨hc, rfl, str_len, entry, t, rfl, rfl, ha,
                  (Option.some.inj h).symm⟩)
              · rw [if_neg hr] at h
                exact Or.inr (Or.inl ⟨hc, rfl, str_len, entry, t, r, rfl, rfl, ha, hr,
                  (Option.some.inj h).symm⟩)

/-- The ways through an iteration once the table update of lines 368-382
has given the state `u`: line 376 returns -1, or the key read is CLEAR, STOP,
or a code that is looked up and written out. -/
theorem lzw_iteration_some {ρ : Type} (realloc : Nat → Bool) (next : Nat → ρ → Nat × ρ)
    (gif : gd_GIF) (interlace init_key_size clear stop : Nat) (s s' : Lzw ρ) (b : Option Int)
    (h : lzw_iteration realloc next gif interlace init_key_size clear stop s = some (s', b)) :
    ∃ u, lzw_update realloc init_key_size clear s = some u ∧
      (((s.key ≠ clear ∧ s.table_is_full = some false ∧ u.ret = -1) ∧ b = some (-1) ∧ s' = u) ∨
       (¬ (s.key ≠ clear ∧ s.table_is_full = some false ∧ u.ret = -1) ∧
      (((next u.key_size u.rd).1 = clear ∧ b = none ∧
        s' = { u with key := (next u.key_size u.rd).1, rd := (next u.key_size u.rd).2 }) ∨
      ((next u.key_size u.rd).1 ≠ clear ∧ (next u.key_size u.rd).1 = stop ∧ b = some 0 ∧
        s' = { u with key := (next u.key_size u.rd).1, rd := (next u.key_size u.rd).2 }) ∨
      ((next u.key_size u.rd).1 ≠ clear ∧ (next u.key_size u.rd).1 ≠ stop ∧ b = none ∧
        ∃ entry w full, (u.table.entries[(next u.key_size u.rd).1]?).join = some entry ∧
          walk gif interlace u.frm_off u.table (u.table.entries.length + 1) entry u.frame =
            some w ∧
          u.table_is_full = some full ∧
          s' = { u with
            key := (next u.key_size u.rd).1
            rd := (next u.key_size u.rd).2
            key_size := if u.ret = 1 then u.key_size + 1 else u.key_size
            entry := some w.1
            str_len := some entry.length
            frame := w.2
            frm_off := u.frm_off + entry.length
            table := if (next u.key_size u.rd).1 + 1 < u.table.nentries ∧ full = false then
                set_suffix u.table w.1.suffix else u.table })))) := by
  unfold lzw_iteration at h
  cases hu : lzw_update realloc init_key_size clear s with
  | none => simp [hu] at h
  | some u =>
    refine ⟨u, rfl, ?_⟩
    rw [hu, Option.some_bind] at h
    by_cases hfail : s.key ≠ clear ∧ s.table_is_full = some false ∧ u.ret = -1
    · left
      rw [if_pos hfail] at h
      obtain ⟨h1, h2⟩ := Prod.mk.inj (Option.some.inj h)
      exact ⟨hfail, h2.symm, h1.symm⟩
    right
    refine ⟨hfail, ?_⟩
    rw [if_neg hfail] at h
    by_cases hc : (next u.key_size u.rd).1 = clear
    · left
      simp only [hc, if_true] at h
      obtain ⟨h1, h2⟩ := Prod.mk.inj (Option.some.inj h)
      exact ⟨hc, h2.symm, by rw [← h1, hc]⟩
    · right
      by_cases hs : (next u.key_size u.rd).1 = stop
      · left
        have hsc : ¬ stop = clear := hs ▸ hc
        simp only [hs, hsc, if_false, if_true] at h
        obtain ⟨h1, h2⟩ := Prod.mk.inj (Option.some.inj h)
        exact ⟨hc, hs, h2.symm, by rw [← h1, hs]⟩
      · right
        refine ⟨hc, hs, ?_⟩
        simp only [hc, if_false, hs] at h
        by_cases hr : u.ret = 1
        · simp only [hr, if_true] at h ⊢
          cases he : (u.table.entries[(next u.key_size u.rd).1]?).join with
          | none =>
            rw [he] at h
            cases h
          | some entry =>
            rw [he] at h
            simp only [] at h
            cases hw : walk gif interlace u.frm_off u.table (u.table.entries.length + 1) entry
                u.frame with
            | none => simp [hw] at h
            | some w =>
              simp only [hw, Option.some_bind] at h
              cases hf : u.table_is_full with
              | none => simp [hf] at h
              | some full =>
                simp only [hf] at h
                by_cases hcond : (next u.key_size u.rd).1 + 1 < u.table.nentries ∧ full = false
                · rw [if_pos hcond] at h
                  obtain ⟨h1, h2⟩ := Prod.mk.inj (Option.some.inj h)
                  exact ⟨h2.symm, entry, w, full, rfl, hw, rfl, by rw [← h1, if_pos hcond]⟩
                · rw [if_neg hcond] at h
                  obtain ⟨h1, h2⟩ := Prod.mk.inj (Option.some.inj h)
                  exact ⟨h2.symm, entry, w, full, rfl, hw, rfl, by rw [← h1, if_neg hcond]⟩
        · simp only [hr, if_false] at h ⊢
          cases he : (u.table.entries[(next u.key_size u.rd).1]?).join with
          | none =>
            rw [he] at h
            cases h
          | some entry =>
            rw [he] at h
            simp only [] at h
            cases hw : walk gif interlace u.frm_off u.table (u.table.entries.length + 1) entry
                u.frame with
            | none => simp [hw] at h
            | some w =>
              simp only [hw, Option.some_bind] at h
              cases hf : u.table_is_full with
              | none => simp [hf] at h
              | some full =>
                simp only [hf] at h
                by_cases hcond : (next u.key_size u.rd).1 + 1 < u.table.nentries ∧ full = false
                · rw [if_pos hcond] at h
                  obtain ⟨h1, h2⟩ := Prod.mk.inj (Option.some.inj h)
                  exact ⟨h2.symm, entry, w, full, rfl, hw, rfl, by rw [← h1, if_pos hcond]⟩
                · rw [if_neg hcond] at h
                  obtain ⟨h1, h2⟩ := Prod.mk.inj (Option.some.inj h)
                  exact ⟨h2.symm, entry, w, full, rfl, hw, rfl, by rw [← h1, if_neg hcond]⟩

/-- A property `Inv s b` of decoder states (`b` tells whether and how the
loop has been left) that one iteration hands on from a state at the head of
the loop, to states satisfying `V`, holds at every state of a trace whose
states satisfy `V`. -/
theorem lzw_trace_inv {ρ : Type} (realloc : Nat → Bool) (next : Nat → ρ → Nat × ρ)
    (gif : gd_GIF) (interlace init_key_size clear stop : Nat)
    (Inv : Lzw ρ → Option Int → Prop) (V : Lzw ρ → Prop)
    (hstep : ∀ s s' b, Inv s none →
      lzw_iteration realloc next gif interlace init_key_size clear stop s = some (s', b) →
      b ≠ some (-1) → V s' → Inv s' b) :
    ∀ (fuel : Nat) (s : Lzw ρ), Inv s none →
      (∀ x ∈ lzw_trace realloc next gif interlace init_key_size clear stop fuel s, V x) →
      ∀ x ∈ lzw_trace realloc next gif interlace init_key_size clear stop fuel s,
        ∃ b, (b = none ∨ b = some 0) ∧ Inv x b := by
  intro fuel
  induction fuel with
  | zero =>
    intro s hs _ x hx
    rw [lzw_trace, List.mem_singleton] at hx
    rw [hx]; exact ⟨none, Or.inl rfl, hs⟩
  | succ fuel ih =>
    intro s hs hv x hx
    rw [lzw_trace] at hx hv
    rcases List.mem_cons.1 hx with hx | hx
    · rw [hx]; exact ⟨none, Or.inl rfl, hs⟩
    · cases hit : lzw_iteration realloc next gif interlace init_key_size clear stop s with
      | none => rw [hit] at hx; cases hx
      | some r =>
        obtain ⟨s', b⟩ := r
        rw [hit] at hx hv
        cases b with
        | some v =>
          simp only at hx hv
          by_cases hv0 : v = 0
          · subst hv0
            simp only [if_true, List.mem_singleton] at hx
            rw [hx]
            exact ⟨some 0, Or.inr rfl,
              hstep s s' (some 0) hs hit (by decide) (hv s' (by simp))⟩
          · rw [if_neg hv0] at hx
            cases hx
        | none =>
          simp only at hx hv
          have hs' := hstep s s' none hs hit (by simp) (hv s' (by
            apply List.mem_cons_of_mem
            cases fuel <;> simp [lzw_trace]))
          exact ih s' hs' (fun y hy => hv y (List.mem_cons_of_mem _ hy)) x hx

/-- The state in which `lzw_loop` leaves the loop by `break` is the last
state of the trace. -/
theorem lzw_loop_mem_trace {ρ : Type} (realloc : Nat → Bool) (next : Nat → ρ → Nat × ρ)
    (gif : gd_GIF) (interlace init_key_size clear stop : Nat) :
    ∀ (fuel : Nat) (s s' : Lzw ρ),
      lzw_loop realloc next gif interlace init_key_size clear stop fuel s = some (s', 0) →
      s' ∈ lzw_trace realloc next gif interlace init_key_size clear stop fuel s := by
  intro fuel
  induction fuel with
  | zero => intro s s' h; cases h
  | succ fuel ih =>
    intro s s' h
    rw [lzw_loop] at h
    rw [lzw_trace]
    apply List.mem_cons_of_mem
    cases hit : lzw_iteration realloc next gif interlace init_key_size clear stop s with
    | none => rw [hit] at h; cases h
    | some r =>
      obtain ⟨t, b⟩ := r
      rw [hit] at h
      cases b with
      | some v =>
        simp only at h ⊢
        obtain ⟨e1, e2⟩ := Prod.mk.inj (Option.some.inj h)
        rw [e1, e2]
        simp
      | none =>
        simp only at h ⊢
        exact ih t s' h

/-- The values `lzw_start` computes. -/
theorem lzw_start_some {ρ : Type} (next : Nat → ρ → Nat × ρ) (frame : List Nat) (n : Nat)
    (rd : ρ) (s0 : Lzw ρ) (iks clear stop : Nat) (hn : n ≤ 11)
    (h : lzw_start next frame n rd = some (s0, iks, clear, stop)) :
    iks = n + 1 ∧ clear = 2 ^ n ∧ stop = 2 ^ n + 1 ∧ s0.table = initial_table n ∧
      s0.key = (next (n + 1) rd).1 ∧ s0.key_size = n + 1 ∧ s0.ret = 0 := by
  unfold lzw_start at h
  rw [if_neg (by omega)] at h
  have hpow : 2 ^ n ≤ 2 ^ 11 := Nat.pow_le_pow_right (by decide) hn
  have h1 : 2 ^ n % 65536 = 2 ^ n := Nat.mod_eq_of_lt (by omega)
  have h2 : (2 ^ n + 1) % 65536 = 2 ^ n + 1 := Nat.mod_eq_of_lt (by omega)
  simp only [h1, h2] at h
  obtain ⟨e1, e2⟩ := Prod.mk.inj (Option.some.inj h)
  obtain ⟨e2, e3⟩ := Prod.mk.inj e2
  obtain ⟨e3, e4⟩ := Prod.mk.inj e3
  subst e1
  exact ⟨e2.symm, e3.symm, e4.symm, rfl, rfl, rfl, rfl⟩

theorem add_entry_nentries (realloc : Nat → Bool) (t t' : Table) (len pre suf : Nat) (r : Int)
    (h : add_entry realloc t len pre suf = some (t', r)) (hr : r ≠ -1) :
    t'.nentries = t.nentries + 1 := by
  have hok := add_entry_ok realloc t t' len pre suf r h hr
  unfold add_entry at h
  rw [if_neg (by
    rintro ⟨h1, h2⟩
    rw [hok h1] at h2
    cases h2)] at h
  by_cases hf : t.nentries = t.bulk
  · simp only [hf, if_true] at h
    split_ifs at h
    all_goals
      obtain ⟨e1, _⟩ := Prod.mk.inj (Option.some.inj h)
      rw [← e1, hf]
  · simp only [hf, if_false] at h
    split_ifs at h
    all_goals
      obtain ⟨e1, _⟩ := Prod.mk.inj (Option.some.inj h)
      rw [← e1]

/-! ### The entry count -/

/-- Lines 368-382 keep the entry count within 4096. -/
theorem lzw_update_count {ρ : Type} (realloc : Nat → Bool) (n clear : Nat) (s u : Lzw ρ)
    (hn : n ≤ 11) (hinv : CountInv clear s)
    (h : lzw_update realloc (n + 1) clear s = some u) :
    u.table.nentries ≤ 4096 ∧
      (∃ full, u.table_is_full = some full ∧ (full = false → u.table.nentries < 4096)) ∧
      (s.key = clear → u.table.nentries = 2 ^ n + 2) ∧
      (s.key ≠ clear → s.table.nentries = 4096 → u.table = s.table) := by
  have hpow : 2 ^ n ≤ 2 ^ 11 := Nat.pow_le_pow_right (by decide) hn
  rcases lzw_update_some _ _ _ _ _ h with
    ⟨hc, hu⟩ | ⟨hc, hf, hu⟩ | ⟨hc, hf, sl, e, t, r, _, _, ha, hr, hu⟩ |
    ⟨hc, hf, sl, e, t, _, _, ha, hu⟩
  · subst hu
    have e : (2 : Nat) ^ (n + 1 - 1) + 2 = 2 ^ n + 2 := by simp
    refine ⟨?_, ⟨false, rfl, fun _ => ?_⟩, fun _ => e, fun hne => absurd hc hne⟩
    · show 2 ^ (n + 1 - 1) + 2 ≤ 4096
      omega
    · show 2 ^ (n + 1 - 1) + 2 < 4096
      omega
  · subst hu
    exact ⟨hinv.1, ⟨true, hf, fun hff => by cases hff⟩, fun h' => absurd h' hc, fun _ _ => rfl⟩
  · obtain ⟨full, hfull, hlt⟩ := hinv.2 hc
    rw [hf] at hfull
    have hlt' : s.table.nentries < 4096 := hlt (Option.some.inj hfull).symm
    have hnt := add_entry_nentries _ _ _ _ _ _ _ ha hr
    by_cases h4 : t.nentries = 0x1000
    · rw [if_pos h4] at hu
      subst hu
      exact ⟨by show t.nentries ≤ 4096; omega, ⟨true, rfl, fun hff => by cases hff⟩,
        fun h' => absurd h' hc, fun _ h' => by omega⟩
    · rw [if_neg h4] at hu
      subst hu
      exact ⟨by show t.nentries ≤ 4096; omega,
        ⟨false, hf, fun _ => by show t.nentries < 4096; omega⟩,
        fun h' => absurd h' hc, fun _ h' => by omega⟩
  · obtain ⟨full, hfull, hlt⟩ := hinv.2 hc
    rw [hf] at hfull
    have hlt' : s.table.nentries < 4096 := hlt (Option.some.inj hfull).symm
    obtain ⟨ht, _, _⟩ := add_entry_fail _ _ _ _ _ _ ha
    subst hu
    subst ht
    exact ⟨hinv.1, ⟨false, hf, fun _ => hlt'⟩, fun h' => absurd h' hc,
      fun _ h' => by omega⟩

/-- One iteration hands on `CountInv`. -/
theorem lzw_iteration_count {ρ : Type} (realloc : Nat → Bool) (next : Nat → ρ → Nat × ρ)
    (gif : gd_GIF) (interlace n clear stop : Nat) (s s' : Lzw ρ) (b : Option Int)
    (hn : n ≤ 11) (hinv : CountInv clear s)
    (h : lzw_iteration realloc next gif interlace (n + 1) clear stop s = some (s', b)) :
    CountInv clear s' := by
  obtain ⟨u, hu, hcases⟩ := lzw_iteration_some _ _ _ _ _ _ _ _ _ _ h
  obtain ⟨h1, h2, _, _⟩ := lzw_update_count realloc n clear s u hn hinv hu
  rcases hcases with ⟨_, _, hs'⟩ |
    ⟨_, ⟨_, _, hs'⟩ | ⟨_, _, _, hs'⟩ | ⟨_, _, _, entry, w, full, _, _, hfull, hs'⟩⟩
  · subst hs'
    exact ⟨h1, fun _ => h2⟩
  · subst hs'
    exact ⟨h1, fun _ => h2⟩
  · subst hs'
    exact ⟨h1, fun _ => h2⟩
  · have hn' : s'.table.nentries = u.table.nentries := by
      rw [hs']
      show (if _ then set_suffix u.table w.1.suffix else u.table).nentries = _
      split_ifs
      · exact (set_suffix_spec u.table w.1.suffix).1
      · rfl
    have hf' : s'.table_is_full = u.table_is_full := by rw [hs']
    exact ⟨by rw [hn']; exact h1, fun _ => by rw [hn', hf']; exact h2⟩

/-- Claim C16: for a code size `n <= 11` and a first code CLEAR, whatever
codes the code source `next` hands out afterwards and whichever reallocations
of the table succeed, the entry count is at most
4096 at the head of every iteration of `while (1)` and after the table update
of lines 368-382; that update sets the count to `2^n + 2` on a CLEAR code
and, once the count is 4096, leaves the table as it is on every other
code. -/
theorem entry_count_at_most_4096 {ρ : Type} (realloc : Nat → Bool) (next : Nat → ρ → Nat × ρ)
    (gif : gd_GIF) (interlace n fuel : Nat) (frame : List Nat) (rd : ρ) (s0 : Lzw ρ)
    (iks clear stop : Nat)
    (hn : n ≤ 11) (hstart : lzw_start next frame n rd = some (s0, iks, clear, stop))
    (hclear : s0.key = clear) :
    ∀ s ∈ lzw_trace realloc next gif interlace iks clear stop fuel s0,
      s.table.nentries ≤ 4096 ∧
      ∀ u, lzw_update realloc iks clear s = some u →
        u.table.nentries ≤ 4096 ∧
        (s.key = clear → u.table.nentries = 2 ^ n + 2) ∧
        (s.key ≠ clear → s.table.nentries = 4096 → u.table = s.table) := by
  obtain ⟨hiks, _, _, ht, _, _, _⟩ := lzw_start_some next frame n rd s0 iks clear stop hn hstart
  subst hiks
  have hpow : 2 ^ n ≤ 2 ^ 11 := Nat.pow_le_pow_right (by decide) hn
  have h0 : CountInv clear s0 := by
    refine ⟨?_, fun hne => absurd hclear hne⟩
    rw [ht]
    show 2 ^ n + 2 ≤ 4096
    omega
  have hall := lzw_trace_inv realloc next gif interlace (n + 1) clear stop
    (fun s _ => CountInv clear s) (fun _ => True)
    (fun s s' b hs hit _ _ =>
      lzw_iteration_count realloc next gif interlace n clear stop s s' b hn hs hit)
    fuel s0 h0 (fun _ _ => trivial)
  intro s hs
  obtain ⟨_, _, hcount⟩ := hall s hs
  refine ⟨hcount.1, fun u hu => ?_⟩
  obtain ⟨h1, _, h3, h4⟩ := lzw_update_count realloc n clear s u hn hcount hu
  exact ⟨h1, h3, h4⟩

/-- Instance of claim C16: the codes CLEAR 0 STOP with code size 2. -/
theorem entry_count_at_most_4096_witness :
    lzw_start (listReader 5) lzwSample.frame 2 [4, 0, 5] = some (startSample, 3, 4, 5) ∧
    startSample.key = 4 ∧
    ∀ s ∈ lzw_trace reallocOk (listReader 5) lzwSample 0 3 4 5 8 startSample,
      s.table.nentries ≤ 4096 ∧
      ∀ u, lzw_update reallocOk 3 4 s = some u →
        u.table.nentries ≤ 4096 ∧
        (s.key = 4 → u.table.nentries = 2 ^ 2 + 2) ∧
        (s.key ≠ 4 → s.table.nentries = 4096 → u.table = s.table) :=
  ⟨rfl, rfl,
    entry_count_at_most_4096 reallocOk (listReader 5) lzwSample 0 2 8 lzwSample.frame [4, 0, 5]
      startSample 3 4 5 (by decide) rfl rfl⟩

/-! ### The prefix structure of the code table -/

/-- The table `new_table` returns, when it returns one, is `initial_table`. -/
theorem new_table_some (malloc : Nat → Bool) (key_size : Nat) (t : Table)
    (h : new_table malloc key_size = some t) : t = initial_table key_size := by
  unfold new_table at h
  simp only at h
  split_ifs at h
  exact (Option.some.inj h).symm

/-- The table `new_table` builds has the structure `TableInv`. -/
theorem initial_table_inv (n : Nat) (hn : n ≤ 11) : TableInv n (initial_table n) := by
  have hpow : 2 ^ n ≤ 2 ^ 11 := Nat.pow_le_pow_right (by decide) hn
  have hsucc : 2 ^ (n + 1) = 2 * 2 ^ n := by rw [Nat.pow_succ]; omega
  have hpos : 0 < 2 ^ n := Nat.two_pow_pos n
  have hmax : 2 ^ n + 2 ≤ max (2 ^ (n + 1)) 0x100 := by
    by_cases h : 3 ≤ n
    · have : 2 ^ 3 ≤ 2 ^ n := Nat.pow_le_pow_right (by decide) h
      have := Nat.le_max_left (2 ^ (n + 1)) 0x100
      omega
    · have : 2 ^ n ≤ 2 ^ 2 := Nat.pow_le_pow_right (by decide) (by omega)
      have := Nat.le_max_right (2 ^ (n + 1)) 0x100
      omega
  refine ⟨?_, ?_, ?_, ?_, ?_, ?_⟩
  · show max (2 ^ (n + 1)) 0x100 = _
    simp [initial_table]
    omega
  · exact hmax
  · exact Nat.le_refl _
  · show 2 ^ n + 2 ≤ 4096
    omega
  · intro i hi
    show ((List.range (2 ^ n)).map _ ++ _)[i]? = _
    rw [List.getElem?_append_left (by simpa using hi)]
    simp [hi]
  · intro i h1 h2
    have : i < 2 ^ n + 2 := h2
    omega

/-- The reset of the entry count by a CLEAR code keeps `TableInv`. -/
theorem tableInv_reset (n : Nat) (t : Table) (h : TableInv n t) :
    TableInv n { t with nentries := 2 ^ n + 2 } := by
  obtain ⟨hb, hle, hlo, hhi, hroot, _⟩ := h
  refine ⟨hb, ?_, Nat.le_refl _, ?_, hroot, ?_⟩
  · show 2 ^ n + 2 ≤ t.bulk
    omega
  · show 2 ^ n + 2 ≤ 4096
    omega
  · intro i h1 h2
    have : i < 2 ^ n + 2 := h2
    omega

/-- Line 403 keeps `TableInv`: only the suffix of the newest entry changes. -/
theorem tableInv_set_suffix (n : Nat) (t : Table) (suf : Nat) (h : TableInv n t) :
    TableInv n (set_suffix t suf) := by
  obtain ⟨hb, hle, hlo, hhi, hroot, hlive⟩ := h
  obtain ⟨sn, sb, sl, sold, snew⟩ := set_suffix_spec t suf
  refine ⟨by rw [sb, sl]; exact hb, by rw [sn, sb]; exact hle, by rw [sn]; exact hlo,
    by rw [sn]; exact hhi, ?_, ?_⟩
  · intro i hi
    rw [sold i (by omega)]
    exact hroot i hi
  · intro i h1 h2
    rw [sn] at h2
    obtain ⟨e, p, he, hp, hlt, hrange, hlen, hbound⟩ := hlive i h1 h2
    by_cases hi : i = t.nentries - 1
    · refine ⟨{ e with suffix := suf }, p, ?_, ?_, hlt, hrange, hlen, hbound⟩
      · rw [hi]
        exact snew e (by rw [← hi]; exact he)
      · show (set_suffix t suf).entries[e.prefix_]? = _
        rw [sold _ (by omega)]
        exact hp
    · refine ⟨e, p, ?_, ?_, hlt, hrange, hlen, hbound⟩
      · rw [sold i hi]; exact he
      · rw [sold _ (by omega)]; exact hp

/-- The call `add_entry` of line 373 keeps `TableInv` when the table is not
full and the new entry extends the entry `k` of a code `key` below the entry
count. -/
theorem tableInv_add_entry (realloc : Nat → Bool) (n : Nat) (t t' : Table) (key suf : Nat)
    (k : Entry) (r : Int)
    (h : TableInv n t) (hfull : t.nentries < 4096) (hkey : key < t.nentries)
    (hrange : key < 2 ^ n ∨ 2 ^ n + 2 ≤ key) (hk : t.entries[key]? = some (some k))
    (hklen : k.length ≤ key + 1)
    (ha : add_entry realloc t (k.length + 1) key suf = some (t', r)) (hr : r ≠ -1) :
    TableInv n t' ∧ t'.nentries = t.nentries + 1 ∧
      ∀ i, i < t.nentries → t'.entries[i]? = t.entries[i]? := by
  obtain ⟨hb, hle, hlo, hhi, hroot, hlive⟩ := h
  have hpos : 0 < t.bulk := by omega
  obtain ⟨t1, r1, ha1, an, ab, abulk, ale, anew, aold, _⟩ :=
    add_entry_spec realloc t (k.length + 1) key suf
      (add_entry_ok realloc t t' _ _ _ r ha hr) hb hle hpos
  rw [ha1] at ha
  obtain ⟨e1, _⟩ := Prod.mk.inj (Option.some.inj ha)
  subst e1
  have hlen : t.nentries ≤ t.entries.length := by omega
  have hold : ∀ i, i < t.nentries → t1.entries[i]? = t.entries[i]? :=
    fun i hi => aold i (by omega) (by omega)
  refine ⟨⟨ab, ale, by omega, by omega, ?_, ?_⟩, an, hold⟩
  · intro i hi
    rw [hold i (by omega)]
    exact hroot i hi
  · intro i h1 h2
    by_cases hi : i = t.nentries
    · refine ⟨⟨(k.length + 1) % 65536, key % 65536, suf % 256⟩, k, by rw [hi]; exact anew,
        ?_, ?_, ?_, ?_, ?_⟩
      · show t1.entries[key % 65536]? = _
        rw [Nat.mod_eq_of_lt (by omega), hold key hkey]
        exact hk
      · show key % 65536 < i
        rw [Nat.mod_eq_of_lt (by omega)]
        omega
      · show key % 65536 < 2 ^ n ∨ 2 ^ n + 2 ≤ key % 65536
        rw [Nat.mod_eq_of_lt (by omega)]
        exact hrange
      · show (k.length + 1) % 65536 = k.length + 1
        exact Nat.mod_eq_of_lt (by omega)
      · show (k.length + 1) % 65536 ≤ i + 1
        rw [Nat.mod_eq_of_lt (by omega)]
        omega
    · obtain ⟨e, p, he, hp, hlt, hr, hl, hbd⟩ := hlive i h1 (by omega)
      refine ⟨e, p, ?_, ?_, hlt, hr, hl, hbd⟩
      · rw [hold i (by omega)]; exact he
      · rw [hold _ (by omega)]; exact hp

theorem join_eq_some {α : Type} (o : Option (Option α)) (a : α) (h : o.join = some a) :
    o = some (some a) := by
  cases o with
  | none => cases h
  | some x =>
    cases x with
    | none => cases h
    | some y =>
      have : y = a := Option.some.inj h
      rw [this]

/-- In a table with the structure `TableInv`, the prefix walk from a code
below the entry count, other than CLEAR and STOP, arrives at a root after
`length - 1` steps and not before. -/
theorem tableInv_ancestor (n : Nat) (t : Table) (h : TableInv n t) :
    ∀ c, c < t.nentries → (c < 2 ^ n ∨ 2 ^ n + 2 ≤ c) →
      ∃ e root, t.entries[c]? = some (some e) ∧ 1 ≤ e.length ∧
        ancestor t (e.length - 1) c = some root ∧ root.prefix_ = 0xFFF ∧
        ∀ k, k < e.length - 1 → ∃ a, ancestor t k c = some a ∧ a.prefix_ ≠ 0xFFF := by
  obtain ⟨_, _, _, hhi, hroot, hlive⟩ := h
  intro c
  induction c using Nat.strong_induction_on with
  | _ c ih =>
    intro hc hrange
    rcases hrange with hr | hr
    · have he := hroot c hr
      refine ⟨⟨1, 0xFFF, c % 256⟩, ⟨1, 0xFFF, c % 256⟩, he, Nat.le_refl _, ?_, rfl, ?_⟩
      · show (t.entries[c]?).join = _
        rw [he]; rfl
      · intro k hk
        exact absurd hk (Nat.not_lt_zero _)
    · obtain ⟨e, p, he, hp, hlt, hpr, hlen, _⟩ := hlive c hr hc
      obtain ⟨e', root, he', h1, hanc, hrootp, hbefore⟩ := ih e.prefix_ hlt (by omega) hpr
      rw [hp] at he'
      have hpe : p = e' := Option.some.inj (Option.some.inj he')
      subst hpe
      have hstep : ∀ k, ancestor t (k + 1) c = ancestor t k e.prefix_ := by
        intro k
        rw [ancestor, he]
        rfl
      refine ⟨e, root, he, by omega, ?_, hrootp, ?_⟩
      · have e1 : e.length - 1 = (p.length - 1) + 1 := by omega
        rw [e1, hstep]
        exact hanc
      · intro k hk
        cases k with
        | zero =>
          refine ⟨e, ?_, by omega⟩
          show (t.entries[c]?).join = _
          rw [he]; rfl
        | succ k =>
          rw [hstep]
          exact hbefore k (by omega)

/-- A table with the structure `TableInv` has the prefix structure `PrefixInv`. -/
theorem tableInv_prefixInv (n : Nat) (t : Table) (h : TableInv n t) : PrefixInv n t := by
  constructor
  · intro i h1 h2
    obtain ⟨_, _, _, hhi, _, hlive⟩ := h
    obtain ⟨e, p, he, hp, hlt, _, hlen, _⟩ := hlive i h1 h2
    exact ⟨e, p, he, hp, hlt, hlen, by omega⟩
  · intro c hc h1 h2
    obtain ⟨e, root, he, _, hanc, hr, hb⟩ := tableInv_ancestor n t h c hc (by omega)
    exact ⟨e, root, he, hanc, hr, hb⟩

/-- The prefix walk reads the entries only. -/
theorem ancestor_congr (t t' : Table) (h : t'.entries = t.entries) :
    ∀ k c, ancestor t' k c = ancestor t k c := by
  intro k
  induction k with
  | zero => intro c; rw [ancestor, ancestor, h]
  | succ k ih =>
    intro c
    rw [ancestor, ancestor, h]
    cases (t.entries[c]?).join with
    | none => rfl
    | some e => exact ih e.prefix_

/-- The prefix structure `PrefixInv` depends on the entries and their count
only. -/
theorem prefixInv_congr (n : Nat) (t t' : Table) (he : t'.entries = t.entries)
    (hn : t'.nentries = t.nentries) (h : PrefixInv n t) : PrefixInv n t' := by
  have ha := ancestor_congr t t' he
  unfold PrefixInv at h ⊢
  simp only [he, hn, ha]
  exact h

/-- Lines 368-382 keep `TableInv` from a state whose code is CLEAR or has been
looked up below the entry count, unless `add_entry` returns -1; the entries
and their count are then unchanged. -/
theorem lzw_update_table {ρ : Type} (realloc : Nat → Bool) (n : Nat) (s u : Lzw ρ)
    (hn : n ≤ 11) (hT : TableInv n s.table) (hK : s.key = 2 ^ n ∨ LiveKey n s)
    (hu : lzw_update realloc (n + 1) (2 ^ n) s = some u) :
    ((s.key ≠ 2 ^ n ∧ s.table_is_full = some false ∧ u.ret = -1) ∧
      u.table.entries = s.table.entries ∧ u.table.nentries = s.table.nentries) ∨
    (TableInv n u.table ∧
      ∃ full, u.table_is_full = some full ∧ (full = false → u.table.nentries < 4096)) := by
  have hpow : 2 ^ n ≤ 2 ^ 11 := Nat.pow_le_pow_right (by decide) hn
  rcases lzw_update_some _ _ _ _ _ hu with
    ⟨hc, hu'⟩ | ⟨hc, hf, hu'⟩ | ⟨hc, hf, sl, e, t, r, hsl, he, ha, hr, hu'⟩ |
    ⟨hc, hf, sl, e, t, _, _, ha, hu'⟩
  · subst hu'
    have e : (2 : Nat) ^ (n + 1 - 1) + 2 = 2 ^ n + 2 := by simp
    right
    constructor
    · show TableInv n { s.table with nentries := 2 ^ (n + 1 - 1) + 2 }
      rw [e]
      exact tableInv_reset n s.table hT
    · refine ⟨false, rfl, fun _ => ?_⟩
      show 2 ^ (n + 1 - 1) + 2 < 4096
      omega
  · subst hu'
    exact Or.inr ⟨hT, true, hf, fun h => by cases h⟩
  · right
    rcases hK with hK | hK
    · exact absurd hK hc
    · obtain ⟨⟨full, hfull, hlt⟩, hkey, hrange, k, e', hk, hstr, _, hklen⟩ := hK
      rw [hf] at hfull
      have hlt' := hlt (Option.some.inj hfull).symm
      rw [hsl] at hstr
      have hsl' : sl = k.length := Option.some.inj hstr
      subst hsl'
      obtain ⟨hT', hn', _⟩ := tableInv_add_entry realloc n s.table t s.key e.suffix k r hT hlt'
        hkey hrange hk hklen ha hr
      by_cases h4 : t.nentries = 0x1000
      · rw [if_pos h4] at hu'
        subst hu'
        exact ⟨hT', true, rfl, fun h => by cases h⟩
      · rw [if_neg h4] at hu'
        subst hu'
        refine ⟨hT', false, hf, fun _ => ?_⟩
        show t.nentries < 4096
        omega
  · left
    obtain ⟨ht, _, _⟩ := add_entry_fail _ _ _ _ _ _ ha
    subst hu'
    subst ht
    exact ⟨⟨hc, hf, rfl⟩, rfl, rfl⟩

/-- After lines 368-382 the table has the prefix structure `PrefixInv`,
whether or not `add_entry` has returned -1. -/
theorem lzw_update_prefix {ρ : Type} (realloc : Nat → Bool) (n : Nat) (s u : Lzw ρ)
    (hn : n ≤ 11) (hT : TableInv n s.table) (hK : s.key = 2 ^ n ∨ LiveKey n s)
    (hu : lzw_update realloc (n + 1) (2 ^ n) s = some u) : PrefixInv n u.table := by
  rcases lzw_update_table realloc n s u hn hT hK hu with ⟨_, he, hc⟩ | ⟨hT', _⟩
  · exact prefixInv_congr n s.table u.table he hc (tableInv_prefixInv n _ hT)
  · exact tableInv_prefixInv n _ hT'

/-- One iteration keeps `TableInv` and, when the code it reads is CLEAR, STOP
or below the entry count, arrives at a state whose code is CLEAR or has been
looked up below the entry count, unless it leaves the loop. -/
theorem lzw_iteration_table {ρ : Type} (realloc : Nat → Bool) (next : Nat → ρ → Nat × ρ)
    (gif : gd_GIF) (interlace n : Nat) (s s' : Lzw ρ) (b : Option Int) (hn : n ≤ 11)
    (hT : TableInv n s.table) (hK : s.key = 2 ^ n ∨ LiveKey n s)
    (h : lzw_iteration realloc next gif interlace (n + 1) (2 ^ n) (2 ^ n + 1) s = some (s', b))
    (hb1 : b ≠ some (-1))
    (hv : s'.key = 2 ^ n ∨ s'.key = 2 ^ n + 1 ∨ s'.key < s'.table.nentries) :
    TableInv n s'.table ∧ (b = none → (s'.key = 2 ^ n ∨ LiveKey n s')) := by
  obtain ⟨u, hu, hcases⟩ := lzw_iteration_some _ _ _ _ _ _ _ _ _ _ h
  rcases hcases with ⟨_, hb, _⟩ | ⟨hnf, hcases⟩
  · exact absurd hb hb1
  obtain ⟨hTu, fullu, hfu, hltu⟩ : TableInv n u.table ∧
      ∃ full, u.table_is_full = some full ∧ (full = false → u.table.nentries < 4096) := by
    rcases lzw_update_table realloc n s u hn hT hK hu with ⟨hF, _⟩ | hX
    · exact absurd hF hnf
    · exact hX
  rcases hcases with ⟨hc, _, hs'⟩ | ⟨_, _, hb, hs'⟩ |
    ⟨hc, hs, _, entry, w, full, hent, _, hfull, hs'⟩
  · subst hs'
    exact ⟨hTu, fun _ => Or.inl hc⟩
  · subst hs'
    exact ⟨hTu, fun hb' => by rw [hb] at hb'; cases hb'⟩
  · have hent' := join_eq_some _ _ hent
    have htab : s'.table = if (next u.key_size u.rd).1 + 1 < u.table.nentries ∧ full = false
        then set_suffix u.table w.1.suffix else u.table := by rw [hs']
    have hkey : s'.key = (next u.key_size u.rd).1 := by rw [hs']
    have hfl : s'.table_is_full = u.table_is_full := by rw [hs']
    have hstr : s'.str_len = some entry.length := by rw [hs']
    have hen : s'.entry = some w.1 := by rw [hs']
    obtain ⟨sn, _, _, sold, _⟩ := set_suffix_spec u.table w.1.suffix
    have hT' : TableInv n s'.table := by
      rw [htab]
      split_ifs
      · exact tableInv_set_suffix n u.table _ hTu
      · exact hTu
    have hnent : s'.table.nentries = u.table.nentries := by
      rw [htab]
      split_ifs
      · exact sn
      · rfl
    have hlook : s'.table.entries[s'.key]? = some (some entry) := by
      rw [htab, hkey]
      split_ifs with hcond
      · rw [sold _ (by omega)]
        exact hent'
      · exact hent'
    refine ⟨hT', fun _ => Or.inr ?_⟩
    rw [← hkey] at hc hs
    have hlt : s'.key < s'.table.nentries := by
      rcases hv with hv | hv | hv
      · exact absurd hv hc
      · exact absurd hv hs
      · exact hv
    have hrange : s'.key < 2 ^ n ∨ 2 ^ n + 2 ≤ s'.key := by omega
    refine ⟨⟨fullu, by rw [hfl]; exact hfu, fun hf => by rw [hnent]; exact hltu hf⟩, hlt,
      hrange, entry, w.1, hlook, hstr, hen, ?_⟩
    obtain ⟨_, _, _, _, hroot, hlive⟩ := hT'
    rcases hrange with hr | hr
    · have := hroot _ hr
      rw [hlook] at this
      have he : entry = ⟨1, 0xFFF, s'.key % 256⟩ := Option.some.inj (Option.some.inj this)
      rw [he]
      show 1 ≤ s'.key + 1
      omega
    · obtain ⟨e, _, he, _, _, _, _, hbd⟩ := hlive _ hr hlt
      rw [hlook] at he
      have hee : entry = e := Option.some.inj (Option.some.inj he)
      rw [hee]
      exact hbd

/-- An iteration that leaves the loop has read STOP. -/
theorem lzw_iteration_break {ρ : Type} (realloc : Nat → Bool) (next : Nat → ρ → Nat × ρ)
    (gif : gd_GIF) (interlace init_key_size clear stop : Nat) (s s' : Lzw ρ)
    (h : lzw_iteration realloc next gif interlace init_key_size clear stop s =
      some (s', some 0)) :
    s'.key = stop := by
  obtain ⟨u, _, hcases⟩ := lzw_iteration_some _ _ _ _ _ _ _ _ _ _ h
  rcases hcases with ⟨_, hb, _⟩ | ⟨_, ⟨_, hb, _⟩ | ⟨_, hs, _, hs'⟩ | ⟨_, _, hb, _⟩⟩
  · exact absurd hb (by decide)
  · cases hb
  · rw [hs']; exact hs
  · cases hb

/-- Claim C19: for a code size `n <= 11`, a first code CLEAR and later codes
that are each CLEAR, STOP or below the entry count at the time they are read,
whichever reallocations of the table succeed, the code table has the
properties `PrefixInv` at the head of every iteration
of `while (1)` and after the table update of lines 368-382: every entry `i`
from `2^n + 2` up to the entry count has a prefix index below `i`, never the
root sentinel `0xFFF`, and is one symbol longer than its prefix entry; and the
prefix walk from any code below the entry count other than CLEAR and STOP
arrives at a root after `length - 1` steps, not before. -/
theorem table_prefix_invariant {ρ : Type} (realloc : Nat → Bool) (next : Nat → ρ → Nat × ρ)
    (gif : gd_GIF) (interlace n fuel : Nat) (frame : List Nat) (rd : ρ) (s0 : Lzw ρ)
    (iks clear stop : Nat)
    (hn : n ≤ 11) (hstart : lzw_start next frame n rd = some (s0, iks, clear, stop))
    (hclear : s0.key = clear)
    (hvalid : ∀ s ∈ lzw_trace realloc next gif interlace iks clear stop fuel s0,
      s.key = clear ∨ s.key = stop ∨ s.key < s.table.nentries) :
    ∀ s ∈ lzw_trace realloc next gif interlace iks clear stop fuel s0,
      PrefixInv n s.table ∧
      ∀ u, s.key ≠ stop → lzw_update realloc iks clear s = some u → PrefixInv n u.table := by
  obtain ⟨hiks, hcl, hst, ht, _, _, _⟩ :=
    lzw_start_some next frame n rd s0 iks clear stop hn hstart
  subst hiks hcl hst
  have hall := lzw_trace_inv realloc next gif interlace (n + 1) (2 ^ n) (2 ^ n + 1)
    (fun s b => (TableInv n s.table ∧ (b = none → (s.key = 2 ^ n ∨ LiveKey n s))) ∧
      (b = some 0 → s.key = 2 ^ n + 1))
    (fun s => s.key = 2 ^ n ∨ s.key = 2 ^ n + 1 ∨ s.key < s.table.nentries)
    (fun s s' b hs hit hb hv =>
      ⟨lzw_iteration_table realloc next gif interlace n s s' b hn hs.1.1 (hs.1.2 rfl) hit hb hv,
        fun hb => lzw_iteration_break realloc next gif interlace (n + 1) (2 ^ n) (2 ^ n + 1)
          s s' (by rw [← hb]; exact hit)⟩)
    fuel s0
    ⟨⟨by rw [ht]; exact initial_table_inv n hn, fun _ => Or.inl hclear⟩, fun h => by cases h⟩
    hvalid
  intro s hs
  obtain ⟨b, hb, ⟨hT, hK⟩, hB⟩ := hall s hs
  refine ⟨tableInv_prefixInv n _ hT, fun u hne hu => ?_⟩
  rcases hb with hb | hb
  · exact lzw_update_prefix realloc n s u hn hT (hK hb) hu
  · exact absurd (hB hb) hne

/-- Instance of claim C19: the codes CLEAR 0 6 1 STOP with code size 2, the
code 6 being the entry the decoder has just added. -/
theorem table_prefix_invariant_witness :
    lzw_start (listReader 5) lzwSample.frame 2 [4, 0, 6, 1, 5] = some (chainSample, 3, 4, 5) ∧
    chainSample.key = 4 ∧
    (∀ s ∈ lzw_trace reallocOk (listReader 5) lzwSample 0 3 4 5 8 chainSample,
      s.key = 4 ∨ s.key = 5 ∨ s.key < s.table.nentries) ∧
    (lzw_trace reallocOk (listReader 5) lzwSample 0 3 4 5 8 chainSample).map
      (fun s => (s.key, s.table.nentries)) = [(4, 6), (0, 6), (6, 7), (1, 8), (5, 9)] ∧
    ∀ s ∈ lzw_trace reallocOk (listReader 5) lzwSample 0 3 4 5 8 chainSample,
      PrefixInv 2 s.table ∧
      ∀ u, s.key ≠ 5 → lzw_update reallocOk 3 4 s = some u → PrefixInv 2 u.table :=
  ⟨rfl, rfl, by decide!, by decide!,
    table_prefix_invariant reallocOk (listReader 5) lzwSample 0 2 8 lzwSample.frame
      [4, 0, 6, 1, 5] chainSample 3 4 5 (by decide) rfl rfl (by decide!)⟩

/-! ### Key widths -/

set_option maxRecDepth 100000 in
/-- Claim C18 fails on the image data of `lzwSample` (code size 2, payload
`04 08 A8 00`, a valid block holding the codes CLEAR 0 0 CLEAR 0 0 2 at 3 bits
and STOP at 4 bits): the key widths `read_image_data` passes to `get_key` are
3 3 3 3 3 4 4. The append before the fourth read (the second CLEAR) brings the
entry count to 8; the CLEAR resets count and width, the fifth code is read at
3 bits, and the sixth at 4 bits although the entry count has only gone from 6
to 7 since the reset. The same widths are asked for when the codes
CLEAR 0 0 CLEAR 0 0 STOP are handed out one by one; the states at the head of
the iterations then have the codes, entry counts and key widths listed. -/
theorem key_width_grows_after_clear :
    (lzw_decode reallocOk (logReader get_key) 8 lzwSample 0 2 (⟨fseek lzwSample.fd 1, 0, 0, 2⟩, [])).map
      (fun r => r.1.rd.2) = some [3, 3, 3, 3, 3, 4, 4] ∧
    (lzw_decode reallocOk (widthReader 5) 8 lzwSample 0 2 ([4, 0, 0, 4, 0, 0, 5], [])).map
      (fun r => r.1.rd.2) = some [3, 3, 3, 3, 3, 4, 4] ∧
    (lzw_start (widthReader 5) lzwSample.frame 2 ([4, 0, 0, 4, 0, 0, 5], [])).map
      (fun i => (lzw_trace reallocOk (widthReader 5) lzwSample 0 i.2.1 i.2.2.1 i.2.2.2 8 i.1).map
        fun s => (s.key, s.table.nentries, s.key_size)) =
      some [(4, 6, 3), (0, 6, 3), (0, 7, 3), (4, 8, 3), (0, 6, 4), (0, 7, 4), (5, 8, 4)] := by
  decide!

/-- The value `add_entry` returns when it does not return -1. -/
theorem add_entry_ret (realloc : Nat → Bool) (t t' : Table) (len pre suf : Nat) (r : Int)
    (h : add_entry realloc t len pre suf = some (t', r)) (hr : r ≠ -1) :
    r = if (t.nentries + 1) &&& t.nentries = 0 then 1 else 0 := by
  have hok := add_entry_ok realloc t t' len pre suf r h hr
  unfold add_entry at h
  rw [if_neg (by
    rintro ⟨h1, h2⟩
    rw [hok h1] at h2
    cases h2)] at h
  by_cases hf : t.nentries = t.bulk
  · simp only [hf, if_true] at h
    split_ifs at h
    all_goals
      obtain ⟨_, e2⟩ := Prod.mk.inj (Option.some.inj h)
      rw [← e2, hf]
      simp_all
  · simp only [hf, if_false] at h
    split_ifs at h
    all_goals
      obtain ⟨_, e2⟩ := Prod.mk.inj (Option.some.inj h)
      rw [← e2]
      simp_all

/-- Strictly between two consecutive powers of two, `m & (m - 1)` is not
zero. -/
theorem and_pred_ne_zero (j m : Nat) (h1 : 2 ^ j < m) (h2 : m < 2 ^ (j + 1)) :
    m &&& (m - 1) ≠ 0 := by
  have hs : 2 ^ (j + 1) = 2 ^ j + 2 ^ j := by rw [Nat.pow_succ]; omega
  have hbit : ∀ x, 2 ^ j ≤ x → x < 2 ^ (j + 1) → x.testBit j = true := by
    intro x hx1 hx2
    have e : x = 2 ^ j + (x - 2 ^ j) := by omega
    rw [e, Nat.testBit_two_pow_add_eq, Nat.testBit_lt_two_pow (by omega)]
    rfl
  intro h0
  have hb : (m &&& (m - 1)).testBit j = true := by
    rw [Nat.testBit_and, hbit m (by omega) h2, hbit (m - 1) (by omega) (by omega)]
    rfl
  rw [h0, Nat.zero_testBit] at hb
  cases hb

/-- The value of `wideWidth` between two consecutive powers of two. -/
theorem wideWidth_range (j M : Nat) (hj2 : 2 ≤ j) (hj : j ≤ 10) (h1 : 2 ^ j ≤ M)
    (h2 : M < 2 ^ (j + 1)) : wideWidth M = j + 2 := by
  interval_cases j <;>
    (norm_num at h1 h2
     unfold wideWidth
     split_ifs <;> omega)

/-- The key width follows the entry count: it grows when `add_entry` returns
1. -/
theorem wideWidth_succ (N : Nat) (h6 : 6 ≤ N) (h : N < 2048) :
    wideWidth (N + 1) = wideWidth N + if (N + 1) &&& N = 0 then 1 else 0 := by
  by_cases hp : N + 1 = 8 ∨ N + 1 = 16 ∨ N + 1 = 32 ∨ N + 1 = 64 ∨ N + 1 = 128 ∨
      N + 1 = 256 ∨ N + 1 = 512 ∨ N + 1 = 1024 ∨ N + 1 = 2048
  · rcases hp with h | h | h | h | h | h | h | h | h <;>
      (have hN : N = N + 1 - 1 := rfl
       rw [h] at hN
       subst hN
       decide)
  · have hcase : ∃ j, 2 ≤ j ∧ j ≤ 10 ∧ 2 ^ j < N + 1 ∧ N + 1 < 2 ^ (j + 1) := by
      have hc : (4 < N + 1 ∧ N + 1 < 8) ∨ (8 < N + 1 ∧ N + 1 < 16) ∨
          (16 < N + 1 ∧ N + 1 < 32) ∨ (32 < N + 1 ∧ N + 1 < 64) ∨
          (64 < N + 1 ∧ N + 1 < 128) ∨ (128 < N + 1 ∧ N + 1 < 256) ∨
          (256 < N + 1 ∧ N + 1 < 512) ∨ (512 < N + 1 ∧ N + 1 < 1024) ∨
          (1024 < N + 1 ∧ N + 1 < 2048) := by omega
      rcases hc with h | h | h | h | h | h | h | h | h
      · exact ⟨2, by decide, by decide, h.1, h.2⟩
      · exact ⟨3, by decide, by decide, h.1, h.2⟩
      · exact ⟨4, by decide, by decide, h.1, h.2⟩
      · exact ⟨5, by decide, by decide, h.1, h.2⟩
      · exact ⟨6, by decide, by decide, h.1, h.2⟩
      · exact ⟨7, by decide, by decide, h.1, h.2⟩
      · exact ⟨8, by decide, by decide, h.1, h.2⟩
      · exact ⟨9, by decide, by decide, h.1, h.2⟩
      · exact ⟨10, by decide, by decide, h.1, h.2⟩
    obtain ⟨j, hj2, hj, h1, h2⟩ := hcase
    have hne : (N + 1) &&& N ≠ 0 := and_pred_ne_zero j (N + 1) h1 h2
    rw [if_neg hne,
      wideWidth_range j (N + 1) hj2 hj (by omega) h2,
      wideWidth_range j N hj2 hj (by omega) (by omega)]

/-- Decoding one more code 0 of `wideCodes`, whatever code source hands it
out. -/
theorem wideCore_step {ρ : Type} (next : Nat → ρ → Nat × ρ) (k : Nat) (hk1 : 1 ≤ k)
    (hk : k < 2043) (s : Lzw ρ) (h : WideCore k s)
    (hzero : (next (wideWidth (5 + k)) s.rd).1 = 0) :
    ∃ s', lzw_iteration reallocOk next fullTableSample 0 3 4 5 s = some (s', none) ∧
      WideCore (k + 1) s' ∧ s'.rd = (next (wideWidth (5 + k)) s.rd).2 := by
  obtain ⟨hkey, hfull, hoff, hstr, hent, hn, hks, hbulk, h256, hle, e0, hframe⟩ := h
  obtain ⟨t', r, hadd, an, ab, abulk, ale, anew, aold, ar⟩ :=
    add_entry_spec reallocOk s.table 2 0 0 (fun _ => rfl) hbulk hle (by omega)
  have hr1 : ¬ r = -1 := by
    rcases ar with h | h <;> rw [h] <;> decide
  have hr := add_entry_ret _ _ _ _ _ _ _ hadd hr1
  have hupd : lzw_update reallocOk 3 4 s = some { s with table := t', ret := r } := by
    unfold lzw_update
    rw [if_neg (by rw [hkey]; decide)]
    simp only [hfull, hstr, hent, hkey, hadd, Option.map_some']
    rw [if_neg hr1, if_neg (by rw [an, hn]; omega)]
  have hroot : (t'.entries[0]?).join = some ⟨1, 0xFFF, 0⟩ := by
    rw [aold 0 (by omega) (by omega), e0]; rfl
  obtain ⟨sn, sb, sl, sold, snew⟩ := set_suffix_spec t' 0
  refine ⟨{ s with
      table := set_suffix t' 0
      ret := r
      key := 0
      rd := (next (wideWidth (5 + k)) s.rd).2
      key_size := if r = 1 then wideWidth (5 + k) + 1 else wideWidth (5 + k)
      entry := some ⟨1, 0xFFF, 0⟩
      str_len := some 1
      frame := s.frame
      frm_off := s.frm_off + 1 }, ?_, ?_, rfl⟩
  · have hwalk : walk fullTableSample 0 s.frm_off t' (t'.entries.length + 1)
        ⟨1, 0xFFF, 0⟩ s.frame = some (⟨1, 0xFFF, 0⟩, s.frame) := by
      rw [walk_fullTableSample _ _ _ _ _ (by decide)
        (by rw [hoff]; show 2 + k + 1 - 1 < 4093; omega)]
      rw [store_eq_some _ _ _ (by
        rw [hframe, hoff, List.length_replicate]; show 2 + k + 1 - 1 < 4093; omega)]
      rw [Option.some_bind, if_pos rfl, hframe]
      show some (_, (List.replicate 4093 0).set _ (0 % 256)) = _
      rw [Nat.zero_mod, List.set_replicate_self]
    have hcond : 0 + 1 < t'.nentries ∧ false = false := ⟨by omega, rfl⟩
    unfold lzw_iteration
    rw [hupd, Option.some_bind, if_neg (fun h => hr1 h.2.2)]
    simp only [hks, hzero]
    rw [if_neg (by decide), if_neg (by decide)]
    by_cases hr1 : r = 1
    · simp only [hr1, if_true, hroot, hwalk, Option.some_bind, hfull, hcond, and_self]
    · simp only [hr1, if_false, hroot, hwalk, Option.some_bind, hfull, hcond, and_self, if_true]
  · refine ⟨rfl, hfull, by show s.frm_off + 1 = 2 + (k + 1); omega, rfl, rfl,
      by show (set_suffix t' 0).nentries = 5 + (k + 1); omega, ?_,
      by show (set_suffix t' 0).bulk = (set_suffix t' 0).entries.length; omega,
      by show 256 ≤ (set_suffix t' 0).bulk; omega,
      by show (set_suffix t' 0).nentries ≤ (set_suffix t' 0).bulk; omega, ?_, hframe⟩
    · show (if r = 1 then wideWidth (5 + k) + 1 else wideWidth (5 + k)) =
        wideWidth (5 + (k + 1))
      have hw := wideWidth_succ (5 + k) (by omega) (by omega)
      rw [hn] at hr
      rw [show 5 + (k + 1) = 5 + k + 1 from rfl, hw]
      by_cases hz : (5 + k + 1) &&& (5 + k) = 0
      · rw [if_pos hz] at hr ⊢
        rw [if_pos hr]
      · rw [if_neg hz] at hr ⊢
        rw [if_neg (by rw [hr]; decide), Nat.add_zero]
    · show (set_suffix t' 0).entries[0]? = _
      rw [sold 0 (by omega), aold 0 (by omega) (by omega), e0]

/-- Passing through iterations that do not leave the loop. -/
theorem lzw_loop_steps {ρ : Type} (realloc : Nat → Bool) (next : Nat → ρ → Nat × ρ)
    (gif : gd_GIF) (interlace init_key_size clear stop : Nat) :
    ∀ (k : Nat) (s s' : Lzw ρ),
      lzw_steps realloc next gif interlace init_key_size clear stop k s = some s' →
      ∀ fuel, lzw_loop realloc next gif interlace init_key_size clear stop (k + fuel) s =
        lzw_loop realloc next gif interlace init_key_size clear stop fuel s' := by
  intro k
  induction k with
  | zero =>
    intro s s' h fuel
    rw [lzw_steps] at h
    rw [Option.some.inj h, Nat.zero_add]
  | succ k ih =>
    intro s s' h fuel
    rw [lzw_steps] at h
    cases hit : lzw_iteration realloc next gif interlace init_key_size clear stop s with
    | none => rw [hit] at h; cases h
    | some r =>
      obtain ⟨t, b⟩ := r
      rw [hit] at h
      cases b with
      | some v => cases h
      | none =>
        simp only at h
        have e : k + 1 + fuel = (k + fuel) + 1 := by omega
        rw [e, lzw_loop_succ _ _ _ _ _ _ _ _ s t hit]
        exact ih t s' h fuel

/-- Decoding the remaining codes 0 of `wideCodes`: `RdInv k` describes the
code source when `k` of them have been decoded, and is such that the source
then hands out a code 0 at the width asked for. -/
theorem wideCore_run {ρ : Type} (next : Nat → ρ → Nat × ρ) (RdInv : Nat → ρ → Prop)
    (hzero : ∀ k rd, 1 ≤ k → k < 2043 → RdInv k rd →
      (next (wideWidth (5 + k)) rd).1 = 0 ∧ RdInv (k + 1) (next (wideWidth (5 + k)) rd).2) :
    ∀ (m k : Nat) (s : Lzw ρ), 1 ≤ k → k + m = 2043 → WideCore k s → RdInv k s.rd →
      ∃ s', WideCore 2043 s' ∧ RdInv 2043 s'.rd ∧ ∀ fuel,
        lzw_loop reallocOk next fullTableSample 0 3 4 5 (m + fuel) s =
          lzw_loop reallocOk next fullTableSample 0 3 4 5 fuel s' := by
  intro m
  induction m with
  | zero =>
    intro k s _ hk h hrd
    have : k = 2043 := by omega
    subst this
    exact ⟨s, h, hrd, fun fuel => by rw [Nat.zero_add]⟩
  | succ m ih =>
    intro k s hk1 hk h hrd
    obtain ⟨hz, hrd1⟩ := hzero k s.rd hk1 (by omega) hrd
    obtain ⟨s1, hs1, h1, hrd'⟩ := wideCore_step next k hk1 (by omega) s h hz
    obtain ⟨s', hs', hrds', hrun⟩ := ih (k + 1) s1 (by omega) (by omega) h1
      (by rw [hrd']; exact hrd1)
    refine ⟨s', hs', hrds', fun fuel => ?_⟩
    have e : m + 1 + fuel = (m + fuel) + 1 := by omega
    rw [e, lzw_loop_succ _ _ _ _ _ _ _ _ s s1 hs1]
    exact hrun fuel

/-- The last iteration on `wideCodes`: with 2048 entries in the table the key
width is 13, and STOP is asked for at that width. -/
theorem wideCore_end {ρ : Type} (next : Nat → ρ → Nat × ρ) (s : Lzw ρ)
    (h : WideCore 2043 s) (hstop : (next 13 s.rd).1 = 5) :
    ∃ s', lzw_iteration reallocOk next fullTableSample 0 3 4 5 s = some (s', some 0) ∧
      s'.rd = (next 13 s.rd).2 := by
  obtain ⟨hkey, hfull, hoff, hstr, hent, hn, hks, hbulk, h256, hle, e0, hframe⟩ := h
  obtain ⟨t', r, hadd, an, ab, abulk, ale, anew, aold, ar⟩ :=
    add_entry_spec reallocOk s.table 2 0 0 (fun _ => rfl) hbulk hle (by omega)
  have hr1 : ¬ r = -1 := by
    rcases ar with h | h <;> rw [h] <;> decide
  have hupd : lzw_update reallocOk 3 4 s = some { s with table := t', ret := r } := by
    unfold lzw_update
    rw [if_neg (by rw [hkey]; decide)]
    simp only [hfull, hstr, hent, hkey, hadd, Option.map_some']
    rw [if_neg hr1, if_neg (by rw [an, hn]; omega)]
  have hks' : s.key_size = 13 := by rw [hks]; decide
  refine ⟨{ s with table := t', ret := r, key := 5, rd := (next 13 s.rd).2 }, ?_, rfl⟩
  unfold lzw_iteration
  rw [hupd, Option.some_bind, if_neg (fun h => hr1 h.2.2)]
  simp only [hks', hstop]
  rw [if_neg (by decide), if_pos (by decide)]

/-- From a Boolean check on an optional state to the state. -/
theorem option_check {σ : Type} (o : Option σ) (P : σ → Prop) [DecidablePred P]
    (h : (o.map fun s => decide (P s)) = some true) : ∃ s, o = some s ∧ P s := by
  cases o with
  | none => cases h
  | some s => exact ⟨s, rfl, of_decide_eq_true (Option.some.inj h)⟩


/-! #### The code sequence `wideCodes` -/

/-- The state in which `wideCodes` enters the main loop. -/
theorem wide_start :
    lzw_start (widthReader 5) fullTableSample.frame 2 (wideCodes, []) =
      some (wideStart, 3, 4, 5) := by
  rfl

set_option maxRecDepth 100000 in
/-- The first four iterations on `wideCodes`: CLEAR, the codes 0 0 (the second
append brings the entry count to 8 and `ret` to 1), the second CLEAR, and the
first of the 2043 codes 0, after which the key width is 4. -/
theorem wide_first :
    ∃ s1, lzw_steps reallocOk (widthReader 5) fullTableSample 0 3 4 5 4 wideStart = some s1 ∧
      (WideCore 1 s1 ∧ s1.rd.1 = List.replicate 2042 0 ++ [5]) := by
  apply option_check
  decide!

/-- On the code sequence `wideCodes`, code size 2, the decoder runs to the
STOP code, and the last key width it asks the code source for is 13. -/
theorem wideCodes_width :
    ∃ s log, lzw_decode reallocOk (widthReader 5) 2048 fullTableSample 0 2 (wideCodes, []) =
        some (s, 0) ∧
      s.rd.2 = log ++ [13] := by
  obtain ⟨s1, h1, hw1, hrd1⟩ := wide_first
  obtain ⟨s2, hw2, hrd2, hrun⟩ := wideCore_run (widthReader 5)
    (fun k rd => rd.1 = List.replicate (2043 - k) 0 ++ [5])
    (by
      intro k rd _ hk hrd
      have e : 2043 - k = (2043 - (k + 1)) + 1 := by omega
      have hrd' : rd.1 = 0 :: (List.replicate (2043 - (k + 1)) 0 ++ [5]) := by
        rw [hrd, e, List.replicate_succ]
        rfl
      simp only [widthReader, logReader, hrd', listReader]
      exact ⟨trivial, trivial⟩)
    2042 1 s1 (by decide) (by decide) hw1 hrd1
  have hrd2' : s2.rd.1 = [5] := hrd2
  obtain ⟨s3, hend, hlog⟩ := wideCore_end (widthReader 5) s2 hw2 (by
    simp only [widthReader, logReader, hrd2', listReader])
  refine ⟨s3, s2.rd.2, ?_, by rw [hlog]; rfl⟩
  unfold lzw_decode
  rw [wide_start, Option.some_bind]
  show lzw_loop reallocOk (widthReader 5) fullTableSample 0 3 4 5 (4 + 2044) wideStart = _
  rw [lzw_loop_steps _ _ _ _ _ _ _ 4 wideStart s1 h1 2044]
  show lzw_loop reallocOk (widthReader 5) fullTableSample 0 3 4 5 (2042 + 2) s1 = _
  rw [hrun 2]
  exact lzw_loop_break _ _ _ _ _ _ _ 1 _ _ 0 hend

/-! #### The image data `wideBytes` -/

set_option maxRecDepth 100000 in
/-- The payload of `wideBytes`. -/
theorem wide_payload :
    wideBlocks.flatten = [4, 8] ++ (List.replicate 2813 0 ++ [0x80, 0x02, 0x00]) := by
  decide!

set_option maxRecDepth 100000 in
theorem wide_payload_bytes : ∀ v ∈ wideBlocks.flatten, v < 256 := by
  decide!

set_option maxRecDepth 100000 in
theorem wide_payload_length : wideBlocks.flatten.length = 2818 := by
  decide!

/-- Between the second CLEAR code and the STOP code all payload bits are
zero. -/
theorem wide_payload_zero (i : Nat) (h1 : 12 ≤ i) (h2 : i < 22527) :
    payloadBit wideBlocks.flatten i = false := by
  unfold payloadBit
  rw [wide_payload]
  by_cases ha : i < 16
  · interval_cases i <;> rfl
  · by_cases hb : i < 22520
    · have hq1 : 2 ≤ i / 8 := by omega
      have hq2 : i / 8 - 2 < 2813 := by omega
      have hget : ([4, 8] ++ (List.replicate 2813 0 ++ [0x80, 0x02, 0x00])).getD (i / 8) 0 = 0 := by
        rw [List.getD_eq_getElem?_getD, List.getElem?_append_right (show 2 ≤ i / 8 from hq1),
          List.getElem?_append_left (by rw [List.length_replicate]; exact hq2),
          List.getElem?_replicate, if_pos (show i / 8 - [4, 8].length < 2813 from hq2)]
        rfl
      rw [hget, Nat.zero_testBit]
    · have hq : i / 8 = 2815 := by omega
      have hget : ([4, 8] ++ (List.replicate 2813 0 ++ [0x80, 0x02, 0x00])).getD 2815 0 =
          0x80 := by
        rw [List.getD_eq_getElem?_getD,
          List.getElem?_append_right (show 2 ≤ 2815 from by decide),
          List.getElem?_append_right (by rw [List.length_replicate]; decide),
          List.length_replicate]
        rfl
      rw [hq, hget]
      have hr : i % 8 < 7 := by omega
      interval_cases hm : i % 8 <;> rfl

theorem wideWidth_le (N : Nat) : wideWidth N ≤ 13 := by
  unfold wideWidth
  split_ifs <;> omega

theorem wideOff_succ (k : Nat) (hk : 1 ≤ k) :
    wideOff (k + 1) = wideOff k + wideWidth (5 + k) := by
  rw [wideOff, if_neg (by omega)]

theorem wideOff_mono : ∀ m k, wideOff k ≤ wideOff (k + m) := by
  intro m
  induction m with
  | zero => intro k; exact Nat.le_refl _
  | succ m ih =>
    intro k
    have h := ih k
    rw [show k + (m + 1) = (k + m) + 1 from rfl, wideOff]
    omega

set_option maxRecDepth 100000 in
theorem wideOff_last : wideOff 2043 = 22527 := by
  decide!

/-- On `wideBytes`, while the codes 0 are decoded, `get_key` returns 0 at the
width asked for and stays in step with the bit offsets `wideOff`. -/
theorem wide_get_key_zero (k : Nat) (rd : KeyReader × List Nat) (hk1 : 1 ≤ k) (hk : k < 2043)
    (h : BitsConsumed wideBlocks.flatten (wideOff k) rd.1 ∧ rd.1.shift = wideOff k % 8) :
    (logReader get_key (wideWidth (5 + k)) rd).1 = 0 ∧
      (BitsConsumed wideBlocks.flatten (wideOff (k + 1))
          (logReader get_key (wideWidth (5 + k)) rd).2.1 ∧
        (logReader get_key (wideWidth (5 + k)) rd).2.1.shift = wideOff (k + 1) % 8) := by
  have hw := wideWidth_le (5 + k)
  have hsucc := wideOff_succ k hk1
  have hmono := wideOff_mono (2043 - (k + 1)) (k + 1)
  rw [show k + 1 + (2043 - (k + 1)) = 2043 from by omega, wideOff_last] at hmono
  have hge := wideOff_mono k 0
  rw [Nat.zero_add] at hge
  have h12 : wideOff 0 = 12 := rfl
  obtain ⟨hbits, hcons, hshift⟩ := get_key_spec wideBlocks.flatten wide_payload_bytes
    (wideWidth (5 + k)) (wideOff k) (by omega) (by rw [wide_payload_length]; omega) rd.1 h.2 h.1
  refine ⟨?_, ?_, ?_⟩
  · show (get_key (wideWidth (5 + k)) rd.1).1 = 0
    apply Nat.eq_of_testBit_eq
    intro j
    rw [hbits j, Nat.zero_testBit]
    by_cases hj : j < wideWidth (5 + k)
    · rw [wide_payload_zero _ (by omega) (by omega), Bool.and_false]
    · simp [hj]
  · show BitsConsumed wideBlocks.flatten (wideOff (k + 1)) (get_key (wideWidth (5 + k)) rd.1).2
    rw [hsucc]
    exact hcons
  · show (get_key (wideWidth (5 + k)) rd.1).2.shift = wideOff (k + 1) % 8
    rw [hsucc]
    exact hshift

set_option maxRecDepth 100000 in
/-- On `wideBytes`, the 13-bit key at the bit offset reached after the 2043
codes 0 is STOP. -/
theorem wide_get_key_stop (rd : KeyReader × List Nat)
    (h : BitsConsumed wideBlocks.flatten (wideOff 2043) rd.1 ∧ rd.1.shift = wideOff 2043 % 8) :
    (logReader get_key 13 rd).1 = 5 := by
  rw [wideOff_last] at h
  obtain ⟨hbits, _, _⟩ := get_key_spec wideBlocks.flatten wide_payload_bytes 13 22527
    (by decide) (by rw [wide_payload_length]; decide) rd.1 h.2 h.1
  show (get_key 13 rd.1).1 = 5
  apply Nat.eq_of_testBit_eq
  intro j
  rw [hbits j]
  by_cases hj : j < 13
  · interval_cases j <;> decide!
  · have h5 : Nat.testBit 5 j = false := by
      apply Nat.testBit_lt_two_pow
      calc 5 < 2 ^ 13 := by decide
        _ ≤ 2 ^ j := Nat.pow_le_pow_right (by decide) (by omega)
    rw [h5]
    simp [hj]

set_option maxRecDepth 100000 in
/-- The entry into the main loop and the first four iterations on
`wideBytes`: the keys CLEAR 0 0 CLEAR 0 are read at 3 bits each, and the key
width is 4 afterwards; the bit reader has consumed 15 bits. -/
theorem wide_first_bytes :
    ∃ s1, (lzw_start (logReader get_key) fullTableSample.frame 2 (wideReader, [])).bind
        (fun i => lzw_steps reallocOk (logReader get_key) fullTableSample 0 i.2.1 i.2.2.1
          i.2.2.2 4 i.1) =
          some s1 ∧
      (WideCore 1 s1 ∧ s1.rd.1 = ⟨⟨wideBytes, 4, false⟩, 253, 7, 8⟩) := by
  apply option_check
  decide!

set_option maxRecDepth 100000 in
/-- The bit reader after the first 15 bits of `wideBytes`. -/
theorem wide_reader_fifteen :
    BitsConsumed wideBlocks.flatten (wideOff 1) ⟨⟨wideBytes, 4, false⟩, 253, 7, 8⟩ ∧
      (⟨⟨wideBytes, 4, false⟩, 253, 7, 8⟩ : KeyReader).shift = wideOff 1 % 8 := by
  refine ⟨⟨⟨List.replicate 253 0, wideBlocks.drop 1, [0], by decide!, by decide, ?_, by decide!,
    by decide!⟩, fun _ => by decide!⟩, by decide⟩
  unfold WellFormedBlocks
  decide!

/-- Claim C17 fails on the image data `wideBytes` (code size 2; a payload of
2818 bytes, all zero but `04 08` at the start and `80 02` near the end, in
sub-blocks of 255 bytes; the terminator): the loop of `read_image_data`, with
the width of every `get_key` call recorded, runs to the STOP code, and the
last key width it passes to `get_key` is 13. The bytes hold the codes
CLEAR 0 0 CLEAR, 2043 times 0, STOP as the decoder reads them. The second
CLEAR finds `ret == 1` left by the append that brought the entry count to 8,
so the width is 4 from the second code after that CLEAR on, one more than the
entry count calls for, and reaches 13 when the count reaches 2048. -/
theorem key_width_thirteen :
    ∃ s log, lzw_decode reallocOk (logReader get_key) 2048 fullTableSample 0 2 (wideReader, []) =
        some (s, 0) ∧
      s.rd.2 = log ++ [13] := by
  obtain ⟨s1, h1, hw1, hrd1⟩ := wide_first_bytes
  obtain ⟨i, hstart, hsteps⟩ := Option.bind_eq_some.1 h1
  obtain ⟨s0, iks, clear, stop⟩ := i
  obtain ⟨hiks, hclear, hstop, _⟩ := lzw_start_some _ _ _ _ _ _ _ _ (by decide) hstart
  have hiks' : iks = 3 := hiks
  have hclear' : clear = 4 := hclear
  have hstop' : stop = 5 := hstop
  subst hiks' hclear' hstop'
  have hsteps' : lzw_steps reallocOk (logReader get_key) fullTableSample 0 3 4 5 4 s0 =
      some s1 := hsteps
  have hinv1 : BitsConsumed wideBlocks.flatten (wideOff 1) s1.rd.1 ∧
      s1.rd.1.shift = wideOff 1 % 8 := by
    rw [hrd1]
    exact wide_reader_fifteen
  obtain ⟨s2, hw2, hrd2, hrun⟩ := wideCore_run (logReader get_key)
    (fun k rd => BitsConsumed wideBlocks.flatten (wideOff k) rd.1 ∧
      rd.1.shift = wideOff k % 8)
    (fun k rd hk1 hk h => wide_get_key_zero k rd hk1 hk h)
    2042 1 s1 (by decide) (by decide) hw1 hinv1
  obtain ⟨s3, hend, hlog⟩ := wideCore_end (logReader get_key) s2 hw2
    (wide_get_key_stop s2.rd hrd2)
  refine ⟨s3, s2.rd.2, ?_, by rw [hlog]; rfl⟩
  unfold lzw_decode
  rw [hstart, Option.some_bind]
  show lzw_loop reallocOk (logReader get_key) fullTableSample 0 3 4 5 (4 + 2044) s0 = _
  rw [lzw_loop_steps _ _ _ _ _ _ _ 4 s0 s1 hsteps' 2044]
  show lzw_loop reallocOk (logReader get_key) fullTableSample 0 3 4 5 (2042 + 2) s1 = _
  rw [hrun 2]
  exact lzw_loop_break _ _ _ _ _ _ _ 1 _ _ 0 hend

/-! ## Disposal by merging (methods 0 and 1) -/

/-- Claim C20: for a handle with 3-byte output, disposal method 0 or 1 and
the frame rectangle inside the canvas, `dispose` and `gd_render_frame` both
have a defined result, `dispose` changes nothing but the canvas, and the
canvas after `dispose` is, byte for byte, the `width * height * 3`-byte
buffer `gd_render_frame` fills from the handle as it was before `dispose`. -/
theorem dispose_merge_eq_render (gif : gd_GIF) (buffer : List Nat) (pal : gd_Palette)
    (hd : gif.gce.disposal = 0 ∨ gif.gce.disposal = 1)
    (hcb : gif.canvasbytes = 3) (hpal : gif.activePalette = some pal)
    (hcolors : pal.colors.length = 0x100 * 3)
    (hcanvas : gif.canvas.length = gif.width * gif.height * 3)
    (hframe : gif.frame.length = gif.width * gif.height)
    (hidx : ∀ v ∈ gif.frame, v < 256)
    (hint : gif.width * gif.height * 3 < 2 ^ 31)
    (hbuf : buffer.length = gif.width * gif.height * 3)
    (hx : gif.fx + gif.fw ≤ gif.width) (hy : gif.fy + gif.fh ≤ gif.height) :
    ∃ canvas, dispose gif = some { gif with canvas := canvas } ∧
      gd_render_frame gif buffer = some canvas ∧
      canvas.length = gif.width * gif.height * 3 := by
  obtain ⟨out, hout, hp⟩ := render_frame_rect_painted gif pal gif.canvas hcb hpal hcolors hframe
    hidx (by omega) hx hy
  have hcopy : memcpy buffer (gif.canvas ++ gif.frame) (gif.width * gif.height * 3) =
      some gif.canvas := by
    unfold memcpy
    rw [if_pos ⟨by simp [hcanvas], by omega⟩, ← hcanvas, List.take_left,
      List.drop_eq_nil_of_le (by omega), List.append_nil]
  refine ⟨out, ?_, ?_, by rw [hp.1, hcanvas]⟩
  · unfold dispose
    rw [if_neg (by omega), if_neg (by omega), hout]
    rfl
  · unfold gd_render_frame
    rw [if_pos hint, hcopy, Option.some_bind]
    exact hout

/-- Instance of claim C20 on `renderSample` (disposal method 0). -/
theorem dispose_merge_eq_render_witness :
    (renderSample.gce.disposal = 0 ∧ renderSample.canvasbytes = 3 ∧
      renderSample.fx + renderSample.fw ≤ renderSample.width ∧
      renderSample.fy + renderSample.fh ≤ renderSample.height) ∧
    ∃ canvas, dispose renderSample = some { renderSample with canvas := canvas } ∧
      gd_render_frame renderSample (List.replicate 12 0) = some canvas ∧
      canvas.length = renderSample.width * renderSample.height * 3 :=
  ⟨by decide!,
    dispose_merge_eq_render renderSample (List.replicate 12 0) renderSample.gct
      (Or.inl rfl) (by decide!) (by decide!) (by decide!) (by decide!) (by decide!) (by decide!)
      (by decide!) (by decide!) (by decide!) (by decide!)⟩

/-! ## The frame rectangle after `gd_get_frame` -/

end Gifdec
